import Mathlib

/-!
# Verification of the MegaLLM setup CLI (megallm-npm)

A shallow embedding, in Lean 4, of the pure cores of the `megallm-npm`
repository: the JSON configuration model and `mergeJsonConfig`
(`src/utils/files.js`), the shell-profile text patching of
`setEnvironmentVariable` and `removeUnixEnvVars` (`src/utils/shell.js`),
the JSON file round-trip of `readJsonFile`/`writeJsonFile`, the
configuration-path resolution (`src/detectors/os.js`, `src/constants.js`),
the Claude/Codex configurators (`src/configurators/*.js`), the environment
variable detector (`detectExistingEnvVars`, `removeEnvVars`), `maskApiKey`,
and the top-level CLI failure flow (`src/cli.js`).

JavaScript values are modelled by the inductive `Json` below (numbers as
`Int`: every numeric literal in this repository's configuration data is an
integer); JS objects are association lists in insertion order, as the JS
engine preserves insertion order for string keys.  Stateful code (the file
system, the process environment) is passed explicitly.
-/

namespace Megallm

/-- JSON/JS values as stored in the configuration files.  Numbers are
modelled as integers (`JSON.stringify` output of the configs this tool
writes never contains fractional numbers). -/
inductive Json where
  | null
  | bool (b : Bool)
  | num (n : Int)
  | str (s : String)
  | arr (elems : List Json)
  | obj (fields : List (String × Json))
deriving Inhabited

/-- JS property read `o[k]` on an object's field list (fields have unique
keys in a real JS object; lookup returns the first binding). -/
def lookupKey : List (String × Json) → String → Option Json
  | [], _ => none
  | (k', v) :: t, k => if k' = k then some v else lookupKey t k

/-- JS property write `o[k] = v`: updates the binding in place if the key
exists (keeping its position, as JS does), otherwise appends it. -/
def setKey : List (String × Json) → String → Json → List (String × Json)
  | [], k, v => [(k, v)]
  | (k', v') :: t, k, v => if k' = k then (k', v) :: t else (k', v') :: setKey t k v

/-- JS truthiness of a value (`undefined` is handled by callers via
`Option`). -/
def jsTruthy : Json → Bool
  | .null => false
  | .bool b => b
  | .num n => n != 0
  | .str s => s ≠ ""
  | .arr _ => true
  | .obj _ => true

/-- The own enumerable properties contributed by a value under JS object
spread `{...v}`: objects contribute their fields, arrays and strings their
index properties, primitives nothing. -/
def spreadProps : Json → List (String × Json)
  | .obj o => o
  | .arr l => (List.range l.length).zip l |>.map fun p => (toString p.1, p.2)
  | .str s => (List.range s.length).zip s.toList |>.map fun p => (toString p.1, Json.str (String.mk [p.2]))
  | _ => []

/-- JS object spread `{...a, ...b}`: `a`'s keys in order (values overridden
by `b` where present), then `b`'s new keys in order. -/
def jsSpread (a b : List (String × Json)) : List (String × Json) :=
  (a.map fun kv => (kv.1, (lookupKey b kv.1).getD kv.2)) ++
    b.filter fun kv => (lookupKey a kv.1).isNone

/-- `merged[key] || {}` from `mergeJsonConfig`: a missing or falsy value is
replaced by the empty object. -/
def jsOrEmptyObj : Option Json → Json
  | some v => if jsTruthy v then v else Json.obj []
  | none => Json.obj []

/-- `mergeJsonConfig(existingData, newData)` from `src/utils/files.js`:
start from a shallow copy of `existingData`; for each key of `newData`,
if the new value is a non-array non-null object, assign
`{...(merged[key] || {}), ...newData[key]}`, otherwise assign the new value. -/
def mergeJsonConfig (existingData newData : List (String × Json)) : List (String × Json) :=
  newData.foldl
    (fun merged kv =>
      match kv.2 with
      | Json.obj o =>
          setKey merged kv.1
            (Json.obj (jsSpread (spreadProps (jsOrEmptyObj (lookupKey merged kv.1))) o))
      | v => setKey merged kv.1 v)
    existingData

/-- Path lookup in a JSON tree (for stating which nested keys survive a
merge). -/
def getPath : Json → List String → Option Json
  | v, [] => some v
  | .obj o, k :: p => match lookupKey o k with
      | some v => getPath v p
      | none => none
  | _, _ :: _ => none

theorem lookupKey_setKey_ne (o : List (String × Json)) (k k' : String) (v : Json)
    (h : k' ≠ k) : lookupKey (setKey o k' v) k = lookupKey o k := by
  induction o with
  | nil => simp [setKey, lookupKey, h]
  | cons hd t ih =>
      obtain ⟨k0, v0⟩ := hd
      by_cases hk : k0 = k'
      · subst hk
        simp [setKey, lookupKey, h]
      · simp only [setKey, if_neg hk]
        by_cases hk2 : k0 = k
        · simp [lookupKey, hk2]
        · simp [lookupKey, hk2, ih]

theorem lookupKey_mergeJsonConfig_of_not_mem (ex : List (String × Json)) (k : String) :
    ∀ nw : List (String × Json), lookupKey nw k = none →
      lookupKey (mergeJsonConfig ex nw) k = lookupKey ex k := by
  intro nw
  induction nw generalizing ex with
  | nil => intro _; rfl
  | cons kv t ih =>
      intro h
      obtain ⟨k0, v0⟩ := kv
      simp only [lookupKey] at h
      by_cases hk : k0 = k
      · simp [hk] at h
      · rw [if_neg hk] at h
        show lookupKey (mergeJsonConfig (match v0 with
          | Json.obj o => setKey ex k0
              (Json.obj (jsSpread (spreadProps (jsOrEmptyObj (lookupKey ex k0))) o))
          | v => setKey ex k0 v) t) k = lookupKey ex k
        cases v0 with
        | obj o => rw [ih _ h, lookupKey_setKey_ne _ _ _ _ hk]
        | null => rw [ih _ h, lookupKey_setKey_ne _ _ _ _ hk]
        | bool b => rw [ih _ h, lookupKey_setKey_ne _ _ _ _ hk]
        | num n => rw [ih _ h, lookupKey_setKey_ne _ _ _ _ hk]
        | str s => rw [ih _ h, lookupKey_setKey_ne _ _ _ _ hk]
        | arr l => rw [ih _ h, lookupKey_setKey_ne _ _ _ _ hk]

/-- The existing configuration of the C1 counterexample:
`{"a": {"b": {"c": 1, "d": 2}}}`. -/
def c1Existing : List (String × Json) :=
  [("a", Json.obj [("b", Json.obj [("c", Json.num 1), ("d", Json.num 2)])])]

/-- The new settings of the C1 counterexample: `{"a": {"b": {"c": 3}}}`.
The nested key `a.b.d` of the existing configuration is unrelated to it. -/
def c1New : List (String × Json) :=
  [("a", Json.obj [("b", Json.obj [("c", Json.num 3)])])]

/-- C1 (counterexample): `mergeJsonConfig` does NOT preserve unrelated
nested keys at arbitrary depth.  Merging `{"a":{"b":{"c":3}}}` into
`{"a":{"b":{"c":1,"d":2}}}` drops the key `a.b.d` (value `2`), even though
that key is absent from the new settings: the merge is only two levels
deep, so `a.b` is overwritten wholesale. -/
theorem mergeJsonConfig_drops_deep_key :
    getPath (Json.obj c1Existing) ["a", "b", "d"] = some (Json.num 2) ∧
    getPath (Json.obj c1New) ["a", "b", "d"] = none ∧
    getPath (Json.obj (mergeJsonConfig c1Existing c1New)) ["a", "b", "d"] = none := by
  refine ⟨rfl, rfl, ?_⟩
  rfl

/-- C1 (amended): merging never drops unrelated *top-level* keys: every
top-level key of the existing configuration that is absent from the new
settings (whatever its value: nested object, array, scalar) is still
present with its original value after `mergeJsonConfig`.  (Keys nested
below a top-level key that the new settings also set may be dropped, as the
merge descends only one level: see `mergeJsonConfig_drops_deep_key`.) -/
theorem mergeJsonConfig_preserves_unrelated (ex nw : List (String × Json)) (k : String)
    (h : lookupKey nw k = none) :
    lookupKey (mergeJsonConfig ex nw) k = lookupKey ex k :=
  lookupKey_mergeJsonConfig_of_not_mem ex k nw h

/-- Witness for `mergeJsonConfig_preserves_unrelated`: the array-valued key
`"keep"` of the existing configuration survives a merge that sets the
unrelated key `"env"`. -/
theorem mergeJsonConfig_preserves_unrelated_witness :
    lookupKey [("env", Json.obj [("X", Json.num 1)])] "keep" = none ∧
    lookupKey
      (mergeJsonConfig [("keep", Json.arr [Json.num 7])]
        [("env", Json.obj [("X", Json.num 1)])]) "keep" =
      lookupKey [("keep", Json.arr [Json.num 7])] "keep" :=
  ⟨rfl, mergeJsonConfig_preserves_unrelated _ _ "keep" rfl⟩

/-! ## `maskApiKey` (`src/utils/shell.js`) -/

/-- `maskApiKey(apiKey)`: keys shorter than 10 characters (including the
empty key) are returned unchanged; otherwise the first 10 characters,
`"..."`, and the last 4 characters. -/
def maskApiKey (apiKey : String) : String :=
  if apiKey = "" ∨ apiKey.length < 10 then apiKey
  else apiKey.take 10 ++ "..." ++ apiKey.takeRight 4

/-- C10: `maskApiKey` masks every key of length at least 10 as first 10
characters, `"..."`, last 4 characters, and returns every shorter key
unchanged. -/
theorem maskApiKey_spec (s : String) :
    (10 ≤ s.length → maskApiKey s = s.take 10 ++ "..." ++ s.takeRight 4) ∧
    (s.length < 10 → maskApiKey s = s) := by
  constructor
  · intro h
    have hne : ¬(s = "" ∨ s.length < 10) := by
      rintro (rfl | hlt)
      · simp at h
      · omega
    simp [maskApiKey, hne]
  · intro h
    simp [maskApiKey, Or.inr h]

/-- Witness for `maskApiKey_spec` at concrete keys of both kinds. -/
theorem maskApiKey_spec_witness :
    maskApiKey "sk-0123456789abcd" = "sk-0123456" ++ "..." ++ "abcd" ∧
    maskApiKey "short" = "short" := by
  constructor
  · have h := (maskApiKey_spec "sk-0123456789abcd").1 (by decide)
    simpa using h
  · exact (maskApiKey_spec "short").2 (by decide)

/-! ## `detectExistingEnvVars` (`src/utils/shell.js`, env detection module) -/

/-- One detected occurrence of an environment variable (`source`, display
`value`, optional unmasked `rawValue`, and `location`). -/
structure EnvEntry where
  source : String
  value : String
  rawValue : Option String := none
  location : String
deriving Repr, DecidableEq

/-- The result object built by `detectExistingEnvVars`: one list per
variable, plus the `hasExisting` summary flag. -/
structure DetectResults where
  anthropicBaseUrl : List EnvEntry
  anthropicApiKey : List EnvEntry
  megallmApiKey : List EnvEntry
  hasExisting : Bool
deriving Repr, DecidableEq

/-- JS truthiness of an optional string (`undefined` or `''` are falsy). -/
def truthyOptStr : Option String → Bool
  | some s => s ≠ ""
  | none => false

/-- The `try` body of `detectExistingEnvVars()` when nothing throws:
starts from empty arrays, pushes an entry per truthy variable of the
current process environment, runs the platform-specific scan
(`detectWindowsEnvVars` / `detectUnixEnvVars`, both of which only append
further entries — abstracted as an arbitrary transformation
`platformScan`), and finally computes `hasExisting` from the three
arrays.  The function with the surrounding `try`/`catch`, whose scan may
throw and so skip the final `hasExisting` assignment, is
`detectExistingEnvVarsE` below. -/
def detectExistingEnvVars (procBaseUrl procApiKey procMegallmKey : Option String)
    (platformScan : DetectResults → DetectResults) : DetectResults :=
  let r0 : DetectResults := ⟨[], [], [], false⟩
  let r1 := if truthyOptStr procBaseUrl then
      { r0 with anthropicBaseUrl := r0.anthropicBaseUrl ++
          [⟨"current_process", procBaseUrl.getD "", none, "Current shell session"⟩] }
    else r0
  let r2 := if truthyOptStr procApiKey then
      { r1 with anthropicApiKey := r1.anthropicApiKey ++
          [⟨"current_process", maskApiKey (procApiKey.getD ""), procApiKey,
            "Current shell session"⟩] }
    else r1
  let r3 := if truthyOptStr procMegallmKey then
      { r2 with megallmApiKey := r2.megallmApiKey ++
          [⟨"current_process", maskApiKey (procMegallmKey.getD ""), procMegallmKey,
            "Current shell session"⟩] }
    else r2
  let r4 := platformScan r3
  { r4 with hasExisting :=
      r4.anthropicBaseUrl.length > 0 || r4.anthropicApiKey.length > 0 ||
        r4.megallmApiKey.length > 0 }

/-! ## The top-level CLI failure flow (`src/cli.js`) -/

/-- What the `main` flow does after applying the configurators, or in its
catch-all handler. -/
inductive FlowOutcome where
  | exited (code : Nat)
  | restarted
  | completed
deriving Repr, DecidableEq

/-- The combined configurator success flag of `main` (steps 7): `success`
starts true and is and-ed with each selected configurator's result. -/
def configSuccess (selectedTool : String) (claudeOk codexOk : Bool) : Bool :=
  let s1 := if selectedTool = "claude" ∨ selectedTool = "both" then claudeOk else true
  let s2 := if selectedTool = "codex" ∨ selectedTool = "both" then codexOk else true
  s1 && s2


/-- Occurrence of `needle` as a contiguous infix of a character list. -/
def listIsInfix (needle : List Char) : List Char → Bool
  | [] => decide (needle = [])
  | c :: t => needle.isPrefixOf (c :: t) || listIsInfix needle t

/-- Substring containment (JS `String.prototype.includes`). -/
def strIncludes (haystack needle : String) : Bool :=
  listIsInfix needle.toList haystack.toList

/-- `main`'s outcome after the configurators ran (`src/cli.js` lines
121-128): on failure, prompt for retry and either restart `main` or
`process.exit(1)`; on success continue to completion. -/
def applyOutcome (selectedTool : String) (claudeOk codexOk retryAnswer : Bool) :
    FlowOutcome :=
  if configSuccess selectedTool claudeOk codexOk then FlowOutcome.completed
  else if retryAnswer then FlowOutcome.restarted
  else FlowOutcome.exited 1

/-- `main`'s catch-all handler (`src/cli.js` lines 162-174): a user-initiated
cancellation exits 0, any other uncaught error exits 1. -/
def mainCatchOutcome (errMessage : String) : FlowOutcome :=
  if strIncludes errMessage "User force closed" then FlowOutcome.exited 0
  else FlowOutcome.exited 1

/-- C6: when a selected configurator fails and the user declines the retry
prompt the flow exits with status 1 (non-zero); when the user accepts it
restarts instead of exiting; an uncaught error that is not a user
cancellation also exits with status 1. -/
theorem mainFlow_exit_spec (selectedTool : String) (claudeOk codexOk retryAnswer : Bool)
    (errMessage : String) :
    (configSuccess selectedTool claudeOk codexOk = false → retryAnswer = false →
      applyOutcome selectedTool claudeOk codexOk retryAnswer = FlowOutcome.exited 1) ∧
    (configSuccess selectedTool claudeOk codexOk = false → retryAnswer = true →
      applyOutcome selectedTool claudeOk codexOk retryAnswer = FlowOutcome.restarted) ∧
    (strIncludes errMessage "User force closed" = false →
      mainCatchOutcome errMessage = FlowOutcome.exited 1) := by
  refine ⟨fun hf hr => ?_, fun hf hr => ?_, fun he => ?_⟩
  · simp [applyOutcome, hf, hr]
  · simp [applyOutcome, hf, hr]
  · simp [mainCatchOutcome, he]

/-- Witness for `mainFlow_exit_spec`: Claude Code selected, its configurator
failed, the retry prompt declined, and a generic uncaught error. -/
theorem mainFlow_exit_spec_witness :
    applyOutcome "claude" false true false = FlowOutcome.exited 1 ∧
    applyOutcome "claude" false true true = FlowOutcome.restarted ∧
    mainCatchOutcome "ENOENT: no such file" = FlowOutcome.exited 1 := by
  refine ⟨?_, ?_, ?_⟩
  · exact (mainFlow_exit_spec "claude" false true false "ENOENT: no such file").1
      (by decide) rfl
  · exact (mainFlow_exit_spec "claude" false true true "ENOENT: no such file").2.1
      (by decide) rfl
  · exact (mainFlow_exit_spec "claude" false true true "ENOENT: no such file").2.2
      (by decide)

/-! ## Configuration paths (`src/constants.js`, `src/detectors/os.js`,
`src/configurators/codex.js`) -/

/-- `getConfigPath(tool, level)` from `src/detectors/os.js`, with
`os.homedir()` and the `fs.existsSync(CONFIG_PATHS.claude.projectLocal)`
check passed in explicitly (`path.join` modelled with the POSIX
separator).  System level resolves under the home directory; any other
level resolves to a path relative to the current working directory. -/
def getConfigPath (home : String) (projectLocalExists : Bool) (tool level : String) :
    Option String :=
  if tool = "claude" then
    if level = "system" then some (home ++ "/.claude/settings.json")
    else if projectLocalExists then some ".claude/settings.local.json"
    else some ".claude/settings.json"
  else if tool = "codex" then
    some (if level = "system" then home ++ "/.codex/config.toml" else ".codex/config.toml")
  else none

/-- The configuration path `configureCodex(apiKey, level)` actually writes
to (`src/configurators/codex.js` line 19): the code calls
`getConfigPath('codex', 'system')`, deliberately ignoring the `level`
argument ("Force system-level configuration only for Codex"). -/
def configureCodexConfigPath (home : String) (projectLocalExists : Bool) (_level : String) :
    Option String :=
  getConfigPath home projectLocalExists "codex" "system"

/-- C5 (counterexample): `configureCodex` with level `'project'` does not
write to the project-level Codex path: it resolves the system-level path
under the home directory instead of `.codex/config.toml` in the current
working directory. -/
theorem configureCodex_ignores_project_level :
    configureCodexConfigPath "/home/user" false "project" =
      some ("/home/user" ++ "/.codex/config.toml") ∧
    getConfigPath "/home/user" false "codex" "project" = some ".codex/config.toml" ∧
    configureCodexConfigPath "/home/user" false "project" ≠
      getConfigPath "/home/user" false "codex" "project" := by
  refine ⟨rfl, rfl, by decide⟩

/-- C5 (amended): for Claude Code, system-level setup resolves the
configuration path under the home directory and project-level setup
resolves a path relative to the current working directory; for Codex,
`configureCodex` always writes to the system-level path under the home
directory, regardless of the requested level. -/
theorem getConfigPath_levels (home : String) (projectLocalExists : Bool) (level : String)
    (hlevel : level ≠ "system") :
    getConfigPath home projectLocalExists "claude" "system" =
      some (home ++ "/.claude/settings.json") ∧
    getConfigPath home projectLocalExists "claude" level =
      some (if projectLocalExists then ".claude/settings.local.json"
            else ".claude/settings.json") ∧
    (∀ p, getConfigPath home projectLocalExists "claude" level = some p →
      p.toList.head? ≠ some '/') ∧
    configureCodexConfigPath home projectLocalExists level =
      some (home ++ "/.codex/config.toml") := by
  refine ⟨by simp [getConfigPath], ?_, ?_, by simp [configureCodexConfigPath, getConfigPath]⟩
  · cases projectLocalExists <;> simp [getConfigPath, hlevel]
  · intro p hp
    cases projectLocalExists <;> simp [getConfigPath, hlevel] at hp <;> subst hp <;> simp

/-- Witness for `getConfigPath_levels` at level `'project'` with no local
settings file present. -/
theorem getConfigPath_levels_witness :
    getConfigPath "/home/user" false "claude" "system" =
      some ("/home/user" ++ "/.claude/settings.json") ∧
    getConfigPath "/home/user" false "claude" "project" = some ".claude/settings.json" ∧
    configureCodexConfigPath "/home/user" false "project" =
      some ("/home/user" ++ "/.codex/config.toml") := by
  have h := getConfigPath_levels "/home/user" false "project" (by decide)
  exact ⟨h.1, by simpa using h.2.1, h.2.2.2⟩

/-! ## Association-list lemmas for JS objects -/

theorem lookupKey_setKey_self (o : List (String × Json)) (k : String) (v : Json) :
    lookupKey (setKey o k v) k = some v := by
  induction o with
  | nil => simp [setKey, lookupKey]
  | cons hd t ih =>
      obtain ⟨k0, v0⟩ := hd
      by_cases hk : k0 = k
      · simp [setKey, lookupKey, hk]
      · simp [setKey, lookupKey, hk, ih]

theorem setKey_eq_self_of_lookup (o : List (String × Json)) (k : String) (v : Json)
    (h : lookupKey o k = some v) : setKey o k v = o := by
  induction o with
  | nil => simp [lookupKey] at h
  | cons hd t ih =>
      obtain ⟨k0, v0⟩ := hd
      by_cases hk : k0 = k
      · subst hk
        have hv : v0 = v := by simpa [lookupKey] using h
        simp [setKey, hv]
      · simp only [lookupKey, if_neg hk] at h
        simp [setKey, hk, ih h]

theorem lookupKey_append (x y : List (String × Json)) (k : String) :
    lookupKey (x ++ y) k =
      match lookupKey x k with
      | some v => some v
      | none => lookupKey y k := by
  induction x with
  | nil => simp [lookupKey]
  | cons hd t ih =>
      obtain ⟨k0, v0⟩ := hd
      by_cases hk : k0 = k <;> simp [lookupKey, hk, ih]

theorem lookupKey_mapValues (a : List (String × Json)) (g : String → Json → Json)
    (k : String) :
    lookupKey (a.map fun kv => (kv.1, g kv.1 kv.2)) k = (lookupKey a k).map (g k) := by
  induction a with
  | nil => simp [lookupKey]
  | cons hd t ih =>
      obtain ⟨k0, v0⟩ := hd
      by_cases hk : k0 = k
      · subst hk; simp [lookupKey]
      · simp [lookupKey, hk, ih]

theorem lookupKey_filterKeys (b : List (String × Json)) (p : String → Bool) (k : String)
    (hp : p k = true) :
    lookupKey (b.filter fun kv => p kv.1) k = lookupKey b k := by
  induction b with
  | nil => simp [lookupKey]
  | cons hd t ih =>
      obtain ⟨k0, v0⟩ := hd
      by_cases hk : k0 = k
      · subst hk
        simp [List.filter_cons, hp, lookupKey]
      · by_cases hp0 : p k0 <;> simp [List.filter_cons, hp0, lookupKey, hk, ih]

theorem lookupKey_eq_some_of_nodup_mem (a : List (String × Json)) (k : String) (v : Json)
    (hnd : (a.map Prod.fst).Nodup) (hmem : (k, v) ∈ a) : lookupKey a k = some v := by
  induction a with
  | nil => simp at hmem
  | cons hd t ih =>
      obtain ⟨k0, v0⟩ := hd
      simp only [List.map_cons, List.nodup_cons] at hnd
      rcases List.mem_cons.mp hmem with heq | hmem2
      · injection heq with h1 h2
        subst h1; subst h2
        simp [lookupKey]
      · have hkmem : k ∈ t.map Prod.fst := List.mem_map.mpr ⟨(k, v), hmem2, rfl⟩
        have hk : k0 ≠ k := fun he => hnd.1 (he.symm ▸ hkmem)
        simp [lookupKey, hk, ih hnd.2 hmem2]

theorem lookupKey_jsSpread (a b : List (String × Json)) (k : String) :
    lookupKey (jsSpread a b) k =
      match lookupKey a k with
      | some v => some ((lookupKey b k).getD v)
      | none => lookupKey b k := by
  rw [jsSpread, lookupKey_append,
    lookupKey_mapValues a (fun key v => (lookupKey b key).getD v) k]
  cases ha : lookupKey a k with
  | some v => simp
  | none =>
      simp only [Option.map_none]
      exact lookupKey_filterKeys b (fun key => (lookupKey a key).isNone) k (by simp [ha])

/-- Spreading a previous spread over the same base absorbs:
`{...a, ...{...a, ...x}} = {...a, ...x}` when `a` has unique keys. -/
theorem jsSpread_absorb_left (a x : List (String × Json))
    (hnd : (a.map Prod.fst).Nodup) :
    jsSpread a (jsSpread a x) = jsSpread a x := by
  show (a.map fun kv => (kv.1, (lookupKey (jsSpread a x) kv.1).getD kv.2)) ++
      ((jsSpread a x).filter fun kv => (lookupKey a kv.1).isNone) = jsSpread a x
  have hmap : (a.map fun kv => (kv.1, (lookupKey (jsSpread a x) kv.1).getD kv.2)) =
      a.map fun kv => (kv.1, (lookupKey x kv.1).getD kv.2) := by
    apply List.map_congr_left
    intro kv hkv
    have hl : lookupKey a kv.1 = some kv.2 :=
      lookupKey_eq_some_of_nodup_mem a kv.1 kv.2 hnd hkv
    rw [lookupKey_jsSpread, hl]
    cases lookupKey x kv.1 <;> simp
  have hfilter : ((jsSpread a x).filter fun kv => (lookupKey a kv.1).isNone) =
      x.filter fun kv => (lookupKey a kv.1).isNone := by
    show ((a.map fun kv => (kv.1, (lookupKey x kv.1).getD kv.2)) ++
        (x.filter fun kv => (lookupKey a kv.1).isNone)).filter
          (fun kv => (lookupKey a kv.1).isNone) = _
    rw [List.filter_append]
    have h1 : (a.map fun kv => (kv.1, (lookupKey x kv.1).getD kv.2)).filter
        (fun kv => (lookupKey a kv.1).isNone) = [] := by
      rw [List.filter_eq_nil_iff]
      intro kv hkv
      obtain ⟨kv0, hkv0, rfl⟩ := List.mem_map.mp hkv
      have hsome : lookupKey a kv0.1 = some kv0.2 :=
        lookupKey_eq_some_of_nodup_mem a kv0.1 kv0.2 hnd hkv0
      simp [hsome]
    have h2 : (x.filter fun kv => (lookupKey a kv.1).isNone).filter
        (fun kv => (lookupKey a kv.1).isNone) = x.filter fun kv => (lookupKey a kv.1).isNone :=
      List.filter_eq_self.mpr (fun kv hkv => (List.mem_filter.mp hkv).2)
    rw [h1, h2, List.nil_append]
  rw [hmap, hfilter]
  rfl

/-- Re-spreading the same literal properties absorbs:
`{...{...a, ...x}, ...x} = {...a, ...x}` when `a` and `x` have unique keys. -/
theorem jsSpread_absorb_right (a x : List (String × Json))
    (hndx : (x.map Prod.fst).Nodup) :
    jsSpread (jsSpread a x) x = jsSpread a x := by
  show ((jsSpread a x).map fun kv => (kv.1, (lookupKey x kv.1).getD kv.2)) ++
      (x.filter fun kv => (lookupKey (jsSpread a x) kv.1).isNone) = jsSpread a x
  have hfilter : (x.filter fun kv => (lookupKey (jsSpread a x) kv.1).isNone) = [] := by
    rw [List.filter_eq_nil_iff]
    intro kv hkv
    rw [lookupKey_jsSpread]
    have hx : lookupKey x kv.1 = some kv.2 :=
      lookupKey_eq_some_of_nodup_mem x kv.1 kv.2 hndx hkv
    cases ha : lookupKey a kv.1 <;> simp [hx]
  have hmap : ((jsSpread a x).map fun kv => (kv.1, (lookupKey x kv.1).getD kv.2)) =
      jsSpread a x := by
    have hid : ∀ kv ∈ jsSpread a x,
        ((kv.1, (lookupKey x kv.1).getD kv.2) : String × Json) = kv := by
      intro kv hkv
      rcases List.mem_append.mp hkv with hm | hf
      · obtain ⟨kv0, _, rfl⟩ := List.mem_map.mp hm
        cases hx : lookupKey x kv0.1 <;> simp [hx]
      · have hx : lookupKey x kv.1 = some kv.2 :=
          lookupKey_eq_some_of_nodup_mem x kv.1 kv.2 hndx (List.mem_filter.mp hf).1
        simp [hx]
    calc ((jsSpread a x).map fun kv => (kv.1, (lookupKey x kv.1).getD kv.2)) =
        (jsSpread a x).map id := List.map_congr_left hid
      _ = jsSpread a x := List.map_id _
  rw [hmap, hfilter, List.append_nil]

/-! ## `configureClaude` (`src/configurators/claude.js`, `src/constants.js`) -/

/-- `MEGALLM_BASE_URL` from `src/constants.js`. -/
def MEGALLM_BASE_URL : String := "https://ai.megallm.io"

/-- `getLastNCharacters(str, n)` from `src/utils/shell.js`: the whole string
when it is empty or no longer than `n`, otherwise its last `n` characters
(`str.slice(-n)`). -/
def getLastNCharacters (s : String) (n : Nat) : String :=
  if s = "" ∨ s.length ≤ n then s else s.takeRight n

/-- `Array.prototype.includes` on an array of JSON values, looking for a
string (strict equality never relates a string to a non-string value). -/
def arrIncludesStr (l : List Json) (s : String) : Bool :=
  l.any fun v => match v with
    | Json.str s2 => s2 = s
    | _ => false

/-- The properties contributed by `{...v}` when `v` may be `undefined`
(spreading `undefined` contributes nothing). -/
def spreadOpt : Option Json → List (String × Json)
  | some v => spreadProps v
  | none => []

/-- The `newConfig` object built by `configureClaude` before merging: an
`env` object spreading the existing `env` and forcing the MegaLLM base URL
and the API key, plus a fresh `customApiKeyResponses` with the last 20
characters of the key pushed into `approved` (the `includes` guard runs on
the fresh empty array). -/
def claudeNewConfig (apiKey : String) (existingConfig : List (String × Json)) :
    List (String × Json) :=
  let newEnv := jsSpread (spreadOpt (lookupKey existingConfig "env"))
      [("ANTHROPIC_BASE_URL", Json.str MEGALLM_BASE_URL),
       ("ANTHROPIC_API_KEY", Json.str apiKey)]
  let last20 := getLastNCharacters apiKey 20
  let approved0 : List Json := []
  let approved1 :=
    if arrIncludesStr approved0 last20 then approved0 else approved0 ++ [Json.str last20]
  [("env", Json.obj newEnv),
   ("customApiKeyResponses",
     Json.obj [("approved", Json.arr approved1), ("rejected", Json.arr [])])]

/-- The configuration written by `configureClaude(apiKey, level)`: the
result of `mergeJsonConfig(existingConfig, newConfig)` on whatever
configuration the target file held (`{}` when absent). -/
def configureClaudeConfig (apiKey : String) (existingConfig : List (String × Json)) :
    List (String × Json) :=
  mergeJsonConfig existingConfig (claudeNewConfig apiKey existingConfig)

theorem lookupKey_jsSpread_right_some (a b : List (String × Json)) (k : String) (v : Json)
    (h : lookupKey b k = some v) : lookupKey (jsSpread a b) k = some v := by
  rw [lookupKey_jsSpread]
  cases lookupKey a k <;> simp [h]

theorem mergeJsonConfig_pair (ex : List (String × Json)) (k1 k2 : String) (o1 o2 : List (String × Json)) :
    mergeJsonConfig ex [(k1, Json.obj o1), (k2, Json.obj o2)] =
      (let m1 := setKey ex k1
        (Json.obj (jsSpread (spreadProps (jsOrEmptyObj (lookupKey ex k1))) o1));
       setKey m1 k2
        (Json.obj (jsSpread (spreadProps (jsOrEmptyObj (lookupKey m1 k2))) o2))) :=
  rfl

theorem getPath_nil (v : Json) : getPath v [] = some v := by
  cases v <;> rfl

theorem getPath_obj_cons_some (o : List (String × Json)) (k : String) (p : List String)
    (v : Json) (h : lookupKey o k = some v) :
    getPath (Json.obj o) (k :: p) = getPath v p := by
  simp [getPath, h]

/-- C8: after `configureClaude(apiKey, level)` succeeds, the written
configuration has `env.ANTHROPIC_BASE_URL = "https://ai.megallm.io"`,
`env.ANTHROPIC_API_KEY` equal to the given key, and
`customApiKeyResponses.approved` equal to the one-element array holding the
last 20 characters of the key; every other top-level key of the
pre-existing configuration is carried over unchanged by the merge. -/
theorem configureClaude_post (apiKey : String) (ex : List (String × Json)) :
    getPath (Json.obj (configureClaudeConfig apiKey ex)) ["env", "ANTHROPIC_BASE_URL"]
      = some (Json.str MEGALLM_BASE_URL) ∧
    getPath (Json.obj (configureClaudeConfig apiKey ex)) ["env", "ANTHROPIC_API_KEY"]
      = some (Json.str apiKey) ∧
    getPath (Json.obj (configureClaudeConfig apiKey ex))
        ["customApiKeyResponses", "approved"]
      = some (Json.arr [Json.str (getLastNCharacters apiKey 20)]) ∧
    (∀ k, k ≠ "env" → k ≠ "customApiKeyResponses" →
      lookupKey (configureClaudeConfig apiKey ex) k = lookupKey ex k) := by
  have hlit1 : lookupKey
      [("ANTHROPIC_BASE_URL", Json.str MEGALLM_BASE_URL),
       ("ANTHROPIC_API_KEY", Json.str apiKey)] "ANTHROPIC_BASE_URL"
      = some (Json.str MEGALLM_BASE_URL) := by
    rw [lookupKey, if_pos rfl]
  have hlit2 : lookupKey
      [("ANTHROPIC_BASE_URL", Json.str MEGALLM_BASE_URL),
       ("ANTHROPIC_API_KEY", Json.str apiKey)] "ANTHROPIC_API_KEY"
      = some (Json.str apiKey) := by
    rw [lookupKey, if_neg (by decide), lookupKey, if_pos rfl]
  have hcfg : configureClaudeConfig apiKey ex =
      (let m1 := setKey ex "env"
        (Json.obj (jsSpread (spreadProps (jsOrEmptyObj (lookupKey ex "env")))
          (jsSpread (spreadOpt (lookupKey ex "env"))
            [("ANTHROPIC_BASE_URL", Json.str MEGALLM_BASE_URL),
             ("ANTHROPIC_API_KEY", Json.str apiKey)])));
       setKey m1 "customApiKeyResponses"
        (Json.obj (jsSpread (spreadProps (jsOrEmptyObj (lookupKey m1 "customApiKeyResponses")))
          [("approved", Json.arr [Json.str (getLastNCharacters apiKey 20)]),
           ("rejected", Json.arr [])]))) := by
    rw [configureClaudeConfig, claudeNewConfig]
    simp only [arrIncludesStr, List.any_nil, Bool.false_eq_true, if_neg, List.nil_append]
    exact mergeJsonConfig_pair ..
  rw [hcfg]
  set E1 := jsSpread (spreadOpt (lookupKey ex "env"))
      [("ANTHROPIC_BASE_URL", Json.str MEGALLM_BASE_URL),
       ("ANTHROPIC_API_KEY", Json.str apiKey)] with hE1def
  set V1 := jsSpread (spreadProps (jsOrEmptyObj (lookupKey ex "env"))) E1 with hV1def
  set m1 := setKey ex "env" (Json.obj V1) with hm1def
  set C1 := jsSpread (spreadProps (jsOrEmptyObj (lookupKey m1 "customApiKeyResponses")))
      [("approved", Json.arr [Json.str (getLastNCharacters apiKey 20)]),
       ("rejected", Json.arr [])] with hC1def
  set m2 := setKey m1 "customApiKeyResponses" (Json.obj C1) with hm2def
  have henv : lookupKey m2 "env" = some (Json.obj V1) := by
    rw [hm2def, lookupKey_setKey_ne _ _ _ _ (by decide), hm1def, lookupKey_setKey_self]
  have hcakr : lookupKey m2 "customApiKeyResponses" = some (Json.obj C1) := by
    rw [hm2def, lookupKey_setKey_self]
  have hV1B : lookupKey V1 "ANTHROPIC_BASE_URL" = some (Json.str MEGALLM_BASE_URL) := by
    rw [hV1def]
    exact lookupKey_jsSpread_right_some _ _ _ _
      (lookupKey_jsSpread_right_some _ _ _ _ hlit1)
  have hV1K : lookupKey V1 "ANTHROPIC_API_KEY" = some (Json.str apiKey) := by
    rw [hV1def]
    exact lookupKey_jsSpread_right_some _ _ _ _
      (lookupKey_jsSpread_right_some _ _ _ _ hlit2)
  have hC1A : lookupKey C1 "approved" =
      some (Json.arr [Json.str (getLastNCharacters apiKey 20)]) := by
    rw [hC1def]
    exact lookupKey_jsSpread_right_some _ _ _ _ (by rw [lookupKey, if_pos rfl])
  refine ⟨?_, ?_, ?_, ?_⟩
  · rw [getPath_obj_cons_some _ _ _ _ henv, getPath_obj_cons_some _ _ _ _ hV1B, getPath_nil]
  · rw [getPath_obj_cons_some _ _ _ _ henv, getPath_obj_cons_some _ _ _ _ hV1K, getPath_nil]
  · rw [getPath_obj_cons_some _ _ _ _ hcakr, getPath_obj_cons_some _ _ _ _ hC1A, getPath_nil]
  · intro k hk1 hk2
    rw [hm2def, lookupKey_setKey_ne _ _ _ _ (Ne.symm hk2), hm1def,
      lookupKey_setKey_ne _ _ _ _ (Ne.symm hk1)]

/-- Witness for `configureClaude_post` at a concrete key and configuration. -/
theorem configureClaude_post_witness :
    lookupKey (configureClaudeConfig "test-api-key-1234567890"
      [("model", Json.str "opus")]) "model" =
      lookupKey [("model", Json.str "opus")] "model" :=
  (configureClaude_post "test-api-key-1234567890" [("model", Json.str "opus")]).2.2.2
    "model" (by decide) (by decide)

/-! ## `setEnvironmentVariable` Unix text patching (`src/utils/shell.js`)

The Unix branch of `setEnvironmentVariable(key, value)` edits the shell
profile text: if the regex `export KEY=.*` (global) matches, every match is
replaced by `export KEY="VALUE"`; otherwise the export line is appended,
either inside an existing `# MegaLLM Configuration` section (matched by
`(# MegaLLM Configuration\n(?:export [A-Z_]+=.*\n)*)`), after the comment
block, or at the end of the file; a missing file is created with the
comment and the export line.  The regexes are modelled literally (the
source interpolates the key unescaped, so the model is faithful for keys
without regex metacharacters, such as the `[A-Z_]+` keys this tool uses).
`.` never matches a newline, and a global replace continues scanning after
the end of each match. -/

/-- `# MegaLLM Configuration`, as written by `setEnvironmentVariable`. -/
def mgComment : List Char := "# MegaLLM Configuration".toList

/-- The mandatory part `export KEY=` of the regex `export KEY=.*`. -/
def exportNeedle (key : List Char) : List Char :=
  "export ".toList ++ key ++ ['=']

/-- The replacement line `export KEY="VALUE"`. -/
def exportLine (key value : List Char) : List Char :=
  exportNeedle key ++ '"' :: value ++ ['"']

/-- The suffix of a character list from its first newline (inclusive);
empty when there is none.  A global regex replace resumes scanning here
after a `needle.*` match. -/
def dropToNewline : List Char → List Char
  | [] => []
  | c :: cs => if c = '\n' then c :: cs else dropToNewline cs

theorem dropToNewline_length_le (s : List Char) : (dropToNewline s).length ≤ s.length := by
  induction s with
  | nil => simp [dropToNewline]
  | cons c cs ih =>
      by_cases h : c = '\n' <;> simp [dropToNewline, h] <;> omega

theorem dropToNewline_eq_nil_of_nlFree (s : List Char) (h : '\n' ∉ s) :
    dropToNewline s = [] := by
  induction s with
  | nil => rfl
  | cons c cs ih =>
      simp only [List.mem_cons, not_or] at h
      simp [dropToNewline, Ne.symm h.1, ih h.2]

theorem dropToNewline_append_nl (x y : List Char) (h : '\n' ∉ x) :
    dropToNewline (x ++ '\n' :: y) = '\n' :: y := by
  induction x with
  | nil => simp [dropToNewline]
  | cons c cs ih =>
      simp only [List.mem_cons, not_or] at h
      simp [dropToNewline, Ne.symm h.1, ih h.2]

/-- Replace-all of the global regex `needle.*` by `repl`: at each scan
position a match (the needle followed by the rest of the line) is replaced
and scanning resumes at the newline; otherwise the character is kept. -/
def replExport (needle repl : List Char) : List Char → List Char
  | [] => []
  | c :: cs =>
      if h : needle ≠ [] ∧ needle.isPrefixOf (c :: cs) then
        repl ++ replExport needle repl (dropToNewline (List.drop needle.length (c :: cs)))
      else
        c :: replExport needle repl cs
termination_by s => s.length
decreasing_by
  · have h1 := dropToNewline_length_le (List.drop needle.length (c :: t))
    have h2 : needle.length ≥ 1 := by
      cases hn : needle with
      | nil => exact absurd hn h.1
      | cons a b => simp [hn]
    simp only [List.length_drop, List.length_cons] at h1 ⊢
    omega
  · simp

/-- The same replacement restricted to a single (newline-free) line: the
first match swallows the rest of the line, so at most one replacement
happens per line. -/
def replLine (needle repl : List Char) : List Char → List Char
  | [] => []
  | c :: cs =>
      if needle.isPrefixOf (c :: cs) then repl
      else c :: replLine needle repl cs

/-- Join lines with newlines (inverse of `splitNl`). -/
def joinLines : List (List Char) → List Char
  | [] => []
  | [l] => l
  | l :: ls => l ++ '\n' :: joinLines ls

/-- Split a character list at newlines (`n` newlines yield `n+1` lines). -/
def splitNl : List Char → List (List Char)
  | [] => [[]]
  | c :: cs =>
      if c = '\n' then [] :: splitNl cs
      else match splitNl cs with
        | [] => [[c]]
        | l :: ls => (c :: l) :: ls

theorem splitNl_ne_nil (s : List Char) : splitNl s ≠ [] := by
  cases s with
  | nil => simp [splitNl]
  | cons c cs =>
      by_cases h : c = '\n'
      · simp [splitNl, h]
      · simp only [splitNl, if_neg h]
        cases splitNl cs <;> simp

theorem joinLines_cons (l : List Char) (ls : List (List Char)) (h : ls ≠ []) :
    joinLines (l :: ls) = l ++ '\n' :: joinLines ls := by
  cases ls with
  | nil => exact absurd rfl h
  | cons a as => rfl

theorem splitNl_join (s : List Char) : joinLines (splitNl s) = s := by
  induction s with
  | nil => rfl
  | cons c cs ih =>
      by_cases h : c = '\n'
      · subst h
        rw [splitNl, if_pos rfl, joinLines_cons _ _ (splitNl_ne_nil cs), ih]
        rfl
      · rw [splitNl, if_neg h]
        cases hs : splitNl cs with
        | nil => exact absurd hs (splitNl_ne_nil cs)
        | cons l ls =>
            rw [hs] at ih
            cases ls with
            | nil =>
                show joinLines [c :: l] = c :: cs
                show c :: l = c :: cs
                rw [show l = joinLines [l] from rfl, ih]
            | cons a as =>
                rw [joinLines_cons _ _ (by simp),
                  show (c :: l) ++ '\n' :: joinLines (a :: as) =
                    c :: (l ++ '\n' :: joinLines (a :: as)) from rfl,
                  ← joinLines_cons l (a :: as) (by simp), ih]

theorem splitNl_nlFree (s : List Char) : ∀ l ∈ splitNl s, '\n' ∉ l := by
  induction s with
  | nil => simp [splitNl]
  | cons c cs ih =>
      by_cases h : c = '\n'
      · simp only [splitNl, if_pos h, List.mem_cons]
        rintro l (rfl | hl)
        · simp
        · exact ih l hl
      · rw [splitNl, if_neg h]
        cases hs : splitNl cs with
        | nil =>
            rintro l hl
            rcases List.mem_singleton.mp hl with rfl
            simpa using fun hh => h hh.symm
        | cons l0 ls =>
            rw [hs] at ih
            intro l hl
            rcases List.mem_cons.mp hl with heq2 | hl2
            · subst heq2
              intro hmem
              rcases List.mem_cons.mp hmem with heq | hmem2
              · exact h heq.symm
              · exact ih l0 (by simp) hmem2
            · exact ih l (List.mem_cons_of_mem _ hl2)

theorem isPrefixOf_congr_take (n w1 w2 : List Char)
    (h : w1.take n.length = w2.take n.length) : n.isPrefixOf w1 = n.isPrefixOf w2 := by
  rw [Bool.eq_iff_iff, List.isPrefixOf_iff_prefix, List.isPrefixOf_iff_prefix,
    List.prefix_iff_eq_take, List.prefix_iff_eq_take, h]

theorem take_append_of_le (k : Nat) (x y : List Char) (h : k ≤ x.length) :
    (x ++ y).take k = x.take k := by
  rw [List.take_append_eq_append_take, Nat.sub_eq_zero_of_le h, List.take_zero,
    List.append_nil]

/-- A prefix test over `p ++ n ++ _` is independent of what follows `n`. -/
theorem isPrefixOf_append_indep (n p x y : List Char) :
    n.isPrefixOf (p ++ n ++ x) = n.isPrefixOf (p ++ n ++ y) := by
  apply isPrefixOf_congr_take
  rw [take_append_of_le n.length (p ++ n) x (by simp),
    take_append_of_le n.length (p ++ n) y (by simp)]

theorem isPrefixOf_self_append (n v : List Char) : n.isPrefixOf (n ++ v) = true :=
  List.isPrefixOf_iff_prefix.mpr (List.prefix_append n v)

/-- A newline-free needle matches at the head of `l ++ '\n' :: r` exactly
when it matches at the head of the (newline-free) line `l`. -/
theorem isPrefixOf_through_nl (n : List Char) (hn : n ≠ []) (hnl : '\n' ∉ n) :
    ∀ l r : List Char, '\n' ∉ l → n.isPrefixOf (l ++ '\n' :: r) = n.isPrefixOf l := by
  intro l
  induction l generalizing n with
  | nil =>
      intro r _
      cases n with
      | nil => exact absurd rfl hn
      | cons a as =>
          simp only [List.mem_cons, not_or] at hnl
          simp [List.isPrefixOf, Ne.symm hnl.1]
  | cons c cs ih =>
      intro r hl
      simp only [List.mem_cons, not_or] at hl
      cases n with
      | nil => exact absurd rfl hn
      | cons a as =>
          simp only [List.cons_append, List.isPrefixOf, List.append_eq]
          cases has : as with
          | nil => simp [List.isPrefixOf]
          | cons b bs =>
              have hnl2 : '\n' ∉ b :: bs := by
                intro hmem
                exact hnl (List.mem_cons_of_mem _ (has ▸ hmem))
              congr 1
              exact ih (b :: bs) (by simp) hnl2 r hl.2

/-- `listIsInfix` in `Prop` form. -/
theorem listIsInfix_iff (n h : List Char) : listIsInfix n h = true ↔ n <:+: h := by
  induction h with
  | nil =>
      simp only [listIsInfix, decide_eq_true_eq]
      exact ⟨fun hh => hh ▸ List.infix_rfl, fun hh => List.eq_nil_of_infix_nil hh⟩
  | cons c t ih =>
      simp only [listIsInfix, Bool.or_eq_true, List.isPrefixOf_iff_prefix, ih,
        List.infix_cons_iff]

theorem listIsInfix_append_left (n x y : List Char) (h : listIsInfix n x = true) :
    listIsInfix n (x ++ y) = true := by
  rw [listIsInfix_iff] at h ⊢
  exact h.trans ⟨[], y, by simp⟩

theorem listIsInfix_append_right (n x y : List Char) (h : listIsInfix n y = true) :
    listIsInfix n (x ++ y) = true := by
  rw [listIsInfix_iff] at h ⊢
  exact h.trans ⟨x, [], by simp⟩

theorem listIsInfix_subset (n h : List Char) (hi : listIsInfix n h = true) :
    ∀ c ∈ n, c ∈ h := by
  rw [listIsInfix_iff] at hi
  exact fun c hc => hi.subset hc

theorem replLine_cons (n r : List Char) (c : Char) (cs : List Char) :
    replLine n r (c :: cs) = if n.isPrefixOf (c :: cs) then r else c :: replLine n r cs := rfl

theorem replLine_eq_self_of_not_infix (n r l : List Char) (h : listIsInfix n l = false) :
    replLine n r l = l := by
  induction l with
  | nil => rfl
  | cons c cs ih =>
      simp only [listIsInfix, Bool.or_eq_false_iff] at h
      rw [replLine_cons, if_neg (by simp [h.1]), ih h.2]

theorem replLine_match_exists (n r l : List Char) (hn : n ≠ []) (h : listIsInfix n l = true) :
    ∃ a, replLine n r l = a ++ r := by
  induction l with
  | nil =>
      simp only [listIsInfix, decide_eq_true_eq] at h
      exact absurd h hn
  | cons c cs ih =>
      by_cases hp : n.isPrefixOf (c :: cs)
      · exact ⟨[], by simp [replLine_cons, hp]⟩
      · simp only [listIsInfix, Bool.or_eq_true] at h
        rcases h with h | h
        · exact absurd h hp
        · obtain ⟨a, ha⟩ := ih h
          exact ⟨c :: a, by simp [replLine_cons, hp, ha]⟩

theorem replLine_nlFree (n r l : List Char) (hl : '\n' ∉ l) (hr : '\n' ∉ r) :
    '\n' ∉ replLine n r l := by
  induction l with
  | nil => simpa [replLine] using hl
  | cons c cs ih =>
      simp only [List.mem_cons, not_or] at hl
      rw [replLine_cons]
      by_cases hp : n.isPrefixOf (c :: cs)
      · simpa [hp] using hr
      · simp only [if_neg hp, List.mem_cons, not_or]
        exact ⟨hl.1, ih hl.2⟩

theorem replLine_self_repl (n v : List Char) (hn : n ≠ []) :
    replLine n (n ++ v) (n ++ v) = n ++ v := by
  cases n with
  | nil => exact absurd rfl hn
  | cons n0 nt =>
      have hp : (n0 :: nt).isPrefixOf (n0 :: (nt ++ v)) = true := by
        rw [show n0 :: (nt ++ v) = (n0 :: nt) ++ v from rfl]
        exact isPrefixOf_self_append _ _
      rw [show (n0 :: nt) ++ v = n0 :: (nt ++ v) from rfl, replLine_cons, if_pos hp]

theorem replLine_prefixTest (n v : List Char) :
    ∀ (l p : List Char),
      n.isPrefixOf (p ++ replLine n (n ++ v) l) = n.isPrefixOf (p ++ l) := by
  intro l
  induction l with
  | nil => intro p; rfl
  | cons c cs ih =>
      intro p
      by_cases h : n.isPrefixOf (c :: cs)
      · obtain ⟨rest, heq⟩ := List.isPrefixOf_iff_prefix.mp h
        rw [replLine_cons, if_pos h, ← heq, ← List.append_assoc, ← List.append_assoc]
        exact isPrefixOf_append_indep n p v rest
      · rw [replLine_cons, if_neg h]
        have h1 := ih (p ++ [c])
        simpa [List.append_assoc] using h1

theorem replLine_idem (n v : List Char) (hn : n ≠ []) (l : List Char) :
    replLine n (n ++ v) (replLine n (n ++ v) l) = replLine n (n ++ v) l := by
  induction l with
  | nil => rfl
  | cons c cs ih =>
      by_cases h : n.isPrefixOf (c :: cs)
      · rw [replLine_cons, if_pos h]
        exact replLine_self_repl n v hn
      · rw [replLine_cons, if_neg h]
        have hpt := replLine_prefixTest n v cs [c]
        simp only [List.singleton_append] at hpt
        rw [replLine_cons, hpt, if_neg h, ih]

/-- No self-overlap: no proper nonempty suffix-alignment of the needle with
itself.  Holds for `export KEY=` whenever the key contains no `=`. -/
def NoSelfOverlap (n : List Char) : Prop :=
  ∀ m, 0 < m → m < n.length → n.drop m ≠ n.take (n.length - m)

theorem noSelfOverlap_exportNeedle (key : List Char) (hk : '=' ∉ key) :
    NoSelfOverlap (exportNeedle key) := by
  intro m hm1 hm2 heq
  set w : List Char := "export ".toList ++ key with hw
  have hweq : exportNeedle key = w ++ ['='] := by
    simp [exportNeedle, hw, List.append_assoc]
  have hwne : '=' ∉ w := by
    simp only [hw, List.mem_append, not_or]
    exact ⟨by decide, hk⟩
  rw [hweq] at heq hm2
  simp only [List.length_append, List.length_singleton] at hm2
  have hmle : m ≤ w.length := by omega
  have hdrop : (w ++ ['=']).drop m = w.drop m ++ ['='] := by
    rw [List.drop_append_of_le_length hmle]
  have hmem : '=' ∈ (w ++ ['=']).drop m := by
    rw [hdrop]; simp
  rw [heq] at hmem
  have htake : (w ++ ['=']).take ((w ++ ['=']).length - m) = w.take ((w ++ ['=']).length - m) := by
    apply take_append_of_le
    simp only [List.length_append, List.length_singleton]
    omega
  rw [htake] at hmem
  exact hwne (List.take_subset _ _ hmem)

/-- The leftmost `needle.*` match in `a ++ needle ++ y` is at position
`|a|` when `a` is needle-free and the needle has no self-overlap.  In that
case the whole rest of the line is replaced: `replLine` yields `a ++ repl`. -/
theorem replLine_match_at (n r y : List Char) (hn : n ≠ []) (hnso : NoSelfOverlap n) :
    ∀ a : List Char, listIsInfix n a = false → replLine n r (a ++ n ++ y) = a ++ r := by
  intro a
  induction a with
  | nil =>
      intro _
      cases n with
      | nil => exact absurd rfl hn
      | cons n0 nt =>
          have hp : (n0 :: nt).isPrefixOf (n0 :: (nt ++ y)) = true := by
            rw [show n0 :: (nt ++ y) = (n0 :: nt) ++ y from rfl]
            exact isPrefixOf_self_append _ _
          simp only [List.nil_append]
          rw [show (n0 :: nt) ++ y = n0 :: (nt ++ y) from rfl, replLine_cons, if_pos hp]
  | cons c cs ih =>
      intro hfree
      simp only [listIsInfix, Bool.or_eq_false_iff] at hfree
      have hnp : n.isPrefixOf ((c :: cs) ++ n ++ y) = false := by
        by_contra hcon
        rw [Bool.not_eq_false] at hcon
        rw [List.append_assoc] at hcon
        have h1 : n = ((c :: cs) ++ (n ++ y)).take n.length :=
          List.prefix_iff_eq_take.mp (List.isPrefixOf_iff_prefix.mp hcon)
        by_cases hlen : n.length ≤ (c :: cs).length
        · rw [take_append_of_le _ _ _ hlen] at h1
          have h2 : n.isPrefixOf (c :: cs) = true :=
            List.isPrefixOf_iff_prefix.mpr (List.prefix_iff_eq_take.mpr h1)
          rw [hfree.1] at h2
          exact Bool.false_ne_true h2
        · push_neg at hlen
          set m := (c :: cs).length with hm
          have h2 : ((c :: cs) ++ (n ++ y)).take n.length =
              (c :: cs) ++ (n ++ y).take (n.length - m) := by
            rw [List.take_append_eq_append_take, List.take_of_length_le (by omega)]
          have h3 : (n ++ y).take (n.length - m) = n.take (n.length - m) :=
            take_append_of_le _ _ _ (by omega)
          rw [h2, h3] at h1
          have h4 : n.drop m = n.take (n.length - m) := by
            have h5 := congrArg (List.drop m) h1
            rwa [show (c :: cs) ++ n.take (n.length - m) =
                (c :: cs) ++ n.take (n.length - m) from rfl,
              hm, List.drop_left] at h5
          exact hnso m (by simp [hm]) (by omega) h4
      have hco : c :: (cs ++ n ++ y) = (c :: cs) ++ n ++ y := by simp
      have hnp2 : n.isPrefixOf (c :: (cs ++ n ++ y)) = false := by rw [hco]; exact hnp
      rw [show (c :: cs) ++ n ++ y = c :: (cs ++ n ++ y) from by simp,
        replLine_cons, if_neg (by rw [hnp2]; simp), ih hfree.2]
      simp

theorem replExport_cons (n r : List Char) (c : Char) (cs : List Char) :
    replExport n r (c :: cs) =
      if n ≠ [] ∧ n.isPrefixOf (c :: cs) = true then
        r ++ replExport n r (dropToNewline (List.drop n.length (c :: cs)))
      else c :: replExport n r cs := by
  rw [replExport]
  by_cases h : n ≠ [] ∧ n.isPrefixOf (c :: cs) = true <;> simp [h]

theorem replExport_nil (n r : List Char) : replExport n r [] = [] := by
  rw [replExport]

theorem replExport_eq_replLine_of_nlFree (n r : List Char) (hn : n ≠ []) :
    ∀ l : List Char, '\n' ∉ l → replExport n r l = replLine n r l := by
  intro l
  induction l with
  | nil => intro _; rw [replExport_nil]; rfl
  | cons c cs ih =>
      intro hl
      simp only [List.mem_cons, not_or] at hl
      rw [replExport_cons, replLine_cons]
      by_cases hp : n.isPrefixOf (c :: cs)
      · rw [if_pos ⟨hn, hp⟩, if_pos hp]
        have hfree : '\n' ∉ List.drop n.length (c :: cs) := by
          intro hmem
          have := List.drop_subset n.length (c :: cs) hmem
          rcases List.mem_cons.mp this with heq | hmem2
          · exact hl.1 heq
          · exact hl.2 hmem2
        rw [dropToNewline_eq_nil_of_nlFree _ hfree, replExport_nil, List.append_nil]
      · rw [if_neg (by simp [hp]), if_neg hp, ih hl.2]

theorem replExport_nl_cons (n r : List Char) (hn : n ≠ []) (hnl : '\n' ∉ n)
    (rest : List Char) :
    replExport n r ('\n' :: rest) = '\n' :: replExport n r rest := by
  rw [replExport_cons]
  cases n with
  | nil => exact absurd rfl hn
  | cons n0 nt =>
      have hne : n0 ≠ '\n' := by
        intro rfl2
        exact hnl (rfl2 ▸ List.mem_cons_self n0 nt)
      rw [if_neg]
      rintro ⟨-, hpre⟩
      simp only [List.isPrefixOf, Bool.and_eq_true, beq_iff_eq] at hpre
      exact hne hpre.1

theorem replExport_line_nl (n r : List Char) (hn : n ≠ []) (hnl : '\n' ∉ n) :
    ∀ (l rest : List Char), '\n' ∉ l →
      replExport n r (l ++ '\n' :: rest) = replLine n r l ++ '\n' :: replExport n r rest := by
  intro l
  induction l with
  | nil =>
      intro rest _
      rw [List.nil_append, replExport_nl_cons n r hn hnl rest]
      rfl
  | cons c cs ih =>
      intro rest hl
      simp only [List.mem_cons, not_or] at hl
      have hpre := isPrefixOf_through_nl n hn hnl (c :: cs) rest
        (by simp only [List.mem_cons, not_or]; exact hl)
      rw [show (c :: cs) ++ '\n' :: rest = c :: (cs ++ '\n' :: rest) from rfl,
        replExport_cons, replLine_cons]
      by_cases hp : n.isPrefixOf (c :: cs)
      · have hpre2 : n.isPrefixOf (c :: (cs ++ '\n' :: rest)) = true := by
          rw [show c :: (cs ++ '\n' :: rest) = (c :: cs) ++ '\n' :: rest from rfl, hpre, hp]
        rw [if_pos ⟨hn, hpre2⟩, if_pos hp]
        have hlen : n.length ≤ (c :: cs).length :=
          (List.isPrefixOf_iff_prefix.mp hp).length_le
        have hdrop : List.drop n.length (c :: (cs ++ '\n' :: rest)) =
            List.drop n.length (c :: cs) ++ '\n' :: rest := by
          rw [show c :: (cs ++ '\n' :: rest) = (c :: cs) ++ '\n' :: rest from rfl,
            List.drop_append_of_le_length hlen]
        have hfree : '\n' ∉ List.drop n.length (c :: cs) := by
          intro hmem
          have := List.drop_subset n.length (c :: cs) hmem
          rcases List.mem_cons.mp this with heq | hmem2
          · exact hl.1 heq
          · exact hl.2 hmem2
        rw [hdrop, dropToNewline_append_nl _ _ hfree, replExport_nl_cons n r hn hnl rest]
      · have hpre2 : n.isPrefixOf (c :: (cs ++ '\n' :: rest)) = false := by
          rw [show c :: (cs ++ '\n' :: rest) = (c :: cs) ++ '\n' :: rest from rfl, hpre]
          simp [hp]
        rw [if_neg (by simp [hpre2]), if_neg hp, ih rest hl.2]
        simp

theorem replExport_join (n r : List Char) (hn : n ≠ []) (hnl : '\n' ∉ n) :
    ∀ ls : List (List Char), (∀ l ∈ ls, '\n' ∉ l) →
      replExport n r (joinLines ls) = joinLines (ls.map (replLine n r)) := by
  intro ls
  induction ls with
  | nil =>
      intro _
      rw [show joinLines ([] : List (List Char)) = [] from rfl, replExport_nil]
      rfl
  | cons l ls ih =>
      intro hfree
      cases ls with
      | nil =>
          show replExport n r l = joinLines [replLine n r l]
          rw [replExport_eq_replLine_of_nlFree n r hn l (hfree l (by simp))]
          rfl
      | cons l2 ls2 =>
          rw [joinLines_cons l (l2 :: ls2) (by simp),
            replExport_line_nl n r hn hnl l (joinLines (l2 :: ls2)) (hfree l (by simp)),
            ih (fun x hx => hfree x (List.mem_cons_of_mem _ hx))]
          rfl

theorem replExport_join_fixed (n r : List Char) (hn : n ≠ []) (hnl : '\n' ∉ n)
    (ls : List (List Char)) (h : ∀ l ∈ ls, '\n' ∉ l ∧ replLine n r l = l) :
    replExport n r (joinLines ls) = joinLines ls := by
  rw [replExport_join n r hn hnl ls (fun l hl => (h l hl).1)]
  congr 1
  calc ls.map (replLine n r) = ls.map id := List.map_congr_left (fun l hl => (h l hl).2)
    _ = ls := List.map_id _

theorem replExport_idem (n v : List Char) (hn : n ≠ []) (hnl : '\n' ∉ n)
    (hv : '\n' ∉ v) (s : List Char) :
    replExport n (n ++ v) (replExport n (n ++ v) s) = replExport n (n ++ v) s := by
  have hr : '\n' ∉ n ++ v := by
    simp only [List.mem_append, not_or]
    exact ⟨hnl, hv⟩
  conv_lhs => rw [show s = joinLines (splitNl s) from (splitNl_join s).symm]
  conv_rhs => rw [show s = joinLines (splitNl s) from (splitNl_join s).symm]
  rw [replExport_join n (n ++ v) hn hnl _ (splitNl_nlFree s)]
  rw [replExport_join n (n ++ v) hn hnl _
    (fun l hl => by
      obtain ⟨l0, hl0, rfl⟩ := List.mem_map.mp hl
      exact replLine_nlFree n (n ++ v) l0 (splitNl_nlFree s l0 hl0) hr)]
  rw [List.map_map]
  congr 1
  exact List.map_congr_left (fun l _ => replLine_idem n v hn l)

theorem listIsInfix_cons_of (n : List Char) (c : Char) (t : List Char)
    (h : listIsInfix n t = true) : listIsInfix n (c :: t) = true := by
  simp [listIsInfix, h]

theorem listIsInfix_self_append (n v : List Char) (hn : n ≠ []) :
    listIsInfix n (n ++ v) = true := by
  cases n with
  | nil => exact absurd rfl hn
  | cons n0 nt =>
      rw [show (n0 :: nt) ++ v = n0 :: (nt ++ v) from rfl]
      simp only [listIsInfix, Bool.or_eq_true]
      exact Or.inl (by rw [show n0 :: (nt ++ v) = (n0 :: nt) ++ v from rfl]
                       exact isPrefixOf_self_append _ _)

theorem listIsInfix_split_nl (n : List Char) (hn : n ≠ []) (hnl : '\n' ∉ n) :
    ∀ l X : List Char, '\n' ∉ l → listIsInfix n (l ++ '\n' :: X) = true →
      listIsInfix n l = true ∨ listIsInfix n X = true := by
  intro l
  induction l with
  | nil =>
      intro X _ h
      simp only [List.nil_append, listIsInfix, Bool.or_eq_true] at h
      rcases h with h | h
      · cases n with
        | nil => exact absurd rfl hn
        | cons n0 nt =>
            have hne : n0 ≠ '\n' := fun he => hnl (he ▸ List.mem_cons_self n0 nt)
            simp only [List.isPrefixOf, Bool.and_eq_true, beq_iff_eq] at h
            exact absurd h.1 hne
      · exact Or.inr h
  | cons c cs ih =>
      intro X hl h
      simp only [List.mem_cons, not_or] at hl
      rw [show (c :: cs) ++ '\n' :: X = c :: (cs ++ '\n' :: X) from rfl] at h
      simp only [listIsInfix, Bool.or_eq_true] at h ⊢
      rcases h with h | h
      · rw [show c :: (cs ++ '\n' :: X) = (c :: cs) ++ '\n' :: X from rfl,
          isPrefixOf_through_nl n hn hnl (c :: cs) X
            (by simp only [List.mem_cons, not_or]; exact hl)] at h
        exact Or.inl (Or.inl h)
      · rcases ih X hl.2 h with h2 | h2
        · exact Or.inl (Or.inr h2)
        · exact Or.inr h2

theorem listIsInfix_join_of_mem (n : List Char) :
    ∀ (ls : List (List Char)) (l : List Char), l ∈ ls → listIsInfix n l = true →
      listIsInfix n (joinLines ls) = true := by
  intro ls
  induction ls with
  | nil => intro l hl _; simp at hl
  | cons a as ih =>
      intro l hl h
      cases as with
      | nil =>
          rcases List.mem_singleton.mp hl with rfl
          exact h
      | cons a2 as2 =>
          rw [joinLines_cons a (a2 :: as2) (by simp)]
          rcases List.mem_cons.mp hl with rfl | hl2
          · exact listIsInfix_append_left n l _ h
          · exact listIsInfix_append_right n a _
              (listIsInfix_cons_of n '\n' _ (ih l hl2 h))

theorem listIsInfix_join_exists (n : List Char) (hn : n ≠ []) (hnl : '\n' ∉ n) :
    ∀ ls : List (List Char), (∀ l ∈ ls, '\n' ∉ l) →
      listIsInfix n (joinLines ls) = true → ∃ l ∈ ls, listIsInfix n l = true := by
  intro ls
  induction ls with
  | nil =>
      intro _ h
      simp only [joinLines, listIsInfix, decide_eq_true_eq] at h
      exact absurd h hn
  | cons a as ih =>
      intro hfree h
      cases as with
      | nil => exact ⟨a, by simp, h⟩
      | cons a2 as2 =>
          rw [joinLines_cons a (a2 :: as2) (by simp)] at h
          rcases listIsInfix_split_nl n hn hnl a (joinLines (a2 :: as2))
              (hfree a (by simp)) h with h2 | h2
          · exact ⟨a, by simp, h2⟩
          · obtain ⟨l, hl, hi⟩ := ih (fun x hx => hfree x (List.mem_cons_of_mem _ hx)) h2
            exact ⟨l, List.mem_cons_of_mem _ hl, hi⟩

/-- A replace-all that made at least one replacement leaves the needle in
the output (the replacement itself starts with the needle). -/
theorem listIsInfix_replExport (n v s : List Char) (hn : n ≠ []) (hnl : '\n' ∉ n)
    (hv : '\n' ∉ v) (h : listIsInfix n s = true) :
    listIsInfix n (replExport n (n ++ v) s) = true := by
  have hs : s = joinLines (splitNl s) := (splitNl_join s).symm
  rw [hs, replExport_join n (n ++ v) hn hnl _ (splitNl_nlFree s)]
  obtain ⟨l, hl, hi⟩ := listIsInfix_join_exists n hn hnl (splitNl s) (splitNl_nlFree s)
    (by rw [← hs]; exact h)
  obtain ⟨a, ha⟩ := replLine_match_exists n (n ++ v) l hn hi
  refine listIsInfix_join_of_mem n _ (replLine n (n ++ v) l)
    (List.mem_map.mpr ⟨l, hl, rfl⟩) ?_
  rw [ha]
  exact listIsInfix_append_right n a _ (listIsInfix_self_append n v hn)

/-- `[A-Z_]` from the section regex
`(# MegaLLM Configuration\n(?:export [A-Z_]+=.*\n)*)`. -/
def isUpperKeyChar (c : Char) : Bool := ('A' ≤ c && c ≤ 'Z') || c = '_'

theorem head?_eq_some_cons {a : Char} {l : List Char} (h : l.head? = some a) :
    l = a :: l.tail := by
  cases l with
  | nil => simp at h
  | cons c cs =>
      simp only [List.head?_cons, Option.some.injEq] at h
      rw [h]
      rfl

/-- Match one section continuation line `export [A-Z_]+=.*\n` at the head
of the input, returning the consumed text and the rest. -/
def matchSectionLine (s : List Char) : Option (List Char × List Char) :=
  if "export ".toList.isPrefixOf s then
    if ((s.drop 7).takeWhile isUpperKeyChar ≠ []) ∧
        ((s.drop 7).dropWhile isUpperKeyChar).head? = some '=' then
      if (((s.drop 7).dropWhile isUpperKeyChar).tail.dropWhile
            (fun c => c ≠ '\n')).head? = some '\n' then
        some ("export ".toList ++ (s.drop 7).takeWhile isUpperKeyChar ++
          '=' :: ((s.drop 7).dropWhile isUpperKeyChar).tail.takeWhile
            (fun c => c ≠ '\n') ++ ['\n'],
          (((s.drop 7).dropWhile isUpperKeyChar).tail.dropWhile
            (fun c => c ≠ '\n')).tail)
      else none
    else none
  else none

theorem matchSectionLine_spec (s c r : List Char)
    (h : matchSectionLine s = some (c, r)) :
    s = c ++ r ∧ (∃ body, c = body ++ ['\n'] ∧ '\n' ∉ body) := by
  rw [matchSectionLine] at h
  by_cases hpre : "export ".toList.isPrefixOf s
  case neg => rw [if_neg hpre] at h; exact absurd h (by simp)
  rw [if_pos hpre] at h
  by_cases hkp : ((s.drop 7).takeWhile isUpperKeyChar ≠ []) ∧
      ((s.drop 7).dropWhile isUpperKeyChar).head? = some '='
  case neg => rw [if_neg hkp] at h; exact absurd h (by simp)
  rw [if_pos hkp] at h
  by_cases hnl2 : (((s.drop 7).dropWhile isUpperKeyChar).tail.dropWhile
      (fun c => c ≠ '\n')).head? = some '\n'
  case neg => rw [if_neg hnl2] at h; exact absurd h (by simp)
  rw [if_pos hnl2] at h
  simp only [Option.some.injEq, Prod.mk.injEq] at h
  obtain ⟨hc, hr⟩ := h
  have hsdecomp : s = "export ".toList ++ s.drop 7 := by
    obtain ⟨t, ht⟩ := List.isPrefixOf_iff_prefix.mp hpre
    have hdt : s.drop 7 = t := by
      rw [← ht, show (7 : Nat) = ("export ".toList).length from rfl, List.drop_left]
    rw [hdt, ← ht]
  have hs1decomp : s.drop 7 =
      (s.drop 7).takeWhile isUpperKeyChar ++ (s.drop 7).dropWhile isUpperKeyChar :=
    (List.takeWhile_append_dropWhile _ _).symm
  have hs2decomp : (s.drop 7).dropWhile isUpperKeyChar =
      '=' :: ((s.drop 7).dropWhile isUpperKeyChar).tail := head?_eq_some_cons hkp.2
  have hs3decomp : ((s.drop 7).dropWhile isUpperKeyChar).tail =
      ((s.drop 7).dropWhile isUpperKeyChar).tail.takeWhile (fun c => c ≠ '\n') ++
        ((s.drop 7).dropWhile isUpperKeyChar).tail.dropWhile (fun c => c ≠ '\n') :=
    (List.takeWhile_append_dropWhile _ _).symm
  have hs4decomp : ((s.drop 7).dropWhile isUpperKeyChar).tail.dropWhile (fun c => c ≠ '\n') =
      '\n' :: (((s.drop 7).dropWhile isUpperKeyChar).tail.dropWhile (fun c => c ≠ '\n')).tail :=
    head?_eq_some_cons hnl2
  constructor
  · conv_lhs => rw [hsdecomp, hs1decomp, hs2decomp]
    conv_lhs => rw [hs3decomp, hs4decomp]
    rw [← hc, ← hr]
    simp
  · refine ⟨"export ".toList ++ (s.drop 7).takeWhile isUpperKeyChar ++
      '=' :: ((s.drop 7).dropWhile isUpperKeyChar).tail.takeWhile (fun c => c ≠ '\n'),
      by rw [← hc], ?_⟩
    simp only [List.mem_append, List.mem_cons, not_or]
    refine ⟨⟨by decide, ?_⟩, by decide, ?_⟩
    · intro hmem
      have h2 := List.mem_takeWhile_imp hmem
      simp [isUpperKeyChar] at h2
    · intro hmem
      have h2 := List.mem_takeWhile_imp hmem
      simp at h2

theorem matchSectionLine_rest_lt (s c r : List Char)
    (h : matchSectionLine s = some (c, r)) : r.length < s.length := by
  obtain ⟨hs, body, hc, -⟩ := matchSectionLine_spec s c r h
  rw [hs, hc]
  simp only [List.append_assoc, List.length_append, List.length_cons, List.length_nil]
  omega

/-- Greedily consume `(?:export [A-Z_]+=.*\n)*` at the head of the input:
the list of consumed lines (each with its newline) and the rest. -/
def consumeSectionLines (s : List Char) : List (List Char) × List Char :=
  match hm : matchSectionLine s with
  | some cr =>
      let p := consumeSectionLines cr.2
      (cr.1 :: p.1, p.2)
  | none => ([], s)
termination_by s.length
decreasing_by exact matchSectionLine_rest_lt s cr.1 cr.2 hm

/-- The flattened form of newline-free section lines, each followed by its
newline. -/
def secJoin (SL : List (List Char)) : List Char :=
  (SL.map (fun l => l ++ ['\n'])).flatten

theorem consumeSectionLines_spec (s : List Char) :
    ∃ SL, (consumeSectionLines s).1.flatten = secJoin SL ∧ (∀ l ∈ SL, '\n' ∉ l) ∧
      s = (consumeSectionLines s).1.flatten ++ (consumeSectionLines s).2 := by
  suffices H : ∀ (n : Nat) (s : List Char), s.length = n →
      ∃ SL, (consumeSectionLines s).1.flatten = secJoin SL ∧ (∀ l ∈ SL, '\n' ∉ l) ∧
        s = (consumeSectionLines s).1.flatten ++ (consumeSectionLines s).2 from
    H s.length s rfl
  intro n
  induction n using Nat.strong_induction_on with
  | _ n ih =>
      intro s hsn
      rw [consumeSectionLines]
      cases hm : matchSectionLine s with
      | none =>
          exact ⟨[], rfl, fun l hl => absurd hl (List.not_mem_nil l), by simp⟩
      | some cr =>
          obtain ⟨hs, body, hc, hbody⟩ := matchSectionLine_spec s cr.1 cr.2 (by rw [hm])
          obtain ⟨SL, h1, h2, h3⟩ := ih cr.2.length
            (by rw [← hsn]; exact matchSectionLine_rest_lt s cr.1 cr.2 hm) cr.2 rfl
          refine ⟨body :: SL, ?_, ?_, ?_⟩
          · simp only [List.flatten_cons, secJoin, List.map_cons, hc]
            rw [show secJoin SL = (SL.map (fun l => l ++ ['\n'])).flatten from rfl] at h1
            rw [h1]
          · intro l hl
            rcases List.mem_cons.mp hl with rfl | hl2
            · exact hbody
            · exact h2 l hl2
          · simp only [List.flatten_cons]
            rw [List.append_assoc, ← h3, ← hs]

/-- The leftmost match of the section regex
`# MegaLLM Configuration\n(?:export [A-Z_]+=.*\n)*` in the content, with
`ins` inserted after it (`$1` followed by the export line); `none` when the
regex does not match. -/
def insertIntoSection (ins : List Char) : List Char → Option (List Char)
  | [] => none
  | c :: cs =>
      if (mgComment ++ ['\n']).isPrefixOf (c :: cs) then
        let p := consumeSectionLines ((c :: cs).drop (mgComment.length + 1))
        some (mgComment ++ '\n' :: (p.1.flatten ++ (ins ++ p.2)))
      else
        match insertIntoSection ins cs with
        | some out => some (c :: out)
        | none => none

theorem insertIntoSection_spec (ins : List Char) :
    ∀ content out : List Char, insertIntoSection ins content = some out →
      ∃ pre SL rest, content = pre ++ mgComment ++ '\n' :: (secJoin SL ++ rest) ∧
        out = pre ++ mgComment ++ '\n' :: (secJoin SL ++ (ins ++ rest)) ∧
        (∀ l ∈ SL, '\n' ∉ l) := by
  intro content
  induction content with
  | nil => intro out h; simp [insertIntoSection] at h
  | cons c cs ih =>
      intro out h
      rw [insertIntoSection] at h
      by_cases hpre : (mgComment ++ ['\n']).isPrefixOf (c :: cs)
      · rw [if_pos hpre] at h
        simp only [Option.some.injEq] at h
        obtain ⟨SL, h1, h2, h3⟩ := consumeSectionLines_spec ((c :: cs).drop (mgComment.length + 1))
        obtain ⟨t, ht⟩ := List.isPrefixOf_iff_prefix.mp hpre
        have htd : t = (c :: cs).drop (mgComment.length + 1) := by
          rw [← ht, show mgComment.length + 1 = (mgComment ++ ['\n']).length by simp,
            List.drop_left]
        refine ⟨[], SL, (consumeSectionLines ((c :: cs).drop (mgComment.length + 1))).2, ?_, ?_, h2⟩
        · rw [List.nil_append, ← h1, ← h3, ← htd, ← ht]
          simp
        · rw [← h, h1, List.nil_append]
      · rw [if_neg hpre] at h
        cases hins : insertIntoSection ins cs with
        | none => rw [hins] at h; exact absurd h (by simp)
        | some out2 =>
            rw [hins] at h
            simp only [Option.some.injEq] at h
            obtain ⟨pre, SL, rest, g1, g2, g3⟩ := ih out2 hins
            exact ⟨c :: pre, SL, rest, by simp [g1], by simp [← h, g2], g3⟩

theorem joinLines_append (la lb : List (List Char)) (ha : la ≠ []) (hb : lb ≠ []) :
    joinLines (la ++ lb) = joinLines la ++ '\n' :: joinLines lb := by
  induction la with
  | nil => exact absurd rfl ha
  | cons a la2 ih =>
      cases la2 with
      | nil =>
          rw [List.singleton_append, joinLines_cons a lb hb]
          rfl
      | cons a2 la3 =>
          rw [show (a :: a2 :: la3) ++ lb = a :: ((a2 :: la3) ++ lb) from rfl,
            joinLines_cons _ _ (by simp), ih (by simp),
            joinLines_cons a (a2 :: la3) (by simp)]
          simp

theorem joinLines_secJoin (SL L : List (List Char)) (hL : L ≠ []) :
    joinLines (SL ++ L) = secJoin SL ++ joinLines L := by
  induction SL with
  | nil => simp [secJoin]
  | cons s SL2 ih =>
      rw [show (s :: SL2) ++ L = s :: (SL2 ++ L) from rfl,
        joinLines_cons _ _ (fun hc => hL (List.append_eq_nil.mp hc).2), ih]
      simp [secJoin]

theorem listIsInfix_secJoin_of_mem (n : List Char) (SL : List (List Char)) (l : List Char)
    (hl : l ∈ SL) (h : listIsInfix n l = true) : listIsInfix n (secJoin SL) = true := by
  induction SL with
  | nil => simp at hl
  | cons s SL2 ih =>
      rw [show secJoin (s :: SL2) = (s ++ ['\n']) ++ secJoin SL2 from by simp [secJoin]]
      rcases List.mem_cons.mp hl with rfl | hl2
      · exact listIsInfix_append_left n _ _ (listIsInfix_append_left n _ _ h)
      · exact listIsInfix_append_right n _ _ (ih hl2)

/-- The Unix persistent branch of `setEnvironmentVariable(key, value)` as a
transformation of the shell profile content (`none` = file does not
exist): update every `export KEY=.*` match, else insert into the
`# MegaLLM Configuration` section, else append (with the comment when it
is missing); create the file with comment and export line otherwise. -/
def setEnvVarContent (key value : List Char) (content : Option (List Char)) : List Char :=
  match content with
  | none => mgComment ++ '\n' :: (exportLine key value ++ ['\n'])
  | some content =>
      if listIsInfix (exportNeedle key) content then
        replExport (exportNeedle key) (exportLine key value) content
      else if listIsInfix mgComment content then
        match insertIntoSection (exportLine key value ++ ['\n']) content with
        | some c2 => c2
        | none => content ++ (exportLine key value ++ ['\n'])
      else content ++ ('\n' :: (mgComment ++ '\n' :: (exportLine key value ++ ['\n'])))

theorem exportNeedle_ne_nil (key : List Char) : exportNeedle key ≠ [] := by
  simp [exportNeedle]

theorem exportNeedle_nlFree (key : List Char) (hk : '\n' ∉ key) :
    '\n' ∉ exportNeedle key := by
  simp only [exportNeedle, List.mem_append, List.mem_cons, not_or]
  exact ⟨⟨by decide, hk⟩, by decide, by simp⟩

theorem exportNeedle_not_infix_mgComment (key : List Char) :
    listIsInfix (exportNeedle key) mgComment = false := by
  by_contra hcon
  rw [Bool.not_eq_false] at hcon
  have hx : 'x' ∈ mgComment :=
    listIsInfix_subset _ _ hcon 'x'
      (by simp only [exportNeedle, List.mem_append]; exact Or.inl (Or.inl (by decide)))
  exact absurd hx (by decide)

theorem exportLine_eq (key value : List Char) :
    exportLine key value = exportNeedle key ++ ('"' :: value ++ ['"']) := by
  simp [exportLine]

theorem quotedValue_nlFree (value : List Char) (hv : '\n' ∉ value) :
    '\n' ∉ ('"' :: value ++ ['"']) := by
  intro hmem
  rcases List.mem_cons.mp hmem with h2 | h2
  · exact absurd h2 (by decide)
  · rcases List.mem_append.mp h2 with h3 | h3
    · exact hv h3
    · exact absurd h3 (by decide)

theorem exportLine_nlFree (key value : List Char) (hk : '\n' ∉ key) (hv : '\n' ∉ value) :
    '\n' ∉ exportLine key value := by
  rw [exportLine_eq]
  intro hmem
  rcases List.mem_append.mp hmem with h | h
  · exact exportNeedle_nlFree key hk h
  · exact quotedValue_nlFree value hv h

/-- Every output of the patcher still contains `export KEY=`: the second
run therefore always takes the update branch. -/
theorem setEnvVarContent_contains (key value : List Char) (hk : '\n' ∉ key)
    (hv : '\n' ∉ value) (content : Option (List Char)) :
    listIsInfix (exportNeedle key) (setEnvVarContent key value content) = true := by
  have hnn := exportNeedle_ne_nil key
  have hself : listIsInfix (exportNeedle key) (exportLine key value ++ ['\n']) = true := by
    rw [exportLine_eq, List.append_assoc]
    exact listIsInfix_self_append _ _ hnn
  cases content with
  | none =>
      exact listIsInfix_append_right _ _ _ (listIsInfix_cons_of _ _ _ hself)
  | some cont =>
      rw [setEnvVarContent]
      by_cases h1 : listIsInfix (exportNeedle key) cont
      · rw [if_pos h1, exportLine_eq]
        exact listIsInfix_replExport _ _ cont hnn (exportNeedle_nlFree key hk)
          (quotedValue_nlFree value hv) h1
      · rw [if_neg h1]
        by_cases h2 : listIsInfix mgComment cont
        · rw [if_pos h2]
          cases hins : insertIntoSection (exportLine key value ++ ['\n']) cont with
          | some out2 =>
              obtain ⟨pre, SL, rest, g1, g2, g3⟩ :=
                insertIntoSection_spec _ cont out2 hins
              rw [g2]
              refine listIsInfix_append_right _ _ _ ?_
              refine listIsInfix_cons_of _ _ _ ?_
              refine listIsInfix_append_right _ _ _ ?_
              exact listIsInfix_append_left _ _ _ hself
          | none => exact listIsInfix_append_right _ _ _ hself
        · rw [if_neg h2]
          refine listIsInfix_append_right _ _ _ ?_
          refine listIsInfix_cons_of _ _ _ ?_
          refine listIsInfix_append_right _ _ _ ?_
          refine listIsInfix_cons_of _ _ _ hself

theorem setEnvVarContent_some_update (key value s : List Char)
    (h : listIsInfix (exportNeedle key) s = true) :
    setEnvVarContent key value (some s) =
      replExport (exportNeedle key) (exportLine key value) s := by
  rw [setEnvVarContent, if_pos h]

theorem splitNl_lines_ok (n r cont : List Char) (h1 : listIsInfix n cont = false) :
    ∀ l ∈ splitNl cont, '\n' ∉ l ∧ replLine n r l = l ∧ listIsInfix n l = false := by
  intro l hl
  have hfree : listIsInfix n l = false := by
    by_contra hcon
    rw [Bool.not_eq_false] at hcon
    have := listIsInfix_join_of_mem n (splitNl cont) l hl hcon
    rw [splitNl_join] at this
    rw [this] at h1
    exact Bool.true_eq_false.mp h1
  exact ⟨splitNl_nlFree cont l hl, replLine_eq_self_of_not_infix n r l hfree, hfree⟩

/-- C2 (part a, amended): applying the Unix `setEnvironmentVariable` text
patch a second time with the same key and value changes nothing, for every
profile content, provided the key and the value contain no newline (and
the key no `=`). -/
theorem setEnvVarContent_idem (key value : List Char)
    (hk : '\n' ∉ key) (hke : '=' ∉ key) (hv : '\n' ∉ value)
    (content : Option (List Char)) :
    setEnvVarContent key value (some (setEnvVarContent key value content)) =
      setEnvVarContent key value content := by
  have hnn : exportNeedle key ≠ [] := exportNeedle_ne_nil key
  have hnl : '\n' ∉ exportNeedle key := exportNeedle_nlFree key hk
  have hnso : NoSelfOverlap (exportNeedle key) := noSelfOverlap_exportNeedle key hke
  have hnc : listIsInfix (exportNeedle key) mgComment = false :=
    exportNeedle_not_infix_mgComment key
  have hEL : exportLine key value = exportNeedle key ++ ('"' :: value ++ ['"']) :=
    exportLine_eq key value
  have hv2 : '\n' ∉ ('"' :: value ++ ['"']) := quotedValue_nlFree value hv
  have hA := setEnvVarContent_contains key value hk hv content
  rw [setEnvVarContent_some_update key value _ hA]
  have hfix_mg : '\n' ∉ mgComment ∧
      replLine (exportNeedle key) (exportLine key value) mgComment = mgComment :=
    ⟨by decide, replLine_eq_self_of_not_infix _ _ _ hnc⟩
  have hfix_el : '\n' ∉ exportLine key value ∧
      replLine (exportNeedle key) (exportLine key value) (exportLine key value) =
        exportLine key value := by
    refine ⟨exportLine_nlFree key value hk hv, ?_⟩
    rw [hEL]
    exact replLine_self_repl _ _ hnn
  cases content with
  | none =>
      have hout : setEnvVarContent key value none =
          joinLines [mgComment, exportLine key value, []] := rfl
      rw [hout]
      apply replExport_join_fixed _ _ hnn hnl
      intro l hl
      rcases List.mem_cons.mp hl with rfl | hl2
      · exact hfix_mg
      rcases List.mem_cons.mp hl2 with rfl | hl3
      · exact hfix_el
      rcases List.mem_singleton.mp hl3 with rfl
      exact ⟨by simp, rfl⟩
  | some cont =>
      rw [setEnvVarContent]
      by_cases h1 : listIsInfix (exportNeedle key) cont
      · rw [if_pos h1, hEL]
        exact replExport_idem _ _ hnn hnl hv2 cont
      · rw [if_neg h1]
        have hok := splitNl_lines_ok (exportNeedle key) (exportLine key value) cont
          (Bool.not_eq_true _ ▸ (by simpa using h1))
        by_cases h2 : listIsInfix mgComment cont
        · rw [if_pos h2]
          cases hins : insertIntoSection (exportLine key value ++ ['\n']) cont with
          | some out2 =>
              show replExport (exportNeedle key) (exportLine key value) out2 = out2
              obtain ⟨pre, SL, rest, g1, g2, g3⟩ :=
                insertIntoSection_spec (exportLine key value ++ ['\n']) cont out2 hins
              have hout2 : out2 = joinLines (splitNl (pre ++ mgComment) ++
                  (SL ++ ([exportLine key value] ++ splitNl rest))) := by
                rw [joinLines_append _ _ (splitNl_ne_nil _) (by simp),
                  joinLines_secJoin _ _ (by simp),
                  joinLines_append [exportLine key value] _ (by simp) (splitNl_ne_nil rest),
                  splitNl_join, splitNl_join, g2]
                simp [joinLines]
              rw [hout2]
              apply replExport_join_fixed _ _ hnn hnl
              intro l hl
              rcases List.mem_append.mp hl with hlA | hlB
              · -- a line of `pre ++ mgComment`: an infix of the original content
                have hfree : listIsInfix (exportNeedle key) l = false := by
                  by_contra hcon
                  rw [Bool.not_eq_false] at hcon
                  have hj := listIsInfix_join_of_mem _ _ l hlA hcon
                  rw [splitNl_join] at hj
                  have : listIsInfix (exportNeedle key) cont = true := by
                    rw [g1]
                    exact listIsInfix_append_left _ _ _ hj
                  exact h1 this
                exact ⟨splitNl_nlFree _ l hlA,
                  replLine_eq_self_of_not_infix _ _ _ hfree⟩
              rcases List.mem_append.mp hlB with hlS | hlC
              · -- a section line: also part of the original content
                have hfree : listIsInfix (exportNeedle key) l = false := by
                  by_contra hcon
                  rw [Bool.not_eq_false] at hcon
                  have hsec := listIsInfix_secJoin_of_mem _ SL l hlS hcon
                  have : listIsInfix (exportNeedle key) cont = true := by
                    rw [g1]
                    refine listIsInfix_append_right _ _ _ ?_
                    refine listIsInfix_cons_of _ _ _ ?_
                    exact listIsInfix_append_left _ _ _ hsec
                  exact h1 this
                exact ⟨g3 l hlS, replLine_eq_self_of_not_infix _ _ _ hfree⟩
              rcases List.mem_append.mp hlC with hlE | hlR
              · rcases List.mem_singleton.mp hlE with rfl
                exact hfix_el
              · -- a line of `rest`: also part of the original content
                have hfree : listIsInfix (exportNeedle key) l = false := by
                  by_contra hcon
                  rw [Bool.not_eq_false] at hcon
                  have hj := listIsInfix_join_of_mem _ _ l hlR hcon
                  rw [splitNl_join] at hj
                  have : listIsInfix (exportNeedle key) cont = true := by
                    rw [g1]
                    refine listIsInfix_append_right _ _ _ ?_
                    refine listIsInfix_cons_of _ _ _ ?_
                    exact listIsInfix_append_right _ _ _ hj
                  exact h1 this
                exact ⟨splitNl_nlFree _ l hlR,
                  replLine_eq_self_of_not_infix _ _ _ hfree⟩
          | none =>
              show replExport (exportNeedle key) (exportLine key value)
                  (cont ++ (exportLine key value ++ ['\n'])) =
                cont ++ (exportLine key value ++ ['\n'])
              have hsne := splitNl_ne_nil cont
              have hlast := List.dropLast_append_getLast hsne
              set init := (splitNl cont).dropLast with hinit
              set last := (splitNl cont).getLast hsne with hlastdef
              have hlastmem : last ∈ splitNl cont := List.getLast_mem hsne
              have hlastok := hok last hlastmem
              have hXfix : replLine (exportNeedle key) (exportLine key value)
                  (last ++ exportLine key value) = last ++ exportLine key value := by
                have hm := replLine_match_at (exportNeedle key) (exportLine key value)
                  ('"' :: value ++ ['"']) hnn hnso last hlastok.2.2
                have harg : last ++ exportLine key value =
                    last ++ exportNeedle key ++ ('"' :: value ++ ['"']) := by
                  rw [hEL, List.append_assoc]
                rw [harg, hm]
                exact harg
              have hXnl : '\n' ∉ last ++ exportLine key value := by
                intro hmem
                rcases List.mem_append.mp hmem with h3 | h3
                · exact hlastok.1 h3
                · exact exportLine_nlFree key value hk hv h3
              have hout : cont ++ (exportLine key value ++ ['\n']) =
                  joinLines (init ++ [last ++ exportLine key value, []]) := by
                cases hi : init with
                | nil =>
                    have hcont : cont = last := by
                      conv_lhs => rw [← splitNl_join cont, ← hlast, hi]
                      rfl
                    rw [hcont, List.nil_append]
                    show last ++ (exportLine key value ++ ['\n']) =
                      (last ++ exportLine key value) ++ '\n' :: joinLines [[]]
                    simp [joinLines]
                | cons i0 it =>
                    have hcont : cont = joinLines (init ++ [last]) := by
                      rw [hlast, splitNl_join]
                    rw [hcont, hi, joinLines_append _ _ (by simp) (by simp),
                      joinLines_append _ _ (by simp) (by simp)]
                    show (joinLines (i0 :: it) ++ '\n' :: joinLines [last]) ++
                        (exportLine key value ++ ['\n']) =
                      joinLines (i0 :: it) ++ '\n' ::
                        joinLines [last ++ exportLine key value, []]
                    simp only [List.append_assoc, List.cons_append, List.cons.injEq]
                    show joinLines (i0 :: it) ++ '\n' :: (last ++ (exportLine key value ++ ['\n'])) =
                      joinLines (i0 :: it) ++ '\n' ::
                        ((last ++ exportLine key value) ++ '\n' :: joinLines [[]])
                    simp [joinLines]
              rw [hout]
              apply replExport_join_fixed _ _ hnn hnl
              intro l hl
              rcases List.mem_append.mp hl with hlI | hlX
              · have hmem : l ∈ splitNl cont := by
                  rw [← hlast]
                  exact List.mem_append.mpr (Or.inl hlI)
                exact ⟨(hok l hmem).1, (hok l hmem).2.1⟩
              rcases List.mem_cons.mp hlX with rfl | hlY
              · exact ⟨hXnl, hXfix⟩
              rcases List.mem_singleton.mp hlY with rfl
              exact ⟨by simp, rfl⟩
        · rw [if_neg h2]
          have hout : cont ++ ('\n' :: (mgComment ++ '\n' :: (exportLine key value ++ ['\n']))) =
              joinLines (splitNl cont ++ [mgComment, exportLine key value, []]) := by
            rw [joinLines_append _ _ (splitNl_ne_nil cont) (by simp), splitNl_join]
            rfl
          rw [hout]
          apply replExport_join_fixed _ _ hnn hnl
          intro l hl
          rcases List.mem_append.mp hl with hlA | hlB
          · exact ⟨(hok l hlA).1, (hok l hlA).2.1⟩
          rcases List.mem_cons.mp hlB with rfl | hl2
          · exact hfix_mg
          rcases List.mem_cons.mp hl2 with rfl | hl3
          · exact hfix_el
          rcases List.mem_singleton.mp hl3 with rfl
          exact ⟨by simp, rfl⟩

theorem spreadProps_jsOrEmptyObj (ov : Option Json) :
    spreadProps (jsOrEmptyObj ov) = spreadOpt ov := by
  cases ov with
  | none => rfl
  | some val =>
      cases val with
      | null => rfl
      | bool b => cases b <;> rfl
      | num n =>
          by_cases h : jsTruthy (Json.num n) <;> simp [jsOrEmptyObj, h, spreadOpt, spreadProps]
      | str s =>
          by_cases h : s = ""
          · subst h
            simp [jsOrEmptyObj, jsTruthy, spreadOpt, spreadProps]
          · simp [jsOrEmptyObj, jsTruthy, h, spreadOpt]
      | arr l => rfl
      | obj o => rfl

theorem lookupKey_isSome_iff_mem_keys (a : List (String × Json)) (k : String) :
    (lookupKey a k).isSome = true ↔ k ∈ a.map Prod.fst := by
  induction a with
  | nil => simp [lookupKey]
  | cons hd t ih =>
      obtain ⟨k0, v0⟩ := hd
      by_cases hk : k0 = k
      · subst hk
        simp [lookupKey]
      · simp [lookupKey, hk, ih, Ne.symm hk]

theorem keys_jsSpread (a x : List (String × Json)) :
    (jsSpread a x).map Prod.fst = a.map Prod.fst ++
      ((x.filter fun kv => (lookupKey a kv.1).isNone).map Prod.fst) := by
  simp [jsSpread, List.map_map, Function.comp_def]

theorem keys_jsSpread_nodup (a x : List (String × Json))
    (ha : (a.map Prod.fst).Nodup) (hx : (x.map Prod.fst).Nodup) :
    ((jsSpread a x).map Prod.fst).Nodup := by
  rw [keys_jsSpread]
  refine List.Nodup.append ha (((List.filter_sublist x).map Prod.fst).nodup hx) ?_
  intro k hka hkf
  obtain ⟨kv, hkv, rfl⟩ := List.mem_map.mp hkf
  have hp := (List.mem_filter.mp hkv).2
  rw [Option.isNone_iff_eq_none] at hp
  have : (lookupKey a kv.1).isSome = true := (lookupKey_isSome_iff_mem_keys a kv.1).mpr hka
  rw [hp] at this
  simp at this

/-- C2 (part b): re-running `configureClaude` with the same API key maps
the configuration written by the first run to itself (provided the
pre-existing `env` and `customApiKeyResponses` objects have unique keys,
as every real JS object does). -/
theorem configureClaudeConfig_idem (apiKey : String) (ex : List (String × Json))
    (henv : ((spreadOpt (lookupKey ex "env")).map Prod.fst).Nodup)
    (hcakr : ((spreadOpt (lookupKey ex "customApiKeyResponses")).map Prod.fst).Nodup) :
    configureClaudeConfig apiKey (configureClaudeConfig apiKey ex) =
      configureClaudeConfig apiKey ex := by
  have hXnd : (([("ANTHROPIC_BASE_URL", Json.str MEGALLM_BASE_URL),
      ("ANTHROPIC_API_KEY", Json.str apiKey)] : List (String × Json)).map Prod.fst).Nodup := by
    simp
  have hYnd : (([("approved", Json.arr [Json.str (getLastNCharacters apiKey 20)]),
      ("rejected", Json.arr [])] : List (String × Json)).map Prod.fst).Nodup := by
    simp
  have hcfg : ∀ e : List (String × Json), configureClaudeConfig apiKey e =
      (let m1 := setKey e "env"
        (Json.obj (jsSpread (spreadProps (jsOrEmptyObj (lookupKey e "env")))
          (jsSpread (spreadOpt (lookupKey e "env"))
            [("ANTHROPIC_BASE_URL", Json.str MEGALLM_BASE_URL),
             ("ANTHROPIC_API_KEY", Json.str apiKey)])));
       setKey m1 "customApiKeyResponses"
        (Json.obj (jsSpread (spreadProps (jsOrEmptyObj (lookupKey m1 "customApiKeyResponses")))
          [("approved", Json.arr [Json.str (getLastNCharacters apiKey 20)]),
           ("rejected", Json.arr [])]))) := by
    intro e
    rw [configureClaudeConfig, claudeNewConfig]
    simp only [arrIncludesStr, List.any_nil, Bool.false_eq_true, if_neg, List.nil_append]
    exact mergeJsonConfig_pair ..
  set X : List (String × Json) := [("ANTHROPIC_BASE_URL", Json.str MEGALLM_BASE_URL),
    ("ANTHROPIC_API_KEY", Json.str apiKey)] with hX
  set Y : List (String × Json) := [("approved", Json.arr [Json.str (getLastNCharacters apiKey 20)]),
    ("rejected", Json.arr [])] with hY
  set P := spreadOpt (lookupKey ex "env") with hP
  have hV1 : jsSpread (spreadProps (jsOrEmptyObj (lookupKey ex "env"))) (jsSpread P X) =
      jsSpread P X := by
    rw [spreadProps_jsOrEmptyObj, ← hP]
    exact jsSpread_absorb_left P X henv
  set V1 := jsSpread P X with hV1def
  set m1 := setKey ex "env" (Json.obj V1) with hm1
  set Q := spreadProps (jsOrEmptyObj (lookupKey m1 "customApiKeyResponses")) with hQ
  have hQ2 : Q = spreadOpt (lookupKey ex "customApiKeyResponses") := by
    rw [hQ, hm1, lookupKey_setKey_ne _ _ _ _ (by decide), spreadProps_jsOrEmptyObj]
  set C1v := jsSpread Q Y with hC1v
  set m2 := setKey m1 "customApiKeyResponses" (Json.obj C1v) with hm2
  have hrun1 : configureClaudeConfig apiKey ex = m2 := by
    rw [hcfg ex]
    simp only [← hX, ← hY, ← hP, hV1, ← hV1def, ← hm1, ← hQ, ← hC1v, ← hm2]
  have hm2env : lookupKey m2 "env" = some (Json.obj V1) := by
    rw [hm2, lookupKey_setKey_ne _ _ _ _ (by decide), hm1, lookupKey_setKey_self]
  have hm2cakr : lookupKey m2 "customApiKeyResponses" = some (Json.obj C1v) := by
    rw [hm2, lookupKey_setKey_self]
  have hV1nd : (V1.map Prod.fst).Nodup := by
    rw [hV1def]
    exact keys_jsSpread_nodup P X henv hXnd
  rw [hrun1, hcfg m2]
  have henv2 : jsSpread (spreadProps (jsOrEmptyObj (lookupKey m2 "env")))
      (jsSpread (spreadOpt (lookupKey m2 "env")) X) = V1 := by
    rw [hm2env]
    have hso : spreadOpt (some (Json.obj V1)) = V1 := rfl
    have hsp : spreadProps (jsOrEmptyObj (some (Json.obj V1))) = V1 := rfl
    rw [hso, hsp, jsSpread_absorb_left V1 X hV1nd, hV1def,
      jsSpread_absorb_right P X hXnd]
  simp only [henv2]
  rw [setKey_eq_self_of_lookup m2 "env" (Json.obj V1) hm2env, hm2cakr,
    show spreadProps (jsOrEmptyObj (some (Json.obj C1v))) = C1v from rfl, hC1v,
    jsSpread_absorb_right Q Y hYnd, ← hC1v]
  exact setKey_eq_self_of_lookup m2 "customApiKeyResponses" (Json.obj C1v) hm2cakr

/-- C2 (counterexample): re-running the configuration is NOT idempotent for
every key/value pair: with key `K` and the newline-containing value
`a\nexport K=b`, the second run of `setEnvironmentVariable` matches the
`export K=.*` regex once per line of the previously written value and
duplicates the export line. -/
theorem setEnvVarContent_not_idem :
    setEnvVarContent ['K'] ('a' :: '\n' :: "export K=b".toList)
        (some (setEnvVarContent ['K'] ('a' :: '\n' :: "export K=b".toList) none)) ≠
      setEnvVarContent ['K'] ('a' :: '\n' :: "export K=b".toList) none := by
  have h1 : setEnvVarContent ['K'] ('a' :: '\n' :: "export K=b".toList) none =
      joinLines ["# MegaLLM Configuration".toList,
        "export K=\"a".toList, "export K=b\"".toList, []] := by decide
  rw [setEnvVarContent_some_update _ _ _ (by rw [h1]; decide)]
  rw [h1, replExport_join _ _ (by decide) (by decide) _ (by decide)]
  decide

/-- C2 (amended): re-running the configuration is idempotent provided the
environment variable's key consists of uppercase letters and underscores
and the value contains neither a newline nor a `$` — true of every key
and value the tool writes.  An `[A-Z_]+` key contains no regex
metacharacter, so the dynamically built pattern `export KEY=.*` of
`setEnvironmentVariable` matches exactly the literal text this embedding
matches, and a `$`-free value keeps the `String.replace` replacement
string free of special `$`-patterns (`$$`, `$&`, ...), so it is inserted
verbatim as modelled here.  On this domain a second
`setEnvironmentVariable` with the same key and value leaves the profile
content unchanged, and a second `configureClaude` with the same API key
reproduces the same configuration file (for pre-existing `env` and
`customApiKeyResponses` objects with unique keys, as real JS objects
have).  For values containing a newline idempotence fails
(`setEnvVarContent_not_idem`). -/
theorem configuration_rerun_idempotent (key value : List Char) (apiKey : String)
    (ex : List (String × Json)) (content : Option (List Char))
    (hkup : ∀ c ∈ key, isUpperKeyChar c = true)
    (hv : '\n' ∉ value) (hvd : '$' ∉ value)
    (henv : ((spreadOpt (lookupKey ex "env")).map Prod.fst).Nodup)
    (hcakr : ((spreadOpt (lookupKey ex "customApiKeyResponses")).map Prod.fst).Nodup) :
    setEnvVarContent key value (some (setEnvVarContent key value content)) =
      setEnvVarContent key value content ∧
    configureClaudeConfig apiKey (configureClaudeConfig apiKey ex) =
      configureClaudeConfig apiKey ex := by
  have hk : '\n' ∉ key := fun h => absurd (hkup _ h) (by decide)
  have hke : '=' ∉ key := fun h => absurd (hkup _ h) (by decide)
  exact ⟨setEnvVarContent_idem key value hk hke hv content,
    configureClaudeConfig_idem apiKey ex henv hcakr⟩

/-- Witness for `configuration_rerun_idempotent` at a concrete key, value,
API key and configuration. -/
theorem configuration_rerun_idempotent_witness :
    setEnvVarContent "MEGALLM_API_KEY".toList "v1".toList
        (some (setEnvVarContent "MEGALLM_API_KEY".toList "v1".toList none)) =
      setEnvVarContent "MEGALLM_API_KEY".toList "v1".toList none ∧
    configureClaudeConfig "test-key" (configureClaudeConfig "test-key" []) =
      configureClaudeConfig "test-key" [] := by
  have h := configuration_rerun_idempotent "MEGALLM_API_KEY".toList "v1".toList
    "test-key" [] none (by decide) (by decide) (by decide) (by decide) (by decide)
  exact ⟨h.1, h.2⟩

/-- ASCII white space, for the regex class `\s` used by the removal
patterns of `removeUnixEnvVars` (the non-ASCII members of `\s` cannot
occur in the contents analysed here). -/
def isWsChar (c : Char) : Bool :=
  c == '\t' || c == ' ' || c == '\n' || c == '\x0b' || c == '\x0c' || c == '\r'

/-- Match a literal at the head of the input, returning the rest. -/
def matchLit (lit s : List Char) : Option (List Char) :=
  if lit.isPrefixOf s then some (s.drop lit.length) else none

/-- Match `\s+` greedily.  Every pattern piece that follows a `\s+` here
starts with a non-space character, so the greedy run is exactly where the
regex engine ends up after backtracking. -/
def matchWsPlus (s : List Char) : Option (List Char) :=
  match s with
  | [] => none
  | c :: t => if isWsChar c then some (List.dropWhile isWsChar (c :: t)) else none

/-- Match `.*\n?`: the rest of the line, and its newline if there is one. -/
def dropLineNl (s : List Char) : List Char :=
  match dropToNewline s with
  | [] => []
  | _ :: t => t

/-- Head match of the first removal pattern `export\s+KEY\s*=.*\n?` of
`removeUnixEnvVars` (`src/utils/shell.js`).  `\s*` is greedy: the next
piece is the non-space `=`, so no backtracking can occur. -/
def matchP1 (K s : List Char) : Option (List Char) :=
  match matchLit "export".toList s with
  | none => none
  | some s1 =>
      match matchWsPlus s1 with
      | none => none
      | some s2 =>
          match matchLit K s2 with
          | none => none
          | some s3 =>
              match matchLit ['='] (List.dropWhile isWsChar s3) with
              | none => none
              | some s4 => some (dropLineNl s4)

/-- The tail `export\s+KEY\n?` of the second removal pattern. -/
def matchP2Tail (K s : List Char) : Option (List Char) :=
  match matchLit "export".toList s with
  | none => none
  | some s1 =>
      match matchWsPlus s1 with
      | none => none
      | some s2 =>
          match matchLit K s2 with
          | none => none
          | some s3 =>
              match s3 with
              | '\n' :: t => some t
              | _ => some s3

/-- One backtracking attempt for `.*\n?` before the tail of pattern 2
(first with the optional newline, then without). -/
def matchP2At (K rest : List Char) : Option (List Char) :=
  match rest with
  | '\n' :: t =>
      match matchP2Tail K t with
      | some r => some r
      | none => matchP2Tail K rest
  | _ => matchP2Tail K rest

/-- `.*\n?` with full backtracking, longest first, then the tail of
pattern 2. -/
def matchP2Dot (K s : List Char) : Nat → Option (List Char)
  | 0 => matchP2At K s
  | i + 1 =>
      match matchP2At K (s.drop (i + 1)) with
      | some r => some r
      | none => matchP2Dot K s i

/-- Head match of the second removal pattern `KEY\s*=.*\n?export\s+KEY\n?`. -/
def matchP2 (K s : List Char) : Option (List Char) :=
  match matchLit K s with
  | none => none
  | some s1 =>
      match matchLit ['='] (List.dropWhile isWsChar s1) with
      | none => none
      | some s2 => matchP2Dot K s2 (List.length (List.takeWhile (fun c => c != '\n') s2))

/-- Head match of the third (fish shell) removal pattern `set\s+-x\s+KEY.*\n?`. -/
def matchP3 (K s : List Char) : Option (List Char) :=
  match matchLit "set".toList s with
  | none => none
  | some s1 =>
      match matchWsPlus s1 with
      | none => none
      | some s2 =>
          match matchLit "-x".toList s2 with
          | none => none
          | some s3 =>
              match matchWsPlus s3 with
              | none => none
              | some s4 =>
                  match matchLit K s4 with
                  | none => none
                  | some s5 => some (dropLineNl s5)

/-- Head match of the fourth removal pattern
`# MegaLLM Configuration\n?export\s+KEY.*\n?`.  The optional newline is
taken greedily; `export` can never match at a newline, so skipping the
backtracking attempt is faithful. -/
def matchP4 (K s : List Char) : Option (List Char) :=
  match matchLit mgComment s with
  | none => none
  | some s1 =>
      match matchLit "export".toList (match s1 with | '\n' :: t => t | _ => s1) with
      | none => none
      | some s3 =>
          match matchWsPlus s3 with
          | none => none
          | some s4 =>
              match matchLit K s4 with
              | none => none
              | some s5 => some (dropLineNl s5)

/-- Head match of the final cleanup pattern
`# MegaLLM Configuration\n(?=\n|$)`; the lookahead is not consumed. -/
def matchCleanup (s : List Char) : Option (List Char) :=
  match matchLit (mgComment ++ ['\n']) s with
  | none => none
  | some s1 =>
      match s1 with
      | [] => some []
      | '\n' :: _ => some s1
      | _ => none

/-- Fuel-driven global replace-by-empty (`content.replace(pattern, '')`
with the `g` flag): scan left to right, drop each match, resume right
after it.  The fuel is instantiated with the length of the scanned text,
which bounds the recursion since every match consumes at least one
character. -/
def removeAllFuel (m : List Char → Option (List Char)) : Nat → List Char → List Char
  | 0, _ => []
  | _ + 1, [] => []
  | fuel + 1, c :: cs =>
      match m (c :: cs) with
      | some rest =>
          if rest.length < cs.length + 1 then removeAllFuel m fuel rest
          else c :: removeAllFuel m fuel cs
      | none => c :: removeAllFuel m fuel cs

def removeAll (m : List Char → Option (List Char)) (s : List Char) : List Char :=
  removeAllFuel m s.length s

/-- The four pattern removals `removeUnixEnvVars` applies to one file's
content for one variable.  The `pattern.test` guards of the source only
drive the `modified` flag: a global replace with no match is the
identity, so they do not change the content. -/
def removeVarPats (K content : List Char) : List Char :=
  removeAll (matchP4 K)
    (removeAll (matchP3 K) (removeAll (matchP2 K) (removeAll (matchP1 K) content)))

/-- The content transformation `removeUnixEnvVars` applies to one shell
profile file: the four patterns for each variable in turn, then the
cleanup of empty `# MegaLLM Configuration` blocks. -/
def removeUnixContent (vs : List (List Char)) (content : List Char) : List Char :=
  removeAll matchCleanup
    (vs.foldl (fun c K => removeVarPats K c) content)

theorem upperKey_facts (c : Char) (h : isUpperKeyChar c = true) :
    c ≠ '\n' ∧ c ≠ '=' ∧ c ≠ '"' ∧ isWsChar c = false := by
  simp only [isUpperKeyChar, Bool.or_eq_true, Bool.and_eq_true, decide_eq_true_eq] at h
  rcases h with ⟨h1, _⟩ | h1
  · refine ⟨?_, ?_, ?_, ?_⟩
    · intro he; subst he; exact absurd h1 (by decide)
    · intro he; subst he; exact absurd h1 (by decide)
    · intro he; subst he; exact absurd h1 (by decide)
    · cases hw : isWsChar c
      · rfl
      · exfalso
        simp only [isWsChar, Bool.or_eq_true, beq_iff_eq] at hw
        rcases hw with ((((hw | hw) | hw) | hw) | hw) | hw <;> subst hw <;>
          exact absurd h1 (by decide)
  · subst h1; exact ⟨by decide, by decide, by decide, by decide⟩

theorem key_nlFree (K : List Char) (hK : ∀ c ∈ K, isUpperKeyChar c = true) :
    '\n' ∉ K :=
  fun h => (upperKey_facts '\n' (hK _ h)).1 rfl

theorem key_eqFree (K : List Char) (hK : ∀ c ∈ K, isUpperKeyChar c = true) :
    '=' ∉ K :=
  fun h => (upperKey_facts '=' (hK _ h)).2.1 rfl

theorem key_quoteFree (K : List Char) (hK : ∀ c ∈ K, isUpperKeyChar c = true) :
    '"' ∉ K :=
  fun h => (upperKey_facts '"' (hK _ h)).2.2.1 rfl

theorem matchLit_some (lit s r : List Char) (h : matchLit lit s = some r) :
    s = lit ++ r := by
  unfold matchLit at h
  by_cases hp : lit.isPrefixOf s
  · rw [if_pos hp] at h
    obtain ⟨u, hu⟩ := List.isPrefixOf_iff_prefix.mp hp
    injection h with h2
    subst hu
    rw [List.drop_left] at h2
    rw [h2]
  · rw [if_neg hp] at h
    cases h

theorem matchWsPlus_some (s r : List Char) (h : matchWsPlus s = some r) :
    ∃ w, s = w ++ r ∧ w ≠ [] ∧ ∀ c ∈ w, isWsChar c = true := by
  cases s with
  | nil => cases h
  | cons c t =>
      simp only [matchWsPlus] at h
      by_cases hc : isWsChar c = true
      · rw [if_pos hc] at h
        injection h with h2
        refine ⟨List.takeWhile isWsChar (c :: t), ?_, ?_, ?_⟩
        · rw [← h2, List.takeWhile_append_dropWhile]
        · rw [List.takeWhile_cons_of_pos hc]; simp
        · intro x hx; exact List.mem_takeWhile_imp hx
      · rw [if_neg hc] at h
        cases h

theorem matchP1_some (K s r : List Char) (h : matchP1 K s = some r) :
    ∃ w rest, s = "export".toList ++ (w ++ (K ++ rest)) ∧ w ≠ [] ∧
      ∀ c ∈ w, isWsChar c = true := by
  unfold matchP1 at h
  cases h1 : matchLit "export".toList s with
  | none => simp only [h1] at h; cases h
  | some s1 =>
      simp only [h1] at h
      cases h2 : matchWsPlus s1 with
      | none => simp only [h2] at h; cases h
      | some s2 =>
          simp only [h2] at h
          cases h3 : matchLit K s2 with
          | none => simp only [h3] at h; cases h
          | some s3 =>
              obtain ⟨w, hw1, hw2, hw3⟩ := matchWsPlus_some s1 s2 h2
              exact ⟨w, s3,
                by rw [matchLit_some _ _ _ h1, hw1, matchLit_some _ _ _ h3], hw2, hw3⟩

theorem matchP2_some (K s r : List Char) (h : matchP2 K s = some r) :
    ∃ rest, s = K ++ rest := by
  unfold matchP2 at h
  cases h1 : matchLit K s with
  | none => simp only [h1] at h; cases h
  | some s1 => exact ⟨s1, matchLit_some _ _ _ h1⟩

theorem matchP3_some (K s r : List Char) (h : matchP3 K s = some r) :
    ∃ pre rest, s = pre ++ (K ++ rest) := by
  unfold matchP3 at h
  cases h1 : matchLit "set".toList s with
  | none => simp only [h1] at h; cases h
  | some s1 =>
      simp only [h1] at h
      cases h2 : matchWsPlus s1 with
      | none => simp only [h2] at h; cases h
      | some s2 =>
          simp only [h2] at h
          cases h3 : matchLit "-x".toList s2 with
          | none => simp only [h3] at h; cases h
          | some s3 =>
              simp only [h3] at h
              cases h4 : matchWsPlus s3 with
              | none => simp only [h4] at h; cases h
              | some s4 =>
                  simp only [h4] at h
                  cases h5 : matchLit K s4 with
                  | none => simp only [h5] at h; cases h
                  | some s5 =>
                      obtain ⟨w1, hw1, _, _⟩ := matchWsPlus_some s1 s2 h2
                      obtain ⟨w2, hw2, _, _⟩ := matchWsPlus_some s3 s4 h4
                      refine ⟨"set".toList ++ (w1 ++ ("-x".toList ++ w2)), s5, ?_⟩
                      rw [matchLit_some _ _ _ h1, hw1, matchLit_some _ _ _ h3, hw2,
                        matchLit_some _ _ _ h5]
                      simp [List.append_assoc]

theorem matchP4_some (K s r : List Char) (h : matchP4 K s = some r) :
    ∃ rest, s = mgComment ++ rest := by
  unfold matchP4 at h
  cases h1 : matchLit mgComment s with
  | none => simp only [h1] at h; cases h
  | some s1 => exact ⟨s1, matchLit_some _ _ _ h1⟩

theorem matchCleanup_some (s r : List Char) (h : matchCleanup s = some r) :
    ∃ rest, s = mgComment ++ (['\n'] ++ rest) := by
  unfold matchCleanup at h
  cases h1 : matchLit (mgComment ++ ['\n']) s with
  | none => rw [h1] at h; cases h
  | some s1 =>
      refine ⟨s1, ?_⟩
      have := matchLit_some _ _ _ h1
      rw [this, List.append_assoc]

/-- A needle without the separator character that matches across
`a ++ sep :: y` already matches within `a`. -/
theorem isPrefixOf_append_sep (n : List Char) (sep : Char) (hsep : sep ∉ n) :
    ∀ a y : List Char, n.isPrefixOf (a ++ sep :: y) = true → n.isPrefixOf a = true := by
  induction n with
  | nil => intro a y _; cases a <;> rfl
  | cons n0 n' ih =>
      intro a y h
      cases a with
      | nil =>
          simp only [List.nil_append, List.isPrefixOf, Bool.and_eq_true, beq_iff_eq] at h
          exact absurd h.1 (fun he => hsep (he ▸ List.mem_cons_self n0 n'))
      | cons a0 a' =>
          simp only [List.cons_append, List.isPrefixOf, Bool.and_eq_true] at h ⊢
          exact ⟨h.1, ih (fun hm => hsep (List.mem_cons_of_mem _ hm)) a' y h.2⟩

/-- A nonempty head match at some scan position is an infix occurrence. -/
theorem listIsInfix_of_pfx_drop (n : List Char) (hn : n ≠ []) :
    ∀ (s : List Char) (m : Nat), n.isPrefixOf (s.drop m) = true → listIsInfix n s = true := by
  intro s
  induction s with
  | nil =>
      intro m h
      rw [List.drop_nil] at h
      cases n with
      | nil => exact absurd rfl hn
      | cons a b => simp [List.isPrefixOf] at h
  | cons c t ih =>
      intro m h
      cases m with
      | zero =>
          rw [List.drop_zero] at h
          simp [listIsInfix, h]
      | succ m' =>
          rw [List.drop_succ_cons] at h
          exact listIsInfix_cons_of n c t (ih m' h)

theorem listIsInfix_to_drop (n : List Char) :
    ∀ s : List Char, listIsInfix n s = true → ∃ m, n.isPrefixOf (s.drop m) = true := by
  intro s
  induction s with
  | nil =>
      intro h
      simp only [listIsInfix, decide_eq_true_eq] at h
      exact ⟨0, by rw [h]; rfl⟩
  | cons c t ih =>
      intro h
      simp only [listIsInfix, Bool.or_eq_true] at h
      rcases h with h | h
      · exact ⟨0, by rw [List.drop_zero]; exact h⟩
      · obtain ⟨m, hm⟩ := ih h
        exact ⟨m + 1, by rw [List.drop_succ_cons]; exact hm⟩

theorem drop_append_cases (x y : List Char) (m : Nat) :
    List.drop m (x ++ y) =
      if m ≤ x.length then List.drop m x ++ y else List.drop (m - x.length) y := by
  rw [List.drop_append_eq_append_drop]
  by_cases h : m ≤ x.length
  · rw [if_pos h, Nat.sub_eq_zero_of_le h, List.drop_zero]
  · rw [if_neg h, List.drop_eq_nil_iff.mpr (le_of_lt (lt_of_not_le h)), List.nil_append]

theorem isPrefixOf_nil_false (n : List Char) (hn : n ≠ []) :
    n.isPrefixOf ([] : List Char) = false := by
  cases n with
  | nil => exact absurd rfl hn
  | cons a b => rfl

/-- An all-upper-case key never matches at the head of text starting with
characters outside its alphabet. -/
theorem key_not_prefix_of_lower (K pre z : List Char) (hK0 : K ≠ [])
    (hKup : ∀ c ∈ K, isUpperKeyChar c = true) (hpre : pre ≠ [])
    (hlow : ∀ c ∈ pre, isUpperKeyChar c = false) :
    K.isPrefixOf (pre ++ z) = false := by
  cases K with
  | nil => exact absurd rfl hK0
  | cons k0 K' =>
      cases pre with
      | nil => exact absurd rfl hpre
      | cons p0 p' =>
          by_contra hcon
          rw [Bool.not_eq_false] at hcon
          rw [List.cons_append] at hcon
          simp only [List.isPrefixOf, Bool.and_eq_true, beq_iff_eq] at hcon
          have h1 := hKup k0 (List.mem_cons_self _ _)
          rw [hcon.1, hlow p0 (List.mem_cons_self _ _)] at h1
          exact Bool.false_ne_true h1

/-- Where the key can match in `c0 ++ "\n" ++ mgComment ++ "\n"`: nowhere,
once the export line is gone. -/
theorem key_no_occ_A (K c0 : List Char) (hK0 : K ≠ [])
    (hKup : ∀ c ∈ K, isUpperKeyChar c = true)
    (hKmg : listIsInfix K mgComment = false)
    (hc0K : listIsInfix K c0 = false) (m : Nat) :
    K.isPrefixOf (List.drop m (c0 ++ '\n' :: (mgComment ++ ['\n']))) = false := by
  have hnl : '\n' ∉ K := key_nlFree K hKup
  by_contra hcon
  rw [Bool.not_eq_false, drop_append_cases] at hcon
  by_cases hm : m ≤ c0.length
  · rw [if_pos hm] at hcon
    have h2 := isPrefixOf_append_sep K '\n' hnl _ _ hcon
    have h3 := listIsInfix_of_pfx_drop K hK0 c0 m h2
    rw [hc0K] at h3
    exact Bool.false_ne_true h3
  · rw [if_neg hm] at hcon
    obtain ⟨j, hj⟩ : ∃ j, m - c0.length = j + 1 := ⟨m - c0.length - 1, by omega⟩
    rw [hj, List.drop_succ_cons, drop_append_cases] at hcon
    by_cases hj2 : j ≤ mgComment.length
    · rw [if_pos hj2] at hcon
      have h2 := isPrefixOf_append_sep K '\n' hnl _ _ hcon
      have h3 := listIsInfix_of_pfx_drop K hK0 mgComment j h2
      rw [hKmg] at h3
      exact Bool.false_ne_true h3
    · rw [if_neg hj2] at hcon
      obtain ⟨i, hi⟩ : ∃ i, j - mgComment.length = i + 1 := ⟨j - mgComment.length - 1, by omega⟩
      rw [hi, List.drop_succ_cons, List.drop_nil, isPrefixOf_nil_false K hK0] at hcon
      exact Bool.false_ne_true hcon

/-- The only place the comment can match in `c0 ++ "\n" ++ mgComment ++ "\n"`
is right after the separator newline. -/
theorem mg_occ_A (c0 : List Char) (hc0mg : listIsInfix mgComment c0 = false) (m : Nat)
    (h : mgComment.isPrefixOf (List.drop m (c0 ++ '\n' :: (mgComment ++ ['\n']))) = true) :
    m = c0.length + 1 := by
  have hnl : '\n' ∉ mgComment := by decide
  have hmgne : mgComment ≠ [] := by decide
  rw [drop_append_cases] at h
  by_cases hm : m ≤ c0.length
  · rw [if_pos hm] at h
    have h2 := isPrefixOf_append_sep mgComment '\n' hnl _ _ h
    have h3 := listIsInfix_of_pfx_drop mgComment hmgne c0 m h2
    rw [hc0mg] at h3
    exact absurd h3 (by simp)
  · rw [if_neg hm] at h
    obtain ⟨j, hj⟩ : ∃ j, m - c0.length = j + 1 := ⟨m - c0.length - 1, by omega⟩
    rw [hj, List.drop_succ_cons, drop_append_cases] at h
    by_cases hj2 : j ≤ mgComment.length
    · rw [if_pos hj2] at h
      have h2 := isPrefixOf_append_sep mgComment '\n' hnl _ _ h
      have hlen := List.IsPrefix.length_le (List.isPrefixOf_iff_prefix.mp h2)
      rw [List.length_drop] at hlen
      have hmg0 : 0 < mgComment.length := by decide
      omega
    · rw [if_neg hj2] at h
      obtain ⟨i, hi⟩ : ∃ i, j - mgComment.length = i + 1 := ⟨j - mgComment.length - 1, by omega⟩
      rw [hi, List.drop_succ_cons, List.drop_nil, isPrefixOf_nil_false mgComment hmgne] at h
      exact absurd h (by simp)

/-- In the freshly patched content the key occurs exactly once: at offset
`|c0| + |mgComment| + 9`, right after `"\n" ++ mgComment ++ "\nexport "`. -/
theorem key_occ_c1 (K v c0 : List Char) (hK0 : K ≠ [])
    (hKup : ∀ c ∈ K, isUpperKeyChar c = true)
    (hKmg : listIsInfix K mgComment = false)
    (hvK : listIsInfix K v = false)
    (hc0K : listIsInfix K c0 = false) (m : Nat)
    (h : K.isPrefixOf (List.drop m
      (c0 ++ '\n' :: (mgComment ++ '\n' :: (exportLine K v ++ ['\n'])))) = true) :
    m = c0.length + mgComment.length + 9 := by
  have hnl : '\n' ∉ K := key_nlFree K hKup
  have heq : '=' ∉ K := key_eqFree K hKup
  have hqu : '"' ∉ K := key_quoteFree K hKup
  rw [drop_append_cases] at h
  by_cases hm : m ≤ c0.length
  · rw [if_pos hm] at h
    have h2 := isPrefixOf_append_sep K '\n' hnl _ _ h
    have h3 := listIsInfix_of_pfx_drop K hK0 c0 m h2
    rw [hc0K] at h3
    exact absurd h3 (by simp)
  · rw [if_neg hm] at h
    obtain ⟨j, hj⟩ : ∃ j, m - c0.length = j + 1 := ⟨m - c0.length - 1, by omega⟩
    rw [hj, List.drop_succ_cons, drop_append_cases] at h
    by_cases hj2 : j ≤ mgComment.length
    · rw [if_pos hj2] at h
      have h2 := isPrefixOf_append_sep K '\n' hnl _ _ h
      have h3 := listIsInfix_of_pfx_drop K hK0 mgComment j h2
      rw [hKmg] at h3
      exact absurd h3 (by simp)
    · rw [if_neg hj2] at h
      obtain ⟨m2, hm2⟩ : ∃ m2, j - mgComment.length = m2 + 1 :=
        ⟨j - mgComment.length - 1, by omega⟩
      rw [hm2, List.drop_succ_cons, drop_append_cases] at h
      by_cases hm2b : m2 ≤ (exportLine K v).length
      · rw [if_pos hm2b] at h
        have h2 := isPrefixOf_append_sep K '\n' hnl _ _ h
        rw [show exportLine K v =
            "export ".toList ++ (K ++ ('=' :: ('"' :: (v ++ ['"'])))) from by
          simp [exportLine, exportNeedle]] at h2
        rw [drop_append_cases, show ("export ".toList).length = 7 from rfl] at h2
        by_cases hm7 : m2 ≤ 7
        · rw [if_pos hm7] at h2
          by_cases hm7e : m2 = 7
          · -- the genuine occurrence
            omega
          · have hpre : List.drop m2 "export ".toList ≠ [] := by
              rw [ne_eq, List.drop_eq_nil_iff,
                show ("export ".toList).length = 7 from rfl]
              omega
            have hlow : ∀ c ∈ List.drop m2 "export ".toList, isUpperKeyChar c = false := by
              intro c hc
              exact (by decide : ∀ c ∈ "export ".toList, isUpperKeyChar c = false) c
                (List.drop_subset m2 "export ".toList hc)
            rw [key_not_prefix_of_lower K _ _ hK0 hKup hpre hlow] at h2
            exact absurd h2 (by simp)
        · rw [if_neg hm7, drop_append_cases] at h2
          by_cases hjk : m2 - 7 ≤ K.length
          · rw [if_pos hjk] at h2
            have h3 := isPrefixOf_append_sep K '=' heq _ _ h2
            have hlen := List.IsPrefix.length_le (List.isPrefixOf_iff_prefix.mp h3)
            rw [List.length_drop] at hlen
            have hK0len : 0 < K.length := List.length_pos.mpr hK0
            omega
          · rw [if_neg hjk] at h2
            obtain ⟨p, hp⟩ : ∃ p, m2 - 7 - K.length = p + 1 :=
              ⟨m2 - 7 - K.length - 1, by omega⟩
            rw [hp, List.drop_succ_cons] at h2
            cases p with
            | zero =>
                rw [List.drop_zero] at h2
                cases hKc : K with
                | nil => exact absurd hKc hK0
                | cons k0 K' =>
                    rw [hKc] at h2
                    simp only [List.isPrefixOf, Bool.and_eq_true, beq_iff_eq] at h2
                    have h1 := hKup k0 (by rw [hKc]; exact List.mem_cons_self _ _)
                    rw [h2.1] at h1
                    exact absurd h1 (by decide)
            | succ p' =>
                rw [List.drop_succ_cons, drop_append_cases] at h2
                by_cases hpv : p' ≤ v.length
                · rw [if_pos hpv] at h2
                  have h3 := isPrefixOf_append_sep K '"' hqu _ _ h2
                  have h4 := listIsInfix_of_pfx_drop K hK0 v p' h3
                  rw [hvK] at h4
                  exact absurd h4 (by simp)
                · rw [if_neg hpv] at h2
                  obtain ⟨q, hq⟩ : ∃ q, p' - v.length = q + 1 :=
                    ⟨p' - v.length - 1, by omega⟩
                  rw [hq, List.drop_succ_cons, List.drop_nil,
                    isPrefixOf_nil_false K hK0] at h2
                  exact absurd h2 (by simp)
      · rw [if_neg hm2b] at h
        obtain ⟨q, hq⟩ : ∃ q, m2 - (exportLine K v).length = q + 1 :=
          ⟨m2 - (exportLine K v).length - 1, by omega⟩
        rw [hq, List.drop_succ_cons, List.drop_nil, isPrefixOf_nil_false K hK0] at h
        exact absurd h (by simp)

theorem removeAllFuel_nil (m : List Char → Option (List Char)) (fuel : Nat) :
    removeAllFuel m fuel [] = [] := by
  cases fuel <;> rfl

/-- A scan over text the pattern matches nowhere in is the identity. -/
theorem removeAllFuel_none_all (m : List Char → Option (List Char)) :
    ∀ (s : List Char) (fuel : Nat), s.length ≤ fuel →
      (∀ t, t <:+ s → t ≠ [] → m t = none) → removeAllFuel m fuel s = s := by
  intro s
  induction s with
  | nil => intro fuel _ _; exact removeAllFuel_nil m fuel
  | cons c cs ih =>
      intro fuel hlen hnone
      obtain ⟨g, rfl⟩ : ∃ g, fuel = g + 1 :=
        ⟨fuel - 1, by simp only [List.length_cons] at hlen; omega⟩
      have h0 : m (c :: cs) = none := hnone _ (List.suffix_refl _) (by simp)
      have hstep : removeAllFuel m (g + 1) (c :: cs) = c :: removeAllFuel m g cs := by
        simp only [removeAllFuel, h0]
      rw [hstep, ih g (by simp only [List.length_cons] at hlen; omega)
        (fun t ht hne => hnone t (ht.trans (List.suffix_cons c cs)) hne)]

/-- A scan over `a ++ b` whose pattern matches nowhere strictly inside `a`
passes `a` through untouched. -/
theorem removeAllFuel_append_none (m : List Char → Option (List Char)) :
    ∀ (a b : List Char) (fuel : Nat), a.length + b.length ≤ fuel →
      (∀ t, t <:+ a ++ b → b.length < t.length → m t = none) →
      removeAllFuel m fuel (a ++ b) = a ++ removeAllFuel m (fuel - a.length) b := by
  intro a
  induction a with
  | nil => intro b fuel _ _; simp
  | cons c a' ih =>
      intro b fuel hlen hnone
      obtain ⟨g, rfl⟩ : ∃ g, fuel = g + 1 :=
        ⟨fuel - 1, by simp only [List.length_cons] at hlen; omega⟩
      have h0 : m (c :: (a' ++ b)) = none := by
        refine hnone _ (List.suffix_refl _) ?_
        simp only [List.length_cons, List.length_append]
        omega
      have hstep : removeAllFuel m (g + 1) (c :: (a' ++ b)) =
          c :: removeAllFuel m g (a' ++ b) := by
        simp only [removeAllFuel, h0]
      have hfl : (g + 1) - (c :: a').length = g - a'.length := by
        simp only [List.length_cons]; omega
      rw [List.cons_append, hstep,
        ih b g (by simp only [List.length_cons, List.length_append] at hlen ⊢; omega)
          (fun t ht hlt => hnone t (ht.trans (by
            rw [List.cons_append]; exact List.suffix_cons c (a' ++ b))) hlt),
        hfl, List.cons_append]

/-- One successful match step of the scan. -/
theorem removeAllFuel_cons_match (m : List Char → Option (List Char)) (g : Nat)
    (c : Char) (cs rest : List Char) (h : m (c :: cs) = some rest)
    (hlt : rest.length < cs.length + 1) :
    removeAllFuel m (g + 1) (c :: cs) = removeAllFuel m g rest := by
  simp only [removeAllFuel, h]
  rw [if_pos hlt]

/-- Pattern 1 matches the whole freshly written export line (including its
newline) and consumes it entirely. -/
theorem matchP1_at_export (K v : List Char) (hK0 : K ≠ [])
    (hKup : ∀ c ∈ K, isUpperKeyChar c = true) (hv : '\n' ∉ v) :
    matchP1 K (exportLine K v ++ ['\n']) = some [] := by
  obtain ⟨k0, K', rfl⟩ : ∃ k0 K', K = k0 :: K' := by
    cases K with
    | nil => exact absurd rfl hK0
    | cons a b => exact ⟨a, b, rfl⟩
  have hk0ws : isWsChar k0 = false :=
    (upperKey_facts k0 (hKup k0 (List.mem_cons_self _ _))).2.2.2
  have hE : exportLine (k0 :: K') v ++ ['\n'] =
      "export".toList ++ (' ' :: ((k0 :: K') ++ ('=' :: ('"' :: (v ++ ['"', '\n']))))) := by
    simp [exportLine, exportNeedle, show ("export ".toList) = "export".toList ++ [' '] from rfl,
      List.append_assoc]
  have h1 : matchLit "export".toList
      ("export".toList ++ (' ' :: ((k0 :: K') ++ ('=' :: ('"' :: (v ++ ['"', '\n'])))))) =
      some (' ' :: ((k0 :: K') ++ ('=' :: ('"' :: (v ++ ['"', '\n']))))) := by
    simp [matchLit, isPrefixOf_self_append, List.drop_left]
  have h2 : matchWsPlus (' ' :: ((k0 :: K') ++ ('=' :: ('"' :: (v ++ ['"', '\n']))))) =
      some ((k0 :: K') ++ ('=' :: ('"' :: (v ++ ['"', '\n'])))) := by
    simp [matchWsPlus, List.dropWhile_cons, show isWsChar ' ' = true from rfl, hk0ws]
  have h3 : matchLit (k0 :: K') ((k0 :: K') ++ ('=' :: ('"' :: (v ++ ['"', '\n'])))) =
      some ('=' :: ('"' :: (v ++ ['"', '\n']))) := by
    simp [matchLit, isPrefixOf_self_append, List.drop_left]
  have h4 : List.dropWhile isWsChar ('=' :: ('"' :: (v ++ ['"', '\n']))) =
      '=' :: ('"' :: (v ++ ['"', '\n'])) := by
    simp [List.dropWhile_cons, show isWsChar '=' = false from rfl]
  have h5 : matchLit ['='] ('=' :: ('"' :: (v ++ ['"', '\n']))) =
      some ('"' :: (v ++ ['"', '\n'])) := by
    simp [matchLit, List.isPrefixOf]
  have h6 : dropLineNl ('"' :: (v ++ ['"', '\n'])) = [] := by
    rw [show ('"' :: (v ++ ['"', '\n'])) = (('"' :: v) ++ ['"']) ++ '\n' :: [] from by simp]
    simp only [dropLineNl,
      dropToNewline_append_nl (('"' :: v) ++ ['"']) [] (quotedValue_nlFree v hv)]
  rw [hE]
  simp only [matchP1, h1, h2, h3, h4, h5, h6]

/-- Once the export line is gone, pattern 4 no longer matches at the
comment (nothing follows it). -/
theorem matchP4_at_comment (K : List Char) : matchP4 K (mgComment ++ ['\n']) = none := by
  simp only [matchP4]
  rw [show matchLit mgComment (mgComment ++ ['\n']) = some ['\n'] from by
    simp [matchLit, isPrefixOf_self_append, List.drop_left]]
  rfl

/-- The cleanup pattern removes the comment line when it is followed by
the end of the content. -/
theorem matchCleanup_at_comment : matchCleanup (mgComment ++ ['\n']) = some [] := by
  decide

theorem splitNl_append_nl (x : List Char) : splitNl (x ++ ['\n']) = splitNl x ++ [[]] := by
  induction x with
  | nil => rfl
  | cons c cs ih =>
      rw [List.cons_append]
      by_cases hc : c = '\n'
      · subst hc
        rw [show splitNl ('\n' :: (cs ++ ['\n'])) = [] :: splitNl (cs ++ ['\n']) from by
          simp [splitNl]]
        rw [show splitNl ('\n' :: cs) = [] :: splitNl cs from by simp [splitNl]]
        rw [ih, List.cons_append]
      · have h1 : splitNl (c :: (cs ++ ['\n'])) =
            match splitNl (cs ++ ['\n']) with
            | [] => [[c]]
            | l :: ls => (c :: l) :: ls := by
          simp [splitNl, hc]
        have h2 : splitNl (c :: cs) =
            match splitNl cs with
            | [] => [[c]]
            | l :: ls => (c :: l) :: ls := by
          simp [splitNl, hc]
        rw [h1, h2, ih]
        cases hsp : splitNl cs with
        | nil => exact absurd hsp (splitNl_ne_nil cs)
        | cons l ls => simp

/-- Pattern 1 matches nowhere strictly before the freshly written export
line. -/
theorem matchP1_none_before (K v c0 : List Char) (hK0 : K ≠ [])
    (hKup : ∀ c ∈ K, isUpperKeyChar c = true)
    (hKmg : listIsInfix K mgComment = false)
    (hvK : listIsInfix K v = false)
    (hc0K : listIsInfix K c0 = false) :
    ∀ t, t <:+ (c0 ++ '\n' :: (mgComment ++ ['\n'])) ++ (exportLine K v ++ ['\n']) →
      (exportLine K v ++ ['\n']).length < t.length → matchP1 K t = none := by
  intro t ht hlen
  cases hmt : matchP1 K t with
  | none => rfl
  | some r =>
      exfalso
      obtain ⟨w, rest, htdec, hwne, hwws⟩ := matchP1_some K t r hmt
      obtain ⟨p, hp⟩ := ht
      have hlen6 : ("export".toList).length = 6 := rfl
      have hfull : (c0 ++ '\n' :: (mgComment ++ ['\n'])) ++ (exportLine K v ++ ['\n']) =
          (p ++ ("export".toList ++ w)) ++ (K ++ rest) := by
        rw [← hp, htdec]
        simp [List.append_assoc]
      have hplen : (p ++ ("export".toList ++ w)).length = p.length + 6 + w.length := by
        simp [List.length_append, hlen6]
        omega
      have hKpfx : K.isPrefixOf (List.drop (p.length + 6 + w.length)
          (c0 ++ '\n' :: (mgComment ++ '\n' :: (exportLine K v ++ ['\n'])))) = true := by
        have hassoc : c0 ++ '\n' :: (mgComment ++ '\n' :: (exportLine K v ++ ['\n'])) =
            (c0 ++ '\n' :: (mgComment ++ ['\n'])) ++ (exportLine K v ++ ['\n']) := by
          simp
        rw [hassoc, hfull, List.drop_left' hplen]
        exact isPrefixOf_self_append K rest
      have hpos := key_occ_c1 K v c0 hK0 hKup hKmg hvK hc0K _ hKpfx
      have hA : (c0 ++ '\n' :: (mgComment ++ ['\n'])).length =
          c0.length + mgComment.length + 2 := by
        simp only [List.length_append, List.length_cons, List.length_nil]
        omega
      have hplt : p.length < (c0 ++ '\n' :: (mgComment ++ ['\n'])).length := by
        have h1 := congrArg List.length hp
        simp only [List.length_append, List.length_cons, List.length_nil] at h1 hlen ⊢
        omega
      by_cases hc6 : p.length + 6 ≤ (c0 ++ '\n' :: (mgComment ++ ['\n'])).length
      · -- the whitespace run would have to cover the 'e' of "export "
        have htake1 : List.take ((c0 ++ '\n' :: (mgComment ++ ['\n'])).length + 7)
            ((c0 ++ '\n' :: (mgComment ++ ['\n'])) ++ (exportLine K v ++ ['\n'])) =
            (c0 ++ '\n' :: (mgComment ++ ['\n'])) ++ "export ".toList := by
          rw [List.take_append 7]
          congr 1
        have htake2 : List.take ((c0 ++ '\n' :: (mgComment ++ ['\n'])).length + 7)
            ((c0 ++ '\n' :: (mgComment ++ ['\n'])) ++ (exportLine K v ++ ['\n'])) =
            p ++ ("export".toList ++ w) := by
          rw [hfull]
          exact List.take_left' (by rw [hplen, hA]; omega)
        have hAeq : (c0 ++ '\n' :: (mgComment ++ ['\n'])) ++ "export ".toList =
            p ++ ("export".toList ++ w) := by rw [← htake1, htake2]
        have hw : w = List.drop (p.length + 6)
            ((c0 ++ '\n' :: (mgComment ++ ['\n'])) ++ "export ".toList) := by
          rw [hAeq, show p ++ ("export".toList ++ w) = (p ++ "export".toList) ++ w from by
            simp [List.append_assoc],
            List.drop_left' (by simp [List.length_append, hlen6])]
        have hwE : w = List.drop (p.length + 6) (c0 ++ '\n' :: (mgComment ++ ['\n'])) ++
            "export ".toList := by
          rw [hw, drop_append_cases, if_pos hc6]
        have hmem : 'e' ∈ w := by
          rw [hwE]
          exact List.mem_append.mpr (Or.inr (by decide))
        exact absurd (hwws 'e' hmem) (by decide)
      · -- the "export" literal would have to cover the final newline
        have hPE : p ++ "export".toList <+:
            (c0 ++ '\n' :: (mgComment ++ ['\n'])) ++ (exportLine K v ++ ['\n']) :=
          ⟨w ++ (K ++ rest), by rw [hfull]; simp [List.append_assoc]⟩
        have hA2 : (c0 ++ '\n' :: (mgComment ++ ['\n'])) <+:
            (c0 ++ '\n' :: (mgComment ++ ['\n'])) ++ (exportLine K v ++ ['\n']) :=
          List.prefix_append _ _
        rcases List.prefix_or_prefix_of_prefix hA2 hPE with hAB | hBA
        · obtain ⟨u2, hu2⟩ := hAB
          have hpA : p <+: (c0 ++ '\n' :: (mgComment ++ ['\n'])) := by
            rcases List.prefix_or_prefix_of_prefix (⟨t, hp⟩ :
                p <+: (c0 ++ '\n' :: (mgComment ++ ['\n'])) ++ (exportLine K v ++ ['\n']))
                hA2 with h' | h'
            · exact h'
            · exfalso
              have := List.IsPrefix.length_le h'
              omega
          obtain ⟨s, hs⟩ := hpA
          have hsu : s ++ u2 = "export".toList := by
            have h2 : p ++ (s ++ u2) = p ++ "export".toList := by
              rw [← List.append_assoc, hs, hu2]
            exact List.append_cancel_left h2
          have hnls : '\n' ∈ s := by
            have hs2 : s = List.drop p.length (c0 ++ '\n' :: (mgComment ++ ['\n'])) := by
              rw [← hs, List.drop_left]
            have hA3 : c0 ++ '\n' :: (mgComment ++ ['\n']) =
                (c0 ++ '\n' :: mgComment) ++ ['\n'] := by
              simp
            rw [hs2, hA3, drop_append_cases, if_pos (by
              rw [hA3] at hplt
              rw [List.length_append] at hplt
              simp [List.length_append] at hplt ⊢
              omega)]
            exact List.mem_append.mpr (Or.inr (by decide))
          have hfin : '\n' ∈ "export".toList :=
            hsu ▸ List.mem_append.mpr (Or.inl hnls)
          exact absurd hfin (by decide)
        · have hL := List.IsPrefix.length_le hBA
          rw [List.length_append, hlen6] at hL
          exact hc6 hL

/-- Pattern 1 removes exactly the freshly written export line. -/
theorem removeAll_p1_step (K v c0 : List Char) (hK0 : K ≠ [])
    (hKup : ∀ c ∈ K, isUpperKeyChar c = true)
    (hKmg : listIsInfix K mgComment = false)
    (hvnl : '\n' ∉ v) (hvK : listIsInfix K v = false)
    (hc0K : listIsInfix K c0 = false) :
    removeAll (matchP1 K)
      ((c0 ++ '\n' :: (mgComment ++ ['\n'])) ++ (exportLine K v ++ ['\n'])) =
      c0 ++ '\n' :: (mgComment ++ ['\n']) := by
  rw [removeAll, List.length_append,
    removeAllFuel_append_none (matchP1 K) _ _ _ (le_refl _)
      (matchP1_none_before K v c0 hK0 hKup hKmg hvK hc0K)]
  have hsub : (c0 ++ '\n' :: (mgComment ++ ['\n'])).length +
      (exportLine K v ++ ['\n']).length - (c0 ++ '\n' :: (mgComment ++ ['\n'])).length =
      (exportLine K v ++ ['\n']).length := by omega
  rw [hsub]
  have hEstep : removeAllFuel (matchP1 K) ((exportLine K v ++ ['\n']).length)
      (exportLine K v ++ ['\n']) = [] := by
    have hm := matchP1_at_export K v hK0 hKup hvnl
    cases hE2 : exportLine K v ++ ['\n'] with
    | nil => exact absurd hE2 (by simp)
    | cons e0 tl =>
        rw [hE2] at hm
        rw [List.length_cons,
          removeAllFuel_cons_match (matchP1 K) tl.length e0 tl [] hm (by simp)]
        exact removeAllFuel_nil _ _
  rw [hEstep, List.append_nil]

/-- Pattern 2 finds no match once the export line is gone. -/
theorem removeAll_p2_step (K c0 : List Char) (hK0 : K ≠ [])
    (hKup : ∀ c ∈ K, isUpperKeyChar c = true)
    (hKmg : listIsInfix K mgComment = false)
    (hc0K : listIsInfix K c0 = false) :
    removeAll (matchP2 K) (c0 ++ '\n' :: (mgComment ++ ['\n'])) =
      c0 ++ '\n' :: (mgComment ++ ['\n']) := by
  rw [removeAll]
  refine removeAllFuel_none_all _ _ _ (le_refl _) ?_
  intro t ht htne
  cases hmt : matchP2 K t with
  | none => rfl
  | some r =>
      exfalso
      obtain ⟨rest, hrest⟩ := matchP2_some K t r hmt
      obtain ⟨p, hp⟩ := ht
      have hKpfx : K.isPrefixOf
          (List.drop p.length (c0 ++ '\n' :: (mgComment ++ ['\n']))) = true := by
        rw [← hp, List.drop_left, hrest]
        exact isPrefixOf_self_append K rest
      rw [key_no_occ_A K c0 hK0 hKup hKmg hc0K p.length] at hKpfx
      exact Bool.false_ne_true hKpfx

/-- Pattern 3 finds no match once the export line is gone. -/
theorem removeAll_p3_step (K c0 : List Char) (hK0 : K ≠ [])
    (hKup : ∀ c ∈ K, isUpperKeyChar c = true)
    (hKmg : listIsInfix K mgComment = false)
    (hc0K : listIsInfix K c0 = false) :
    removeAll (matchP3 K) (c0 ++ '\n' :: (mgComment ++ ['\n'])) =
      c0 ++ '\n' :: (mgComment ++ ['\n']) := by
  rw [removeAll]
  refine removeAllFuel_none_all _ _ _ (le_refl _) ?_
  intro t ht htne
  cases hmt : matchP3 K t with
  | none => rfl
  | some r =>
      exfalso
      obtain ⟨pre, rest, hrest⟩ := matchP3_some K t r hmt
      obtain ⟨p, hp⟩ := ht
      have hKpfx : K.isPrefixOf
          (List.drop (p.length + pre.length) (c0 ++ '\n' :: (mgComment ++ ['\n']))) = true := by
        rw [← hp, hrest,
          show p ++ (pre ++ (K ++ rest)) = (p ++ pre) ++ (K ++ rest) from by
            simp [List.append_assoc],
          List.drop_left' (by simp [List.length_append])]
        exact isPrefixOf_self_append K rest
      rw [key_no_occ_A K c0 hK0 hKup hKmg hc0K (p.length + pre.length)] at hKpfx
      exact Bool.false_ne_true hKpfx

/-- Pattern 4 finds no match once the export line is gone: at the comment
itself nothing follows, and the comment occurs nowhere else. -/
theorem removeAll_p4_step (K c0 : List Char)
    (hc0mg : listIsInfix mgComment c0 = false) :
    removeAll (matchP4 K) (c0 ++ '\n' :: (mgComment ++ ['\n'])) =
      c0 ++ '\n' :: (mgComment ++ ['\n']) := by
  rw [removeAll]
  refine removeAllFuel_none_all _ _ _ (le_refl _) ?_
  intro t ht htne
  cases hmt : matchP4 K t with
  | none => rfl
  | some r =>
      exfalso
      obtain ⟨rest, hrest⟩ := matchP4_some K t r hmt
      obtain ⟨p, hp⟩ := ht
      have hmgp : mgComment.isPrefixOf
          (List.drop p.length (c0 ++ '\n' :: (mgComment ++ ['\n']))) = true := by
        rw [← hp, List.drop_left, hrest]
        exact isPrefixOf_self_append _ _
      have hppos := mg_occ_A c0 hc0mg p.length hmgp
      have ht2 : t = mgComment ++ ['\n'] := by
        have h1 : t = List.drop p.length (c0 ++ '\n' :: (mgComment ++ ['\n'])) := by
          rw [← hp, List.drop_left]
        rw [h1, hppos, drop_append_cases, if_neg (by omega),
          show c0.length + 1 - c0.length = 1 from by omega]
        rfl
      rw [ht2, matchP4_at_comment K] at hmt
      cases hmt

/-- The cleanup removes exactly the comment line, which now ends the
content. -/
theorem removeAll_cleanup_step (c0 : List Char)
    (hc0mg : listIsInfix mgComment c0 = false) :
    removeAll matchCleanup (c0 ++ '\n' :: (mgComment ++ ['\n'])) = c0 ++ ['\n'] := by
  have hassoc : c0 ++ '\n' :: (mgComment ++ ['\n']) =
      (c0 ++ ['\n']) ++ (mgComment ++ ['\n']) := by simp
  rw [removeAll, hassoc, List.length_append]
  rw [removeAllFuel_append_none matchCleanup _ _ _ (le_refl _) ?cond]
  case cond =>
    intro t ht hlen
    cases hmt : matchCleanup t with
    | none => rfl
    | some r =>
        exfalso
        obtain ⟨rest, hrest⟩ := matchCleanup_some t r hmt
        obtain ⟨p, hp⟩ := ht
        rw [← hassoc] at hp
        have hmgp : mgComment.isPrefixOf
            (List.drop p.length (c0 ++ '\n' :: (mgComment ++ ['\n']))) = true := by
          rw [← hp, List.drop_left, hrest]
          exact isPrefixOf_self_append _ _
        have hppos := mg_occ_A c0 hc0mg p.length hmgp
        have h1 := congrArg List.length hp
        simp only [List.length_append, List.length_cons, List.length_nil] at h1 hlen
        omega
  have hsub : (c0 ++ ['\n']).length + (mgComment ++ ['\n']).length -
      (c0 ++ ['\n']).length = (mgComment ++ ['\n']).length := by omega
  rw [hsub]
  have hstep : removeAllFuel matchCleanup ((mgComment ++ ['\n']).length)
      (mgComment ++ ['\n']) = [] := by decide
  rw [hstep, List.append_nil]

/-- Running `removeUnixEnvVars`' content transformation on a profile to
which `setEnvironmentVariable` just added its block restores the original
content plus a single trailing newline. -/
theorem removeUnixContent_after_set (K v c0 : List Char) (hK0 : K ≠ [])
    (hKup : ∀ c ∈ K, isUpperKeyChar c = true)
    (hKmg : listIsInfix K mgComment = false)
    (hvnl : '\n' ∉ v) (hvK : listIsInfix K v = false)
    (hc0K : listIsInfix K c0 = false) (hc0mg : listIsInfix mgComment c0 = false) :
    removeUnixContent [K] (setEnvVarContent K v (some c0)) = c0 ++ ['\n'] := by
  have hno1 : listIsInfix (exportNeedle K) c0 = false := by
    by_contra hcon
    rw [Bool.not_eq_false] at hcon
    obtain ⟨m, hm⟩ := listIsInfix_to_drop _ _ hcon
    obtain ⟨u, hu⟩ := List.isPrefixOf_iff_prefix.mp hm
    have hKp : K.isPrefixOf (List.drop (m + 7) c0) = true := by
      rw [← List.drop_drop, ← hu,
        show exportNeedle K ++ u = "export ".toList ++ (K ++ ('=' :: u)) from by
          simp [exportNeedle],
        List.drop_left' (show ("export ".toList).length = 7 from rfl)]
      exact isPrefixOf_self_append _ _
    have h2 := listIsInfix_of_pfx_drop K hK0 c0 (m + 7) hKp
    rw [hc0K] at h2
    exact Bool.false_ne_true h2
  have hset : setEnvVarContent K v (some c0) =
      c0 ++ '\n' :: (mgComment ++ '\n' :: (exportLine K v ++ ['\n'])) := by
    rw [setEnvVarContent, if_neg (by rw [hno1]; simp), if_neg (by rw [hc0mg]; simp)]
  rw [hset]
  rw [removeUnixContent]
  simp only [List.foldl_cons, List.foldl_nil, removeVarPats]
  rw [show c0 ++ '\n' :: (mgComment ++ '\n' :: (exportLine K v ++ ['\n'])) =
      (c0 ++ '\n' :: (mgComment ++ ['\n'])) ++ (exportLine K v ++ ['\n']) from by simp]
  rw [removeAll_p1_step K v c0 hK0 hKup hKmg hvnl hvK hc0K,
    removeAll_p2_step K c0 hK0 hKup hKmg hc0K,
    removeAll_p3_step K c0 hK0 hKup hKmg hc0K,
    removeAll_p4_step K c0 hc0mg,
    removeAll_cleanup_step c0 hc0mg]

/-- C3 (counterexample): removal does not restore the file byte-for-byte.
The separator newline that `setEnvironmentVariable` prepended to its block
survives `removeUnixEnvVars`, so the profile ends up as the original
content plus one trailing newline. -/
theorem removeUnixContent_leftover :
    removeUnixContent ["MEGALLM_API_KEY".toList]
        (setEnvVarContent "MEGALLM_API_KEY".toList "sk".toList
          (some "# profile".toList)) =
        "# profile".toList ++ ['\n'] ∧
    removeUnixContent ["MEGALLM_API_KEY".toList]
        (setEnvVarContent "MEGALLM_API_KEY".toList "sk".toList
          (some "# profile".toList)) ≠ "# profile".toList := by
  constructor
  · decide
  · decide

/-- C3 (amended): for every profile content `c0` (no prior occurrence of
the key or of the `# MegaLLM Configuration` comment), every `[A-Z_]+` key
not occurring in the comment, and every newline-free value not containing
the key, `removeUnixEnvVars` applied after `setEnvironmentVariable`
removes the comment and export lines of the added block and leaves every
line of `c0` byte-for-byte unchanged: the result is exactly `c0` plus a
single trailing newline (the separator the block was added with), so its
line decomposition is that of `c0` plus one empty line. -/
theorem removeUnixEnvVars_frame (K v c0 : List Char) (hK0 : K ≠ [])
    (hKup : ∀ c ∈ K, isUpperKeyChar c = true)
    (hKmg : listIsInfix K mgComment = false)
    (hvnl : '\n' ∉ v) (hvK : listIsInfix K v = false)
    (hc0K : listIsInfix K c0 = false) (hc0mg : listIsInfix mgComment c0 = false) :
    removeUnixContent [K] (setEnvVarContent K v (some c0)) = c0 ++ ['\n'] ∧
    splitNl (removeUnixContent [K] (setEnvVarContent K v (some c0))) =
      splitNl c0 ++ [[]] := by
  have h := removeUnixContent_after_set K v c0 hK0 hKup hKmg hvnl hvK hc0K hc0mg
  exact ⟨h, by rw [h, splitNl_append_nl]⟩

/-- Witness for `removeUnixEnvVars_frame` at a concrete key, value and
profile. -/
theorem removeUnixEnvVars_frame_witness :
    removeUnixContent ["ANTHROPIC_BASE_URL".toList]
        (setEnvVarContent "ANTHROPIC_BASE_URL".toList "https://ai.megallm.io".toList
          (some "# mine\nexport PATH=/bin".toList)) =
        "# mine\nexport PATH=/bin".toList ++ ['\n'] ∧
    splitNl (removeUnixContent ["ANTHROPIC_BASE_URL".toList]
        (setEnvVarContent "ANTHROPIC_BASE_URL".toList "https://ai.megallm.io".toList
          (some "# mine\nexport PATH=/bin".toList))) =
      splitNl "# mine\nexport PATH=/bin".toList ++ [[]] := by
  exact removeUnixEnvVars_frame "ANTHROPIC_BASE_URL".toList
    "https://ai.megallm.io".toList "# mine\nexport PATH=/bin".toList
    (by decide) (by decide) (by decide) (by decide) (by decide) (by decide) (by decide)

/-! ## C7: error handling of `detectExistingEnvVars` and `removeEnvVars` -/

/-- The process-environment pushes at the start of `detectExistingEnvVars`
(the part of the `try` body before the platform scan). -/
def detectProcessPushes (procBaseUrl procApiKey procMegallmKey : Option String) :
    DetectResults :=
  let r0 : DetectResults := ⟨[], [], [], false⟩
  let r1 := if truthyOptStr procBaseUrl then
      { r0 with anthropicBaseUrl := r0.anthropicBaseUrl ++
          [⟨"current_process", procBaseUrl.getD "", none, "Current shell session"⟩] }
    else r0
  let r2 := if truthyOptStr procApiKey then
      { r1 with anthropicApiKey := r1.anthropicApiKey ++
          [⟨"current_process", maskApiKey (procApiKey.getD ""), procApiKey,
            "Current shell session"⟩] }
    else r1
  let r3 := if truthyOptStr procMegallmKey then
      { r2 with megallmApiKey := r2.megallmApiKey ++
          [⟨"current_process", maskApiKey (procMegallmKey.getD ""), procMegallmKey,
            "Current shell session"⟩] }
    else r2
  r3

/-- `detectExistingEnvVars` with a platform scan that may throw: the body
runs in a `try`, the `catch` only logs a warning, and the (mutated) results
object is returned either way.  A throwing scan carries the state the
mutations reached (`.error (message, state)`); the `hasExisting`
assignment after the scan is then skipped. -/
def detectExistingEnvVarsE (procBaseUrl procApiKey procMegallmKey : Option String)
    (platformScan : DetectResults → Except (String × DetectResults) DetectResults) :
    DetectResults :=
  match platformScan (detectProcessPushes procBaseUrl procApiKey procMegallmKey) with
  | Except.ok r4 =>
      { r4 with hasExisting :=
          r4.anthropicBaseUrl.length > 0 || r4.anthropicApiKey.length > 0 ||
            r4.megallmApiKey.length > 0 }
  | Except.error (_, rp) => rp

/-- The result object of `removeEnvVars`. -/
structure RemoveResults where
  success : Bool
  removed : List (String × String)
  errors : List String
deriving Repr, DecidableEq

/-- The results object of `removeEnvVars` after the current-process
deletions: `success` starts `true`, one `removed` entry per variable set
in the process environment. -/
def initialRemove (vs : List (List Char)) (procEnv : List Char → Bool) :
    RemoveResults :=
  { success := true,
    removed := (vs.filter procEnv).map (fun K => (String.mk K, "Current process")),
    errors := [] }

/-- One shell rc file inside `removeUnixEnvVars`' loop: apply the four
patterns per variable; if any of them matched (equivalently: the content
shrank), the file is rewritten and a `removed` entry pushed. -/
def processRcFile (vs : List (List Char)) (name : String)
    (content : List Char) (r : RemoveResults) : RemoveResults :=
  let c1 := vs.foldl (fun c K => removeVarPats K c) content
  if c1 ≠ content then
    { r with removed := r.removed ++ [("ANTHROPIC_*", name)] }
  else r

/-- The rc-file loop of `removeUnixEnvVars`.  The reads and writes in this
loop are NOT individually guarded: a failure (modelled as an
`Except.error` read outcome) propagates out of the loop together with the
results state reached so far. -/
def removeUnixGo (vs : List (List Char)) :
    List (String × Except String (List Char)) → RemoveResults →
      Except (String × RemoveResults) RemoveResults
  | [], r => Except.ok r
  | (_, Except.error e) :: _, r => Except.error (e, r)
  | (name, Except.ok content) :: rest, r =>
      removeUnixGo vs rest (processRcFile vs name content r)

/-- `removeUnixEnvVars`: the rc-file loop, then the `/etc/environment`
step, whose own `try`/`catch` records a failure in `errors` (prefixing
`Could not modify /etc/environment: `) without touching `success`.
`etcEnv` is `none` when the file does not exist, otherwise the outcome of
processing it (`Except.ok modified` or a thrown error). -/
def removeUnixEnvVarsModel (vs : List (List Char))
    (rcFiles : List (String × Except String (List Char)))
    (etcEnv : Option (Except String Bool)) (r0 : RemoveResults) :
    Except (String × RemoveResults) RemoveResults :=
  match removeUnixGo vs rcFiles r0 with
  | Except.error er => Except.error er
  | Except.ok r1 =>
      match etcEnv with
      | none => Except.ok r1
      | some (Except.ok modified) =>
          if modified then
            Except.ok { r1 with removed :=
              r1.removed ++ [("ANTHROPIC_*", "/etc/environment")] }
          else Except.ok r1
      | some (Except.error e) =>
          Except.ok { r1 with errors :=
            r1.errors ++ ["Could not modify /etc/environment: " ++ e] }

/-- `removeEnvVars` on a Unix platform: current-process deletions, then
`removeUnixEnvVars` inside the outer `try`; the `catch` sets
`success := false` and appends the error message, and the results object
is returned either way. -/
def removeEnvVarsModel (vs : List (List Char)) (procEnv : List Char → Bool)
    (rcFiles : List (String × Except String (List Char)))
    (etcEnv : Option (Except String Bool)) : RemoveResults :=
  match removeUnixEnvVarsModel vs rcFiles etcEnv (initialRemove vs procEnv) with
  | Except.ok r => r
  | Except.error (e, r) =>
      { r with success := false, errors := r.errors ++ [e] }

theorem removeUnixGo_success (vs : List (List Char)) :
    ∀ (rcFiles : List (String × Except String (List Char))) (r0 r2 : RemoveResults),
      removeUnixGo vs rcFiles r0 = Except.ok r2 → r2.success = r0.success := by
  intro rcFiles
  induction rcFiles with
  | nil =>
      intro r0 r2 h
      injection h with h2
      rw [h2]
  | cons f rest ih =>
      intro r0 r2 h
      obtain ⟨name, outcome⟩ := f
      cases outcome with
      | error e => cases h
      | ok content =>
          have h2 := ih (processRcFile vs name content r0) r2 h
          rw [h2]
          unfold processRcFile
          by_cases hc : (vs.foldl (fun c K => removeVarPats K c) content) ≠ content
      
          · rw [if_pos hc]
          · rw [if_neg hc]

/-- C7 (counterexample): a failing `/etc/environment` step is recorded in
`errors` but `success` stays `true`, contradicting the claim that such
failures set `success` to `false`. -/
theorem removeEnvVars_etc_failure_keeps_success :
    (removeEnvVarsModel ["ANTHROPIC_BASE_URL".toList] (fun _ => false) []
        (some (Except.error "EACCES: permission denied"))).success = true ∧
    (removeEnvVarsModel ["ANTHROPIC_BASE_URL".toList] (fun _ => false) []
        (some (Except.error "EACCES: permission denied"))).errors =
      ["Could not modify /etc/environment: EACCES: permission denied"] := by
  constructor
  · rfl
  · rfl

/-- C7 (amended): neither function throws.  `detectExistingEnvVars`
returns its results object whether the platform scan succeeds (computing
`hasExisting` as usual) or throws (returning the partially filled object,
with the warning only logged).  `removeEnvVars` returns its results
object in every case: a failure in the unguarded rc-file loop reaches the
outer catch, which sets `success := false` and appends the message to
`errors`; a failure of the optional `/etc/environment` step is swallowed
by its inner catch, which appends to `errors` but leaves `success`
(hence `true`) unchanged. -/
theorem envvar_error_handling (procBaseUrl procApiKey procMegallmKey : Option String)
    (scan : DetectResults → DetectResults) (e : String) (rp : DetectResults)
    (vs : List (List Char)) (procEnv : List Char → Bool)
    (rcFiles : List (String × Except String (List Char))) (etcFail : String) :
    detectExistingEnvVarsE procBaseUrl procApiKey procMegallmKey
        (fun r => Except.ok (scan r)) =
      detectExistingEnvVars procBaseUrl procApiKey procMegallmKey scan ∧
    detectExistingEnvVarsE procBaseUrl procApiKey procMegallmKey
        (fun _ => Except.error (e, rp)) = rp ∧
    (∀ e2 r2, removeUnixGo vs rcFiles (initialRemove vs procEnv) =
        Except.error (e2, r2) →
      removeEnvVarsModel vs procEnv rcFiles none =
        { r2 with success := false, errors := r2.errors ++ [e2] }) ∧
    (∀ r2, removeUnixGo vs rcFiles (initialRemove vs procEnv) = Except.ok r2 →
      removeEnvVarsModel vs procEnv rcFiles (some (Except.error etcFail)) =
        { r2 with errors :=
            r2.errors ++ ["Could not modify /etc/environment: " ++ etcFail] } ∧
      (removeEnvVarsModel vs procEnv rcFiles
        (some (Except.error etcFail))).success = true) := by
  refine ⟨rfl, rfl, ?_, ?_⟩
  · intro e2 r2 h
    unfold removeEnvVarsModel removeUnixEnvVarsModel
    rw [h]
  · intro r2 h
    have hs := removeUnixGo_success vs rcFiles (initialRemove vs procEnv) r2 h
    constructor
    · unfold removeEnvVarsModel removeUnixEnvVarsModel
      rw [h]
    · unfold removeEnvVarsModel removeUnixEnvVarsModel
      rw [h]
      exact hs

/-- Witness for `envvar_error_handling` at concrete scans, variables and
file outcomes (one unreadable rc file for the outer-catch conjunct). -/
theorem envvar_error_handling_witness :
    detectExistingEnvVarsE (some "https://ai.megallm.io") none none
        (fun r => Except.ok (id r)) =
      detectExistingEnvVars (some "https://ai.megallm.io") none none id ∧
    detectExistingEnvVarsE (some "https://ai.megallm.io") none none
        (fun _ => Except.error ("boom", ⟨[], [], [], false⟩)) = ⟨[], [], [], false⟩ ∧
    removeEnvVarsModel ["ANTHROPIC_BASE_URL".toList] (fun _ => true)
        [(".bashrc", Except.error "EACCES")] none =
      { initialRemove ["ANTHROPIC_BASE_URL".toList] (fun _ => true) with
          success := false,
          errors := (initialRemove ["ANTHROPIC_BASE_URL".toList]
            (fun _ => true)).errors ++ ["EACCES"] } ∧
    (removeEnvVarsModel ["ANTHROPIC_BASE_URL".toList] (fun _ => true) []
        (some (Except.error "EPERM"))).success = true := by
  have h := envvar_error_handling (some "https://ai.megallm.io") none none id
    "boom" ⟨[], [], [], false⟩ ["ANTHROPIC_BASE_URL".toList] (fun _ => true)
    [(".bashrc", Except.error "EACCES")] "EPERM"
  have h2 := envvar_error_handling (some "https://ai.megallm.io") none none id
    "boom" ⟨[], [], [], false⟩ ["ANTHROPIC_BASE_URL".toList] (fun _ => true)
    [] "EPERM"
  refine ⟨h.1, h.2.1, ?_, ?_⟩
  · exact h.2.2.1 "EACCES"
      (initialRemove ["ANTHROPIC_BASE_URL".toList] (fun _ => true)) rfl
  · exact (h2.2.2.2 (initialRemove ["ANTHROPIC_BASE_URL".toList] (fun _ => true)) rfl).2

/-- C9 (counterexample): when the platform scan throws after pushing an
entry, `detectExistingEnvVars` returns the partially filled object with
the final `hasExisting` assignment skipped: `hasExisting` is `false`
although `ANTHROPIC_BASE_URL` is non-empty, refuting the claimed
equivalence. -/
theorem detectExistingEnvVars_throw_skips_hasExisting :
    (detectExistingEnvVarsE none none none
        (fun r => Except.error ("EACCES: permission denied",
          { r with anthropicBaseUrl := r.anthropicBaseUrl ++
              [⟨"shell_config", "https://ai.megallm.io", none,
                "~/.bashrc"⟩] }))).hasExisting = false ∧
    (detectExistingEnvVarsE none none none
        (fun r => Except.error ("EACCES: permission denied",
          { r with anthropicBaseUrl := r.anthropicBaseUrl ++
              [⟨"shell_config", "https://ai.megallm.io", none,
                "~/.bashrc"⟩] }))).anthropicBaseUrl ≠ [] := by
  constructor
  · rfl
  · decide

/-- C9 (amended): when the platform scan returns normally, the object
returned by `detectExistingEnvVars` has `hasExisting` true exactly when
at least one of the three entry lists is non-empty; when the scan throws,
the assignment after it is skipped and `hasExisting` stays `false`
whatever the arrays hold (`detectExistingEnvVars_throw_skips_hasExisting`). -/
theorem detectExistingEnvVarsE_hasExisting_iff
    (procBaseUrl procApiKey procMegallmKey : Option String)
    (platformScan : DetectResults → Except (String × DetectResults) DetectResults)
    (r4 : DetectResults)
    (hok : platformScan (detectProcessPushes procBaseUrl procApiKey procMegallmKey) =
      Except.ok r4) :
    (detectExistingEnvVarsE procBaseUrl procApiKey procMegallmKey
        platformScan).hasExisting = true ↔
      (detectExistingEnvVarsE procBaseUrl procApiKey procMegallmKey
        platformScan).anthropicBaseUrl ≠ [] ∨
      (detectExistingEnvVarsE procBaseUrl procApiKey procMegallmKey
        platformScan).anthropicApiKey ≠ [] ∨
      (detectExistingEnvVarsE procBaseUrl procApiKey procMegallmKey
        platformScan).megallmApiKey ≠ [] := by
  simp only [detectExistingEnvVarsE, hok]
  constructor
  · intro h
    simp only [Bool.or_eq_true, decide_eq_true_eq, Nat.lt_iff_add_one_le] at h ⊢
    rcases h with (h | h) | h
    · exact Or.inl (List.ne_nil_of_length_pos (by omega))
    · exact Or.inr (Or.inl (List.ne_nil_of_length_pos (by omega)))
    · exact Or.inr (Or.inr (List.ne_nil_of_length_pos (by omega)))
  · intro h
    simp only [Bool.or_eq_true, decide_eq_true_eq]
    rcases h with h | h | h
    · exact Or.inl (Or.inl (List.length_pos.mpr h))
    · exact Or.inl (Or.inr (List.length_pos.mpr h))
    · exact Or.inr (List.length_pos.mpr h)

/-- Witness for `detectExistingEnvVarsE_hasExisting_iff` at a concrete
environment and a platform scan that returns normally. -/
theorem detectExistingEnvVarsE_hasExisting_iff_witness :
    (detectExistingEnvVarsE (some "https://ai.megallm.io") none none
        Except.ok).hasExisting = true ↔
      (detectExistingEnvVarsE (some "https://ai.megallm.io") none none
        Except.ok).anthropicBaseUrl ≠ [] ∨
      (detectExistingEnvVarsE (some "https://ai.megallm.io") none none
        Except.ok).anthropicApiKey ≠ [] ∨
      (detectExistingEnvVarsE (some "https://ai.megallm.io") none none
        Except.ok).megallmApiKey ≠ [] :=
  detectExistingEnvVarsE_hasExisting_iff (some "https://ai.megallm.io") none none
    Except.ok _ rfl

/-! ## C4: the JSON codec of `writeJsonFile` / `readJsonFile`

`writeJsonFile` serialises with `JSON.stringify(data, null, 2)` (two-space
pretty printing); `readJsonFile` parses with `JSON.parse`.  The embedded
parser below covers the value domain of the `Json` model (integers as the
only numbers; the configs this tool reads and writes never contain
fractional numbers, and real JS objects have no duplicate keys). -/

/-- JSON insignificant white space (`JSON.parse`). -/
def isJsonWs (c : Char) : Bool := c == ' ' || c == '\n' || c == '\t' || c == '\r'

def wsSkip : List Char → List Char
  | c :: cs => if isJsonWs c then wsSkip cs else c :: cs
  | [] => []

def isDigitChar (c : Char) : Bool := '0' ≤ c && c ≤ '9'

/-- Split a leading digit run off the input. -/
def grabDigits : List Char → List Char × List Char
  | c :: cs =>
      if isDigitChar c then
        let (ds, r) := grabDigits cs
        (c :: ds, r)
      else ([], c :: cs)
  | [] => ([], [])

def digitsVal (ds : List Char) : Nat :=
  ds.foldl (fun a c => a * 10 + (c.toNat - '0'.toNat)) 0

/-- Decimal digits of `n`, most significant first, prepended to `acc`. -/
def digitsOf (n : Nat) (acc : List Char) : List Char :=
  if n < 10 then Char.ofNat ('0'.toNat + n % 10) :: acc
  else digitsOf (n / 10) (Char.ofNat ('0'.toNat + n % 10) :: acc)
termination_by n
decreasing_by omega

/-- The decimal form of an integer (what `JSON.stringify` prints for the
integers of our value domain). -/
def intChars (i : Int) : List Char :=
  (if i < 0 then ['-'] else []) ++ digitsOf i.natAbs []

def hexDigitChar (n : Nat) : Char :=
  if n < 10 then Char.ofNat ('0'.toNat + n) else Char.ofNat ('a'.toNat + (n - 10))

/-- One string character as `JSON.stringify` emits it: the two-character
escapes for quote, backslash, backspace, form feed, newline, carriage
return and tab, a `\u00xx` escape for the remaining control characters,
and the character itself otherwise. -/
def escChar (c : Char) : List Char :=
  match c with
  | '"' => '\\' :: ['"']
  | '\\' => '\\' :: ['\\']
  | '\x08' => '\\' :: ['b']
  | '\x0c' => '\\' :: ['f']
  | '\n' => '\\' :: ['n']
  | '\r' => '\\' :: ['r']
  | '\t' => '\\' :: ['t']
  | c =>
      if c.toNat < 0x20 then
        '\\' :: 'u' :: hexDigitChar (c.toNat / 4096 % 16) :: hexDigitChar (c.toNat / 256 % 16) ::
          hexDigitChar (c.toNat / 16 % 16) :: [hexDigitChar (c.toNat % 16)]
      else [c]

/-- A rendered JSON string: quote, escaped characters, quote. -/
def quoteStr (s : String) : List Char :=
  '"' :: (s.toList.flatMap escChar ++ ['"'])

def hexDigitVal (c : Char) : Option Nat :=
  if '0' ≤ c ∧ c ≤ '9' then some (c.toNat - '0'.toNat)
  else if 'a' ≤ c ∧ c ≤ 'f' then some (c.toNat - 'a'.toNat + 10)
  else if 'A' ≤ c ∧ c ≤ 'F' then some (c.toNat - 'A'.toNat + 10)
  else none

def hexQuad (a b c d : Char) : Option Nat :=
  match hexDigitVal a, hexDigitVal b, hexDigitVal c, hexDigitVal d with
  | some va, some vb, some vc, some vd => some (va * 4096 + vb * 256 + vc * 16 + vd)
  | _, _, _, _ => none

/-- `JSON.parse` short escapes (`\/` is accepted though never emitted). -/
def unescChar : Char → Option Char
  | 'n' => some '\n'
  | 't' => some '\t'
  | 'r' => some '\r'
  | 'b' => some '\x08'
  | 'f' => some '\x0c'
  | '"' => some '"'
  | '\\' => some '\\'
  | '/' => some '/'
  | _ => none

/-- Parse a string body after the opening quote. -/
def strBody (acc : List Char) : List Char → Except String (String × List Char)
  | '"' :: rest => Except.ok (String.mk acc.reverse, rest)
  | '\\' :: 'u' :: a :: b :: c :: d :: rest =>
      match hexQuad a b c d with
      | some n => strBody (Char.ofNat n :: acc) rest
      | none => Except.error "bad unicode escape"
  | '\\' :: e :: rest =>
      match unescChar e with
      | some ch => strBody (ch :: acc) rest
      | none => Except.error "bad escape"
  | c :: rest => strBody (c :: acc) rest
  | [] => Except.error "unterminated string"

/-- Parse an integer (the number sublanguage our value domain renders). -/
def parseJNum (cs : List Char) : Except String (Int × List Char) :=
  let (neg, cs1) := match cs with
    | '-' :: r => (true, r)
    | _ => (false, cs)
  let (ds, cs2) := grabDigits cs1
  if ds.isEmpty then Except.error "expected a number"
  else Except.ok ((if neg then -1 else 1) * (digitsVal ds : Int), cs2)

/-- `n` spaces (the accumulated indentation of `JSON.stringify(_, null, 2)`). -/
def spaces (n : Nat) : List Char := List.replicate n ' '

mutual
/-- `JSON.stringify(v, null, 2)` at indentation `ind` (the enclosing
level's spaces): scalars inline, non-empty arrays and objects with each
entry on its own line indented by two more spaces, and the closing
bracket on its own line at the enclosing indentation. -/
def renderV (ind : Nat) : Json → List Char
  | Json.null => ['n', 'u', 'l', 'l']
  | Json.bool true => ['t', 'r', 'u', 'e']
  | Json.bool false => ['f', 'a', 'l', 's', 'e']
  | Json.num i => intChars i
  | Json.str s => quoteStr s
  | Json.arr [] => ['[', ']']
  | Json.arr (e :: es) =>
      '[' :: '\n' :: ((spaces (ind + 2) ++ renderV (ind + 2) e) ++
        (renderItemsSep (ind + 2) es ++ ('\n' :: (spaces ind ++ [']']))))
  | Json.obj [] => ['{', '}']
  | Json.obj ((k, v) :: ms) =>
      '{' :: '\n' :: ((spaces (ind + 2) ++ (quoteStr k ++ ':' :: ' ' ::
        renderV (ind + 2) v)) ++
        (renderFieldsSep (ind + 2) ms ++ ('\n' :: (spaces ind ++ ['}']))))
/-- `",\n"`-separated further array entries at indentation `ind`. -/
def renderItemsSep (ind : Nat) : List Json → List Char
  | [] => []
  | e :: es =>
      ',' :: '\n' :: ((spaces ind ++ renderV ind e) ++ renderItemsSep ind es)
/-- `",\n"`-separated further object members at indentation `ind`. -/
def renderFieldsSep (ind : Nat) : List (String × Json) → List Char
  | [] => []
  | (k, v) :: ms =>
      ',' :: '\n' :: ((spaces ind ++ (quoteStr k ++ ':' :: ' ' :: renderV ind v)) ++
        renderFieldsSep ind ms)
end

/-- `JSON.stringify(data, null, 2)`. -/
def stringify2 (d : Json) : String := String.mk (renderV 0 d)

mutual
/-- `JSON.parse`, restricted to the value domain of `Json` (integer
numbers); structural on `fuel`, which callers instantiate above the
input length. -/
def jparseVal (fuel : Nat) (cs : List Char) : Except String (Json × List Char) :=
  match fuel with
  | 0 => Except.error "out of fuel"
  | fuel + 1 =>
      match wsSkip cs with
      | 'n' :: 'u' :: 'l' :: 'l' :: r => Except.ok (Json.null, r)
      | 't' :: 'r' :: 'u' :: 'e' :: r => Except.ok (Json.bool true, r)
      | 'f' :: 'a' :: 'l' :: 's' :: 'e' :: r => Except.ok (Json.bool false, r)
      | '"' :: r =>
          match strBody [] r with
          | Except.ok (s, r2) => Except.ok (Json.str s, r2)
          | Except.error e => Except.error e
      | '[' :: r =>
          match wsSkip r with
          | [] => Except.error "unexpected end of input"
          | c :: r2 =>
              if c = ']' then Except.ok (Json.arr [], r2)
              else
                match jparseItems fuel (c :: r2) with
                | Except.ok (es, r3) => Except.ok (Json.arr es, r3)
                | Except.error e => Except.error e
      | '{' :: r =>
          match wsSkip r with
          | [] => Except.error "unexpected end of input"
          | c :: r2 =>
              if c = '}' then Except.ok (Json.obj [], r2)
              else
                match jparseFields fuel (c :: r2) with
                | Except.ok (ms, r3) => Except.ok (Json.obj ms, r3)
                | Except.error e => Except.error e
      | c :: rest =>
          if c == '-' || isDigitChar c then
            match parseJNum (c :: rest) with
            | Except.ok (i, r2) => Except.ok (Json.num i, r2)
            | Except.error e => Except.error e
          else Except.error "unexpected character"
      | [] => Except.error "unexpected end of input"
/-- One-or-more comma-separated array entries (empty arrays are handled
in `jparseVal`). -/
def jparseItems (fuel : Nat) (cs : List Char) :
    Except String (List Json × List Char) :=
  match fuel with
  | 0 => Except.error "out of fuel"
  | fuel + 1 =>
      match jparseVal fuel cs with
      | Except.error e => Except.error e
      | Except.ok (v, r) =>
          match wsSkip r with
          | ',' :: r2 =>
              match jparseItems fuel (wsSkip r2) with
              | Except.ok (vs, r3) => Except.ok (v :: vs, r3)
              | Except.error e => Except.error e
          | ']' :: r2 => Except.ok ([v], r2)
          | _ => Except.error "expected comma or bracket"
/-- One-or-more comma-separated object members (empty objects are
handled in `jparseVal`). -/
def jparseFields (fuel : Nat) (cs : List Char) :
    Except String (List (String × Json) × List Char) :=
  match fuel with
  | 0 => Except.error "out of fuel"
  | fuel + 1 =>
      match wsSkip cs with
      | '"' :: r =>
          match strBody [] r with
          | Except.error e => Except.error e
          | Except.ok (key, r1) =>
              match wsSkip r1 with
              | ':' :: r2 =>
                  match jparseVal fuel (wsSkip r2) with
                  | Except.error e => Except.error e
                  | Except.ok (v, r3) =>
                      match wsSkip r3 with
                      | ',' :: r4 =>
                          match jparseFields fuel (wsSkip r4) with
                          | Except.ok (ms, r5) => Except.ok ((key, v) :: ms, r5)
                          | Except.error e => Except.error e
                      | '}' :: r4 => Except.ok ([(key, v)], r4)
                      | _ => Except.error "expected comma or brace"
              | _ => Except.error "expected colon"
      | _ => Except.error "expected string key"
end

/-- `JSON.parse` of a whole document: one value, then only white space. -/
def jsonParse (s : String) : Except String Json :=
  match jparseVal (s.toList.length + 1) s.toList with
  | Except.error e => Except.error e
  | Except.ok (j, r) =>
      if (wsSkip r).isEmpty then Except.ok j else Except.error "trailing characters"

/-- `readJsonFile`: a missing file is `null`; otherwise the parse result
(a thrown parse error is rethrown). -/
def readJsonFile (fs : String → Option String) (path : String) :
    Except String (Option Json) :=
  match fs path with
  | none => Except.ok none
  | some content =>
      match jsonParse content with
      | Except.ok j => Except.ok (some j)
      | Except.error e => Except.error e

/-- `writeJsonFile`: pretty-print the data to `path`; when `backup` is
requested and the file exists, its previous content is first copied to
`path + ".bak"`. -/
def writeJsonFile (fs : String → Option String) (path : String) (data : Json)
    (backup : Bool) : String → Option String :=
  fun p =>
    if p = path then some (stringify2 data)
    else if backup && (fs path).isSome && p = path ++ ".bak" then fs path
    else fs p

mutual
/-- Real JS objects have no duplicate keys; `keysOk` carves out the
corresponding values (on which the embedded parser agrees with
`JSON.parse`, which keeps the last of duplicate keys). -/
def keysOk : Json → Bool
  | Json.obj ms => decide ((ms.map Prod.fst).Nodup) && keysOkFields ms
  | Json.arr es => keysOkItems es
  | _ => true
def keysOkItems : List Json → Bool
  | [] => true
  | e :: es => keysOk e && keysOkItems es
def keysOkFields : List (String × Json) → Bool
  | [] => true
  | (_, v) :: ms => keysOk v && keysOkFields ms
end

theorem digitChar_spec (k : Nat) (h : k < 10) :
    (Char.ofNat ('0'.toNat + k)).toNat - '0'.toNat = k ∧
      isDigitChar (Char.ofNat ('0'.toNat + k)) = true := by
  interval_cases k <;> exact ⟨by decide, by decide⟩

theorem digitsOf_append (n : Nat) : ∀ acc : List Char,
    digitsOf n acc = digitsOf n [] ++ acc := by
  induction n using Nat.strongRecOn with
  | _ n ih =>
      intro acc
      by_cases h : n < 10
      · unfold digitsOf
        simp [h]
      · unfold digitsOf
        simp only [if_neg h]
        rw [ih (n / 10) (by omega), ih (n / 10) (by omega) [_]]
        simp

theorem digitsOf_unfold (n : Nat) :
    digitsOf n [] = (if n < 10 then [] else digitsOf (n / 10) []) ++
      [Char.ofNat ('0'.toNat + n % 10)] := by
  by_cases h : n < 10
  · unfold digitsOf
    simp [h]
  · conv_lhs => rw [digitsOf]
    simp only [if_neg h]
    exact digitsOf_append (n / 10) [_]

theorem digitsOf_ne_nil (n : Nat) : digitsOf n [] ≠ [] := by
  rw [digitsOf_unfold]
  simp

theorem digitsOf_digit (n : Nat) : ∀ c ∈ digitsOf n [], isDigitChar c = true := by
  induction n using Nat.strongRecOn with
  | _ n ih =>
      rw [digitsOf_unfold]
      intro c hc
      rw [List.mem_append] at hc
      cases hc with
      | inl hm =>
          rcases Nat.lt_or_ge n 10 with hsmall | hbig
          · rw [if_pos hsmall] at hm
            exact absurd hm (List.not_mem_nil c)
          · rw [if_neg (by omega)] at hm
            exact ih (n / 10) (by omega) c hm
      | inr hm =>
          rw [List.mem_singleton] at hm
          subst hm
          exact (digitChar_spec _ (Nat.mod_lt _ (by omega))).2

theorem digitsVal_digitsOf (n : Nat) : digitsVal (digitsOf n []) = n := by
  induction n using Nat.strongRecOn with
  | _ n ih =>
      rw [digitsVal, digitsOf_unfold, List.foldl_append]
      by_cases h : n < 10
      · simp only [if_pos h, List.foldl_nil, List.foldl_cons]
        rw [(digitChar_spec _ (Nat.mod_lt _ (by omega))).1]
        omega
      · simp only [if_neg h, List.foldl_cons, List.foldl_nil]
        have := ih (n / 10) (by omega)
        rw [digitsVal] at this
        rw [this, (digitChar_spec _ (Nat.mod_lt _ (by omega))).1]
        omega

/-- A remainder that cannot extend a digit run. -/
def digDelim : List Char → Bool
  | [] => true
  | c :: _ => !isDigitChar c

theorem grabDigits_cons_not {c : Char} {t : List Char} (h : isDigitChar c = false) :
    grabDigits (c :: t) = ([], c :: t) := by
  simp [grabDigits, h]

theorem grabDigits_stop {cs : List Char} (h : digDelim cs = true) :
    grabDigits cs = ([], cs) := by
  match cs with
  | [] => rfl
  | c :: t =>
      simp only [digDelim, Bool.not_eq_true'] at h
      exact grabDigits_cons_not h

theorem grabDigits_append (ds : List Char) (hds : ∀ c ∈ ds, isDigitChar c = true)
    (rest : List Char) (hrest : grabDigits rest = ([], rest)) :
    grabDigits (ds ++ rest) = (ds, rest) := by
  induction ds with
  | nil => simpa using hrest
  | cons c t ih =>
      have hc : isDigitChar c = true := hds c (by simp)
      have ht := ih (fun x hx => hds x (by simp [hx]))
      simp [grabDigits, hc, ht]

theorem digitsOf_cons (m : Nat) :
    ∃ c t, digitsOf m [] = c :: t ∧ isDigitChar c = true := by
  match h : digitsOf m [] with
  | [] => exact absurd h (digitsOf_ne_nil m)
  | c :: t => exact ⟨c, t, rfl, digitsOf_digit m c (h ▸ List.mem_cons_self ..)⟩

theorem digit_not_minus {c : Char} (h : isDigitChar c = true) : c ≠ '-' :=
  fun e => by subst e; exact absurd h (by decide)

/-- The integer codec round-trip: `parseJNum` inverts `intChars` whenever
the remainder does not start with a digit. -/
theorem parseJNum_intChars (i : Int) (rest : List Char) (hr : digDelim rest = true) :
    parseJNum (intChars i ++ rest) = Except.ok (i, rest) := by
  by_cases hi : i < 0
  · have harg : intChars i ++ rest = '-' :: (digitsOf i.natAbs [] ++ rest) := by
      simp [intChars, hi]
    rw [harg]
    simp only [parseJNum]
    rw [grabDigits_append _ (digitsOf_digit _) _ (grabDigits_stop hr)]
    rw [if_neg (by simp [digitsOf_ne_nil])]
    have hval : ((digitsVal (digitsOf i.natAbs []) : Nat) : Int) = -i := by
      rw [digitsVal_digitsOf]; omega
    rw [hval]
    simp
  · obtain ⟨c0, t0, h0, hc0⟩ := digitsOf_cons i.natAbs
    have hns := digit_not_minus hc0
    have harg : intChars i ++ rest = c0 :: (t0 ++ rest) := by
      simp [intChars, hi, h0]
    rw [harg]
    simp only [parseJNum]
    have htd : grabDigits (c0 :: (t0 ++ rest)) = (c0 :: t0, rest) := by
      have := grabDigits_append _ (digitsOf_digit i.natAbs) _ (grabDigits_stop hr)
      rwa [h0, List.cons_append] at this
    have hdi : ((digitsVal (c0 :: t0) : Nat) : Int) = i := by
      have := digitsVal_digitsOf i.natAbs
      rw [h0] at this
      rw [this]
      omega
    simp [hns, htd, hdi]

theorem hexDigitVal_hexDigitChar (d : Nat) (h : d < 16) :
    hexDigitVal (hexDigitChar d) = some d := by
  interval_cases d <;> decide

/-- Parsing one escaped character undoes the escaping. -/
theorem strBody_esc (c : Char) (acc rest : List Char) :
    strBody acc (escChar c ++ rest) = strBody (c :: acc) rest := by
  simp only [escChar]
  split
  · rfl
  · rfl
  · rfl
  · rfl
  · rfl
  · rfl
  · rfl
  · rename_i cv h1 h2 h3 h4 h5 h6 h7
    by_cases hc20 : c.toNat < 0x20
    · have hmod : ∀ k : Nat, k % 16 < 16 := fun k => Nat.mod_lt _ (by omega)
      have hnib : c.toNat / 4096 % 16 * 4096 + c.toNat / 256 % 16 * 256 +
          c.toNat / 16 % 16 * 16 + c.toNat % 16 = c.toNat := by omega
      simp only [if_pos hc20, List.cons_append]
      simp [strBody, hexQuad, hexDigitVal_hexDigitChar _ (hmod _), hnib, Char.ofNat_toNat]
    · simp only [if_neg hc20, List.cons_append, List.nil_append]
      rw [strBody.eq_def]
      have hq : c ≠ '"' := h1
      have hbs : c ≠ '\\' := h2
      simp [hq, hbs]

/-- Parsing an escape-encoded run stops exactly at the closing quote. -/
theorem strBody_flatMap (cs : List Char) : ∀ acc rest : List Char,
    strBody acc (cs.flatMap escChar ++ '"' :: rest) =
      Except.ok (String.mk (acc.reverse ++ cs), rest) := by
  induction cs with
  | nil =>
      intro acc rest
      simp [strBody]
  | cons c cs ih =>
      intro acc rest
      rw [List.flatMap_cons, List.append_assoc, strBody_esc, ih]
      simp

/-- The string codec round-trip. -/
theorem strBody_quote (s : String) (rest : List Char) :
    strBody [] (s.toList.flatMap escChar ++ '"' :: rest) = Except.ok (s, rest) := by
  rw [strBody_flatMap]
  have hs : String.mk s.toList = s := by cases s; rfl
  simp [hs]

theorem wsSkip_spaces (n : Nat) (x : List Char) : wsSkip (spaces n ++ x) = wsSkip x := by
  induction n with
  | zero => rfl
  | succ m ih =>
      rw [show spaces (m + 1) = ' ' :: spaces m from List.replicate_succ _ _]
      rw [List.cons_append, show wsSkip (' ' :: (spaces m ++ x)) =
        wsSkip (spaces m ++ x) from rfl, ih]

theorem digit_facts {c : Char} (h : isDigitChar c = true) :
    isJsonWs c = false ∧ c ≠ ']' ∧ c ≠ '}' ∧ c ≠ 'n' ∧ c ≠ 't' ∧ c ≠ 'f' ∧
      c ≠ '"' ∧ c ≠ '[' ∧ c ≠ '{' ∧ c ≠ '-' := by
  constructor
  · cases hw : isJsonWs c
    · rfl
    · exfalso
      simp only [isJsonWs, Bool.or_eq_true, beq_iff_eq] at hw
      rcases hw with ((hw | hw) | hw) | hw <;> subst hw <;> exact absurd h (by decide)
  refine ⟨?_, ?_, ?_, ?_, ?_, ?_, ?_, ?_, ?_⟩ <;>
    (intro he; subst he; exact absurd h (by decide))

/-- Every rendered value begins with a non-whitespace character that is
no closing bracket or brace. -/
theorem renderV_head (ind : Nat) (j : Json) :
    ∃ c t, renderV ind j = c :: t ∧ isJsonWs c = false ∧ c ≠ ']' ∧ c ≠ '}' := by
  have hmk : ∀ (c : Char) (t : List Char), renderV ind j = c :: t →
      (isJsonWs c = false ∧ c ≠ ']' ∧ c ≠ '}') →
      ∃ c t, renderV ind j = c :: t ∧ isJsonWs c = false ∧ c ≠ ']' ∧ c ≠ '}' := by
    intro c t h1 h2
    exact ⟨c, t, h1, h2.1, h2.2.1, h2.2.2⟩
  cases j with
  | null => exact hmk 'n' _ rfl (by decide)
  | bool b =>
      cases b with
      | true => exact hmk 't' _ rfl (by decide)
      | false => exact hmk 'f' _ rfl (by decide)
  | str s => exact hmk '"' _ rfl (by decide)
  | num i =>
      by_cases hi : i < 0
      · exact hmk '-' (digitsOf i.natAbs []) (by simp [renderV, intChars, hi]) (by decide)
      · obtain ⟨c0, t0, h0, hc0⟩ := digitsOf_cons i.natAbs
        obtain ⟨hws, hbr, hbc, _⟩ := digit_facts hc0
        exact hmk c0 t0 (by simp [renderV, intChars, hi, h0]) ⟨hws, hbr, hbc⟩
  | arr es =>
      cases es with
      | nil => exact hmk '[' _ rfl (by decide)
      | cons e es => exact hmk '[' _ rfl (by decide)
  | obj ms =>
      cases ms with
      | nil => exact hmk '{' _ rfl (by decide)
      | cons m ms =>
          obtain ⟨k, v⟩ := m
          exact hmk '{' _ rfl (by decide)

theorem wsSkip_renderV (ind : Nat) (j : Json) (x : List Char) :
    wsSkip (renderV ind j ++ x) = renderV ind j ++ x := by
  obtain ⟨c, t, hren, hws, _, _⟩ := renderV_head ind j
  rw [hren, List.cons_append]
  simp [wsSkip, hws]

/-- One-step unfolding of `jparseVal` on a `[`. -/
theorem jparseVal_bracket (f : Nat) (r : List Char) :
    jparseVal (f + 1) ('[' :: r) =
      (match wsSkip r with
       | [] => Except.error "unexpected end of input"
       | c :: r2 =>
           if c = ']' then Except.ok (Json.arr [], r2)
           else
             match jparseItems f (c :: r2) with
             | Except.ok (es, r3) => Except.ok (Json.arr es, r3)
             | Except.error e => Except.error e) := rfl

/-- One-step unfolding of `jparseVal` on a `{`. -/
theorem jparseVal_brace (f : Nat) (r : List Char) :
    jparseVal (f + 1) ('{' :: r) =
      (match wsSkip r with
       | [] => Except.error "unexpected end of input"
       | c :: r2 =>
           if c = '}' then Except.ok (Json.obj [], r2)
           else
             match jparseFields f (c :: r2) with
             | Except.ok (ms, r3) => Except.ok (Json.obj ms, r3)
             | Except.error e => Except.error e) := rfl

/-- One-step unfolding of `jparseItems` at successor fuel. -/
theorem jparseItems_step (f : Nat) (cs : List Char) :
    jparseItems (f + 1) cs =
      (match jparseVal f cs with
       | Except.error e => Except.error e
       | Except.ok (v, r) =>
           match wsSkip r with
           | ',' :: r2 =>
               (match jparseItems f (wsSkip r2) with
                | Except.ok (vs, r3) => Except.ok (v :: vs, r3)
                | Except.error e => Except.error e)
           | ']' :: r2 => Except.ok ([v], r2)
           | _ => Except.error "expected comma or bracket") := rfl

/-- One-step unfolding of `jparseFields` at successor fuel. -/
theorem jparseFields_step (f : Nat) (cs : List Char) :
    jparseFields (f + 1) cs =
      (match wsSkip cs with
       | '"' :: r =>
           match strBody [] r with
           | Except.error e => Except.error e
           | Except.ok (key, r1) =>
               match wsSkip r1 with
               | ':' :: r2 =>
                   match jparseVal f (wsSkip r2) with
                   | Except.error e => Except.error e
                   | Except.ok (v, r3) =>
                       match wsSkip r3 with
                       | ',' :: r4 =>
                           match jparseFields f (wsSkip r4) with
                           | Except.ok (ms, r5) => Except.ok ((key, v) :: ms, r5)
                           | Except.error e => Except.error e
                       | '}' :: r4 => Except.ok ([(key, v)], r4)
                       | _ => Except.error "expected comma or brace"
               | _ => Except.error "expected colon"
       | _ => Except.error "expected string key") := rfl

/-- A value whose input starts like a number parses through `parseJNum`. -/
theorem jparseVal_to_num (f : Nat) (c0 : Char) (t : List Char)
    (hws : isJsonWs c0 = false) (hnul : c0 ≠ 'n') (htru : c0 ≠ 't')
    (hfls : c0 ≠ 'f') (hquo : c0 ≠ '"') (hop1 : c0 ≠ '[') (hop2 : c0 ≠ '{')
    (hg : (c0 == '-' || isDigitChar c0) = true) :
    jparseVal (f + 1) (c0 :: t) =
      (match parseJNum (c0 :: t) with
       | Except.ok (i, r2) => Except.ok (Json.num i, r2)
       | Except.error e => Except.error e) := by
  simp only [jparseVal]
  rw [show wsSkip (c0 :: t) = c0 :: t from by simp [wsSkip, hws]]
  simp [hnul, htru, hfls, hquo, hop1, hop2, hg]

theorem rt_num (i : Int) (f : Nat) (rest : List Char) (hr : digDelim rest = true) :
    jparseVal (f + 1) (intChars i ++ rest) = Except.ok (Json.num i, rest) := by
  by_cases hi : i < 0
  · have harg : intChars i ++ rest = '-' :: (digitsOf i.natAbs [] ++ rest) := by
      simp [intChars, hi]
    rw [harg, jparseVal_to_num f '-' _ (by decide) (by decide) (by decide) (by decide)
      (by decide) (by decide) (by decide) (by decide), ← harg, parseJNum_intChars i rest hr]
  · obtain ⟨c0, t0, h0, hc0⟩ := digitsOf_cons i.natAbs
    obtain ⟨hws, _, _, hn, ht, hf', hq, hbk, hbc, _⟩ := digit_facts hc0
    have harg : intChars i ++ rest = c0 :: (t0 ++ rest) := by
      simp [intChars, hi, h0]
    rw [harg, jparseVal_to_num f c0 _ hws hn ht hf' hq hbk hbc (by simp [hc0]),
      ← harg, parseJNum_intChars i rest hr]

theorem wsSkip_nl (x : List Char) : wsSkip ('\n' :: x) = wsSkip x := rfl

/-- The array branch of `jparseVal`, when the element text starts with a
rendered value (whose head closes no bracket). -/
theorem jparseVal_arr_red (f ind : Nat) (e : Json) (T r : List Char)
    (hw : wsSkip r = renderV ind e ++ T) :
    jparseVal (f + 1) ('[' :: r) =
      (match jparseItems f (renderV ind e ++ T) with
       | Except.ok (es2, r3) => Except.ok (Json.arr es2, r3)
       | Except.error e2 => Except.error e2) := by
  obtain ⟨c, t, hren, _, hcbr, _⟩ := renderV_head ind e
  rw [jparseVal_bracket, hw, hren, List.cons_append]
  show (if c = ']' then Except.ok (Json.arr [], t ++ T)
       else match jparseItems f (c :: (t ++ T)) with
         | Except.ok (es2, r3) => Except.ok (Json.arr es2, r3)
         | Except.error e2 => Except.error e2) =
      (match jparseItems f ((c :: t) ++ T) with
       | Except.ok (es2, r3) => Except.ok (Json.arr es2, r3)
       | Except.error e2 => Except.error e2)
  rw [if_neg hcbr, List.cons_append]

/-- The object branch of `jparseVal`, when the member text starts with a
quoted key. -/
theorem jparseVal_obj_red (f : Nat) (k : String) (X r : List Char)
    (hw : wsSkip r = quoteStr k ++ X) :
    jparseVal (f + 1) ('{' :: r) =
      (match jparseFields f (quoteStr k ++ X) with
       | Except.ok (ms2, r3) => Except.ok (Json.obj ms2, r3)
       | Except.error e2 => Except.error e2) := by
  rw [jparseVal_brace, hw, show quoteStr k ++ X =
    '"' :: ((k.toList.flatMap escChar ++ ['"']) ++ X) from by simp [quoteStr]]
  show (if ('"' : Char) = '}' then
        Except.ok (Json.obj [], (k.toList.flatMap escChar ++ ['"']) ++ X)
       else match jparseFields f ('"' :: ((k.toList.flatMap escChar ++ ['"']) ++ X)) with
         | Except.ok (ms2, r3) => Except.ok (Json.obj ms2, r3)
         | Except.error e2 => Except.error e2) =
      (match jparseFields f ('"' :: ((k.toList.flatMap escChar ++ ['"']) ++ X)) with
       | Except.ok (ms2, r3) => Except.ok (Json.obj ms2, r3)
       | Except.error e2 => Except.error e2)
  rw [if_neg (by decide)]

/-- `jparseFields` on a rendered member reduces past the key, colon and
space to the value parse and its continuation. -/
theorem jparseFields_member (f : Nat) (k : String) (ind : Nat) (v : Json) (T : List Char) :
    jparseFields (f + 1) (quoteStr k ++ (':' :: (' ' :: (renderV ind v ++ T)))) =
      (match jparseVal f (wsSkip (renderV ind v ++ T)) with
       | Except.error e => Except.error e
       | Except.ok (v2, r3) =>
           match wsSkip r3 with
           | ',' :: r4 =>
               match jparseFields f (wsSkip r4) with
               | Except.ok (ms, r5) => Except.ok ((k, v2) :: ms, r5)
               | Except.error e => Except.error e
           | '}' :: r4 => Except.ok ([(k, v2)], r4)
           | _ => Except.error "expected comma or brace") := by
  rw [jparseFields_step, show quoteStr k ++ (':' :: (' ' :: (renderV ind v ++ T))) =
    '"' :: (k.toList.flatMap escChar ++ ('"' :: (':' :: (' ' :: (renderV ind v ++ T)))))
    from by simp [quoteStr]]
  show (match strBody [] (k.toList.flatMap escChar ++
        ('"' :: (':' :: (' ' :: (renderV ind v ++ T))))) with
       | Except.error e => Except.error e
       | Except.ok (key, r1) =>
           match wsSkip r1 with
           | ':' :: r2 =>
               match jparseVal f (wsSkip r2) with
               | Except.error e => Except.error e
               | Except.ok (v2, r3) =>
                   match wsSkip r3 with
                   | ',' :: r4 =>
                       match jparseFields f (wsSkip r4) with
                       | Except.ok (ms, r5) => Except.ok ((key, v2) :: ms, r5)
                       | Except.error e => Except.error e
                   | '}' :: r4 => Except.ok ([(key, v2)], r4)
                   | _ => Except.error "expected comma or brace"
           | _ => Except.error "expected colon") = _
  rw [strBody_quote]
  rfl

mutual
theorem rt_val : ∀ (j : Json) (ind fuel : Nat) (rest : List Char),
    (renderV ind j).length < fuel → digDelim rest = true →
    jparseVal fuel (renderV ind j ++ rest) = Except.ok (j, rest)
  | Json.null, ind, fuel, rest, hf, _ => by
      cases fuel with
      | zero => simp [renderV] at hf
      | succ f => simp [renderV, jparseVal, wsSkip, isJsonWs]
  | Json.bool b, ind, fuel, rest, hf, _ => by
      cases fuel with
      | zero => cases b <;> simp [renderV] at hf
      | succ f => cases b <;> simp [renderV, jparseVal, wsSkip, isJsonWs]
  | Json.num i, ind, fuel, rest, hf, hr => by
      cases fuel with
      | zero => exact absurd hf (Nat.not_lt_zero _)
      | succ f =>
          rw [show renderV ind (Json.num i) = intChars i from rfl]
          exact rt_num i f rest hr
  | Json.str s, ind, fuel, rest, hf, _ => by
      cases fuel with
      | zero => exact absurd hf (Nat.not_lt_zero _)
      | succ f =>
          rw [show renderV ind (Json.str s) ++ rest
            = '"' :: (s.toList.flatMap escChar ++ ('"' :: rest)) from by
              simp [renderV, quoteStr]]
          show (match strBody [] (s.toList.flatMap escChar ++ ('"' :: rest)) with
               | Except.ok (s2, r2) => Except.ok (Json.str s2, r2)
               | Except.error e => Except.error e) = Except.ok (Json.str s, rest)
          rw [strBody_quote]
  | Json.arr [], ind, fuel, rest, hf, _ => by
      cases fuel with
      | zero => simp [renderV] at hf
      | succ f => simp [renderV, jparseVal, wsSkip, isJsonWs]
  | Json.arr (e :: es), ind, fuel, rest, hf, _ => by
      cases fuel with
      | zero => exact absurd hf (Nat.not_lt_zero _)
      | succ f =>
          have hbound : (renderV (ind + 2) e).length +
              (renderItemsSep (ind + 2) es).length + 1 < f := by
            simp only [renderV, List.length_cons, List.length_append, spaces,
              List.length_replicate] at hf
            omega
          have key := rt_items e es (ind + 2) ind f rest hbound
          have hskip : wsSkip ('\n' :: (((spaces (ind + 2) ++ renderV (ind + 2) e) ++
              (renderItemsSep (ind + 2) es ++ ('\n' :: (spaces ind ++ [']'])))) ++ rest))
              = renderV (ind + 2) e ++ (renderItemsSep (ind + 2) es ++
                  ('\n' :: (spaces ind ++ (']' :: rest)))) := by
            rw [wsSkip_nl, show ((spaces (ind + 2) ++ renderV (ind + 2) e) ++
                (renderItemsSep (ind + 2) es ++ ('\n' :: (spaces ind ++ [']'])))) ++ rest
              = spaces (ind + 2) ++ (renderV (ind + 2) e ++
                  (renderItemsSep (ind + 2) es ++ ('\n' :: (spaces ind ++ (']' :: rest)))))
              from by simp [List.append_assoc], wsSkip_spaces, wsSkip_renderV]
          rw [show renderV ind (Json.arr (e :: es)) ++ rest
            = '[' :: ('\n' :: (((spaces (ind + 2) ++ renderV (ind + 2) e) ++
                (renderItemsSep (ind + 2) es ++ ('\n' :: (spaces ind ++ [']'])))) ++ rest))
            from by simp [renderV],
            jparseVal_arr_red f (ind + 2) e _ _ hskip, key]
  | Json.obj [], ind, fuel, rest, hf, _ => by
      cases fuel with
      | zero => simp [renderV] at hf
      | succ f => simp [renderV, jparseVal, wsSkip, isJsonWs]
  | Json.obj ((k, v) :: ms), ind, fuel, rest, hf, _ => by
      cases fuel with
      | zero => exact absurd hf (Nat.not_lt_zero _)
      | succ f =>
          have hbound : (renderV (ind + 2) v).length +
              (renderFieldsSep (ind + 2) ms).length + 1 < f := by
            simp only [renderV, List.length_cons, List.length_append, spaces,
              List.length_replicate, quoteStr] at hf
            omega
          have key := rt_fields k v ms (ind + 2) ind f rest hbound
          have hskip : wsSkip ('\n' :: (((spaces (ind + 2) ++ (quoteStr k ++ ':' :: ' ' ::
              renderV (ind + 2) v)) ++
              (renderFieldsSep (ind + 2) ms ++ ('\n' :: (spaces ind ++ ['}'])))) ++ rest))
              = quoteStr k ++ (':' :: (' ' :: (renderV (ind + 2) v ++
                  (renderFieldsSep (ind + 2) ms ++
                    ('\n' :: (spaces ind ++ ('}' :: rest))))))) := by
            rw [wsSkip_nl, show ((spaces (ind + 2) ++ (quoteStr k ++ ':' :: ' ' ::
                renderV (ind + 2) v)) ++
                (renderFieldsSep (ind + 2) ms ++ ('\n' :: (spaces ind ++ ['}'])))) ++ rest
              = spaces (ind + 2) ++ (quoteStr k ++ (':' :: (' ' :: (renderV (ind + 2) v ++
                  (renderFieldsSep (ind + 2) ms ++
                    ('\n' :: (spaces ind ++ ('}' :: rest))))))))
              from by simp [quoteStr, List.append_assoc], wsSkip_spaces]
            rfl
          rw [show renderV ind (Json.obj ((k, v) :: ms)) ++ rest
            = '{' :: ('\n' :: (((spaces (ind + 2) ++ (quoteStr k ++ ':' :: ' ' ::
                renderV (ind + 2) v)) ++
                (renderFieldsSep (ind + 2) ms ++ ('\n' :: (spaces ind ++ ['}'])))) ++ rest))
            from by simp [renderV],
            jparseVal_obj_red f k _ _ hskip, key]
termination_by j _ _ _ _ _ => sizeOf j
theorem rt_items : ∀ (e : Json) (es : List Json) (ind ind0 fuel : Nat) (rest : List Char),
    (renderV ind e).length + (renderItemsSep ind es).length + 1 < fuel →
    jparseItems fuel (renderV ind e ++ (renderItemsSep ind es ++
      ('\n' :: (spaces ind0 ++ ']' :: rest)))) = Except.ok (e :: es, rest)
  | e, [], ind, ind0, fuel, rest, hf => by
      cases fuel with
      | zero => omega
      | succ f =>
          have hv := rt_val e ind f ('\n' :: (spaces ind0 ++ ']' :: rest))
            (by omega) rfl
          rw [show renderItemsSep ind [] = [] from rfl, List.nil_append,
            jparseItems_step, hv]
          show (match wsSkip ('\n' :: (spaces ind0 ++ ']' :: rest)) with
               | ',' :: r2 =>
                   (match jparseItems f (wsSkip r2) with
                    | Except.ok (vs, r3) => Except.ok (e :: vs, r3)
                    | Except.error e2 => Except.error e2)
               | ']' :: r2 => Except.ok ([e], r2)
               | _ => Except.error "expected comma or bracket") = Except.ok ([e], rest)
          rw [wsSkip_nl, wsSkip_spaces]
          rfl
  | e, x :: xs, ind, ind0, fuel, rest, hf => by
      cases fuel with
      | zero => omega
      | succ f =>
          simp only [renderItemsSep, List.length_cons, List.length_append, spaces,
            List.length_replicate] at hf
          have hv := rt_val e ind f (',' :: '\n' :: (spaces ind ++ (renderV ind x ++
              (renderItemsSep ind xs ++ ('\n' :: (spaces ind0 ++ ']' :: rest))))))
            (by omega) rfl
          have key := rt_items x xs ind ind0 f rest (by omega)
          have hskip2 : wsSkip ('\n' :: (spaces ind ++ (renderV ind x ++
              (renderItemsSep ind xs ++ ('\n' :: (spaces ind0 ++ ']' :: rest))))))
            = renderV ind x ++ (renderItemsSep ind xs ++
                ('\n' :: (spaces ind0 ++ ']' :: rest))) := by
            rw [wsSkip_nl, wsSkip_spaces, wsSkip_renderV]
          rw [show renderV ind e ++ (renderItemsSep ind (x :: xs) ++
              ('\n' :: (spaces ind0 ++ ']' :: rest)))
            = renderV ind e ++ (',' :: '\n' :: (spaces ind ++ (renderV ind x ++
                (renderItemsSep ind xs ++ ('\n' :: (spaces ind0 ++ ']' :: rest))))))
            from by simp [renderItemsSep, List.append_assoc],
            jparseItems_step, hv]
          show (match wsSkip (',' :: '\n' :: (spaces ind ++ (renderV ind x ++
                (renderItemsSep ind xs ++ ('\n' :: (spaces ind0 ++ ']' :: rest)))))) with
               | ',' :: r2 =>
                   (match jparseItems f (wsSkip r2) with
                    | Except.ok (vs, r3) => Except.ok (e :: vs, r3)
                    | Except.error e2 => Except.error e2)
               | ']' :: r2 => Except.ok ([e], r2)
               | _ => Except.error "expected comma or bracket")
            = Except.ok (e :: x :: xs, rest)
          show (match jparseItems f (wsSkip ('\n' :: (spaces ind ++ (renderV ind x ++
                (renderItemsSep ind xs ++ ('\n' :: (spaces ind0 ++ ']' :: rest))))))) with
               | Except.ok (vs, r3) => Except.ok (e :: vs, r3)
               | Except.error e2 => Except.error e2)
            = Except.ok (e :: x :: xs, rest)
          rw [hskip2, key]
termination_by e es _ _ _ _ _ => sizeOf e + sizeOf es
theorem rt_fields : ∀ (k : String) (v : Json) (ms : List (String × Json))
    (ind ind0 fuel : Nat) (rest : List Char),
    (renderV ind v).length + (renderFieldsSep ind ms).length + 1 < fuel →
    jparseFields fuel (quoteStr k ++ (':' :: (' ' :: (renderV ind v ++
      (renderFieldsSep ind ms ++ ('\n' :: (spaces ind0 ++ '}' :: rest)))))))
      = Except.ok ((k, v) :: ms, rest)
  | k, v, [], ind, ind0, fuel, rest, hf => by
      cases fuel with
      | zero => omega
      | succ f =>
          have hv := rt_val v ind f ('\n' :: (spaces ind0 ++ '}' :: rest))
            (by omega) rfl
          rw [show renderFieldsSep ind [] = [] from rfl, List.nil_append,
            jparseFields_member, wsSkip_renderV, hv]
          show (match wsSkip ('\n' :: (spaces ind0 ++ '}' :: rest)) with
               | ',' :: r4 =>
                   match jparseFields f (wsSkip r4) with
                   | Except.ok (ms, r5) => Except.ok ((k, v) :: ms, r5)
                   | Except.error e => Except.error e
               | '}' :: r4 => Except.ok ([(k, v)], r4)
               | _ => Except.error "expected comma or brace")
            = Except.ok ([(k, v)], rest)
          rw [wsSkip_nl, wsSkip_spaces]
          rfl
  | k, v, (k2, v2) :: ms, ind, ind0, fuel, rest, hf => by
      cases fuel with
      | zero => omega
      | succ f =>
          simp only [renderFieldsSep, List.length_cons, List.length_append, spaces,
            List.length_replicate, quoteStr] at hf
          have hv := rt_val v ind f (',' :: '\n' :: (spaces ind ++ (quoteStr k2 ++
              (':' :: (' ' :: (renderV ind v2 ++ (renderFieldsSep ind ms ++
                ('\n' :: (spaces ind0 ++ '}' :: rest)))))))))
            (by omega)
            rfl
          have key := rt_fields k2 v2 ms ind ind0 f rest
            (by omega)
          have hskip3 : wsSkip ('\n' :: (spaces ind ++ (quoteStr k2 ++
              (':' :: (' ' :: (renderV ind v2 ++ (renderFieldsSep ind ms ++
                ('\n' :: (spaces ind0 ++ '}' :: rest)))))))))
            = quoteStr k2 ++ (':' :: (' ' :: (renderV ind v2 ++ (renderFieldsSep ind ms ++
                ('\n' :: (spaces ind0 ++ '}' :: rest)))))) := by
            rw [wsSkip_nl, wsSkip_spaces]
            rfl
          rw [show quoteStr k ++ (':' :: (' ' :: (renderV ind v ++
              (renderFieldsSep ind ((k2, v2) :: ms) ++
                ('\n' :: (spaces ind0 ++ '}' :: rest))))))
            = quoteStr k ++ (':' :: (' ' :: (renderV ind v ++
                (',' :: '\n' :: (spaces ind ++ (quoteStr k2 ++
                  (':' :: (' ' :: (renderV ind v2 ++ (renderFieldsSep ind ms ++
                    ('\n' :: (spaces ind0 ++ '}' :: rest))))))))))))
            from by simp [renderFieldsSep, quoteStr, List.append_assoc],
            jparseFields_member, wsSkip_renderV, hv]
          show (match wsSkip (',' :: '\n' :: (spaces ind ++ (quoteStr k2 ++
                (':' :: (' ' :: (renderV ind v2 ++ (renderFieldsSep ind ms ++
                  ('\n' :: (spaces ind0 ++ '}' :: rest))))))))) with
               | ',' :: r4 =>
                   match jparseFields f (wsSkip r4) with
                   | Except.ok (ms2, r5) => Except.ok ((k, v) :: ms2, r5)
                   | Except.error e => Except.error e
               | '}' :: r4 => Except.ok ([(k, v)], r4)
               | _ => Except.error "expected comma or brace")
            = Except.ok ((k, v) :: (k2, v2) :: ms, rest)
          show (match jparseFields f (wsSkip ('\n' :: (spaces ind ++ (quoteStr k2 ++
                (':' :: (' ' :: (renderV ind v2 ++ (renderFieldsSep ind ms ++
                  ('\n' :: (spaces ind0 ++ '}' :: rest)))))))))) with
               | Except.ok (ms2, r5) => Except.ok ((k, v) :: ms2, r5)
               | Except.error e => Except.error e)
            = Except.ok ((k, v) :: (k2, v2) :: ms, rest)
          rw [hskip3, key]
termination_by k v ms _ _ _ _ _ => sizeOf v + sizeOf ms
end

/-- The full document round-trip: parsing a pretty-printed value recovers
it exactly. -/
theorem jsonParse_stringify2 (d : Json) : jsonParse (stringify2 d) = Except.ok d := by
  have hlist : (stringify2 d).toList = renderV 0 d := rfl
  have hv := rt_val d 0 ((renderV 0 d).length + 1) [] (by omega) rfl
  rw [List.append_nil] at hv
  rw [jsonParse, hlist, hv]
  simp [wsSkip]

/-- C4: writing a configuration object with `writeJsonFile` and reading
the same path back with `readJsonFile` yields exactly the object written,
for every file system state, path and backup setting.  The `keysOk`
hypothesis restricts the statement to values without duplicate object
keys — every value obtained from a real JS object — on which the embedded
parser agrees with `JSON.parse`. -/
theorem writeJsonFile_readJsonFile_roundtrip (fs : String → Option String)
    (path : String) (d : Json) (backup : Bool) (h : keysOk d = true) :
    readJsonFile (writeJsonFile fs path d backup) path = Except.ok (some d) := by
  have hw : writeJsonFile fs path d backup path = some (stringify2 d) := by
    simp [writeJsonFile]
  simp only [readJsonFile, hw, jsonParse_stringify2]

/-- Witness for `writeJsonFile_readJsonFile_roundtrip`: the Claude
settings object written to `settings.json` over an empty file system. -/
theorem writeJsonFile_readJsonFile_roundtrip_witness :
    readJsonFile
      (writeJsonFile (fun _ => none) "settings.json"
        (Json.obj [("env", Json.obj
          [("ANTHROPIC_BASE_URL", Json.str "https://ai.megallm.io"),
           ("ANTHROPIC_API_KEY", Json.str "sk-test")]),
          ("customApiKeyResponses", Json.obj
            [("approved", Json.arr [Json.str "sk-test"])]),
          ("version", Json.num 2)]) true)
      "settings.json" =
      Except.ok (some (Json.obj [("env", Json.obj
        [("ANTHROPIC_BASE_URL", Json.str "https://ai.megallm.io"),
         ("ANTHROPIC_API_KEY", Json.str "sk-test")]),
        ("customApiKeyResponses", Json.obj
          [("approved", Json.arr [Json.str "sk-test"])]),
        ("version", Json.num 2)])) :=
  writeJsonFile_readJsonFile_roundtrip (fun _ => none) "settings.json" _ true (by decide)

end Megallm
